import Mathlib

/-!
Verification of the pathfinding engine of `interactive-path-finder-ui`.

The development shallowly embeds the graph model (`src/models/Graph.ts`, the
legacy `src/models/Graph.js`, and the grid-aware JS model) together with the
four search algorithms (`dijkstra`, `dijkstraGrid`, `aStar`, `aStarGrid`) of
the pathfinding helper module.

Modelling conventions:
* JavaScript numbers are modelled by exact rationals extended with `Infinity`
  (`NumV`); floating-point rounding is outside the scope of this development.
  `Math.sqrt` is modelled by an exact rational square root (`ratSqrt`), which
  agrees with the real square root on perfect squares; every concrete input
  used below is a perfect square, and no general theorem below depends on the
  value of a square root.
* JavaScript objects used as string-keyed maps are modelled by insertion-ordered
  association lists (`objGet`/`objSet`); `Set` is modelled by an
  insertion-ordered duplicate-free list (`setAdd`/`setDelete`).
* A JavaScript variable that may hold a key, `null`, or `undefined` is
  modelled by `JV`.
* `while` loops that may fail to terminate are modelled with an explicit fuel
  parameter; a result of `none` means the loop is still running after `fuel`
  iterations, so `∀ fuel, … = none` expresses non-termination.
-/

/-- A JavaScript number as used by the engine: an exact rational or `Infinity`.
(`NaN` and `undefined` never need to be stored in the distance maps; where they
can occur transiently the embedding branches on the `Option` lookup instead.) -/
inductive NumV : Type where
  | fin : ℚ → NumV
  | inf : NumV
deriving DecidableEq, Repr

namespace NumV

/-- JavaScript `<` on (non-`NaN`) numbers: `Infinity < Infinity` is `false`. -/
def lt : NumV → NumV → Bool
  | fin a, fin b => decide (a < b)
  | fin _, inf => true
  | inf, _ => false

/-- The corresponding non-strict order (as a proposition). -/
def le : NumV → NumV → Prop
  | fin a, fin b => a ≤ b
  | _, inf => True
  | inf, fin _ => False

instance : ∀ a b : NumV, Decidable (le a b)
  | fin a, fin b => inferInstanceAs (Decidable (a ≤ b))
  | fin _, inf => inferInstanceAs (Decidable True)
  | inf, inf => inferInstanceAs (Decidable True)
  | inf, fin _ => inferInstanceAs (Decidable False)

/-- JavaScript `+` on such numbers: anything plus `Infinity` is `Infinity`. -/
def add : NumV → NumV → NumV
  | fin a, fin b => fin (a + b)
  | _, _ => inf

theorem le_refl (a : NumV) : le a a := by cases a <;> simp [le]

theorem le_trans : ∀ {a b c : NumV}, le a b → le b c → le a c
  | fin _, fin _, fin _, h1, h2 => h1.trans h2
  | fin _, fin _, inf, _, _ => trivial
  | fin _, inf, inf, _, _ => trivial
  | inf, inf, inf, _, _ => trivial
  | fin _, inf, fin _, _, h2 => h2.elim
  | inf, fin _, _, h1, _ => h1.elim
  | inf, inf, fin _, _, h2 => h2.elim

theorem le_of_lt : ∀ {a b : NumV}, lt a b = true → le a b := by
  intro a b h
  cases a <;> cases b <;> simp_all [lt, le]
  exact h.le

theorem le_of_not_lt : ∀ {a b : NumV}, lt b a = false → le a b := by
  intro a b h
  cases a <;> cases b <;> simp_all [lt, le]

theorem lt_of_le_lt : ∀ {a b c : NumV}, le a b → lt b c = true → lt a c = true := by
  intro a b c h1 h2
  cases a <;> cases b <;> cases c <;> simp_all [lt, le]
  try exact h1.trans_lt h2

theorem le_add_right : ∀ (a : NumV) {w : ℚ}, 0 ≤ w → le a (add a (fin w)) := by
  intro a w hw
  cases a <;> simp [le, add]
  linarith

theorem add_le_add_right : ∀ {a b : NumV} (w : NumV), le a b → le (add a w) (add b w) := by
  intro a b w h
  cases a <;> cases b <;> cases w <;> simp_all [le, add]

theorem fin_of_lt_inf : ∀ {a : NumV}, lt a inf = true → ∃ q, a = fin q := by
  intro a h
  cases a with
  | fin q => exact ⟨q, rfl⟩
  | inf => simp [lt] at h

theorem le_inf (a : NumV) : le a inf := by cases a <;> simp [le]

theorem add_fin : ∀ {a b : NumV} {q : ℚ}, add a b = fin q → ∃ x y, a = fin x ∧ b = fin y ∧ q = x + y := by
  intro a b q h
  cases a <;> cases b <;> simp_all [add]
  try exact h.symm

end NumV

/-- A JavaScript variable holding either a key value, `null`, or `undefined`. -/
inductive JV (α : Type) : Type where
  | val : α → JV α
  | jsnull : JV α
  | undef : JV α
deriving DecidableEq, Repr

section ObjModel

variable {α : Type} {β : Type} [DecidableEq α]

/-- Property read `obj[k]` on an object modelled as an insertion-ordered
association list; `none` models `undefined`. -/
def objGet : List (α × β) → α → Option β
  | [], _ => none
  | p :: t, k => if p.1 = k then some p.2 else objGet t k

/-- Property write `obj[k] = v`: overwrites in place, or appends a new binding. -/
def objSet : List (α × β) → α → β → List (α × β)
  | [], k, v => [(k, v)]
  | p :: t, k, v => if p.1 = k then (k, v) :: t else p :: objSet t k v

/-- `Set.add`: appends unless already present (JS sets are insertion-ordered). -/
def setAdd (s : List α) (x : α) : List α := if x ∈ s then s else s ++ [x]

/-- `Set.delete`: removes the (single) occurrence of `x`. -/
def setDelete : List α → α → List α
  | [], _ => []
  | a :: t, x => if a = x then t else a :: setDelete t x

theorem objGet_objSet_self (l : List (α × β)) (k : α) (v : β) :
    objGet (objSet l k v) k = some v := by
  induction l with
  | nil => simp [objGet, objSet]
  | cons p t ih =>
    by_cases h : p.1 = k <;> simp [objGet, objSet, h, ih]

theorem objGet_objSet_ne (l : List (α × β)) {k k' : α} (v : β) (h : k ≠ k') :
    objGet (objSet l k v) k' = objGet l k' := by
  induction l with
  | nil => simp [objGet, objSet, h]
  | cons p t ih =>
    by_cases hp : p.1 = k
    · simp only [objSet, if_pos hp, objGet]
      rw [if_neg h, if_neg (fun he : p.1 = k' => h (hp ▸ he))]
    · simp only [objSet, if_neg hp]
      by_cases hp' : p.1 = k' <;> simp [objGet, hp', ih]

theorem objSet_keys (l : List (α × β)) {k : α} (v : β) (h : k ∈ l.map Prod.fst) :
    (objSet l k v).map Prod.fst = l.map Prod.fst := by
  induction l with
  | nil => simp at h
  | cons p t ih =>
    by_cases hp : p.1 = k
    · simp [objSet, hp]
    · rw [List.map_cons] at h
      rcases List.mem_cons.mp h with h | h
      · exact absurd h.symm hp
      · simp [objSet, hp, ih h]

theorem objSet_append (l : List (α × β)) {k : α} (v : β) (h : k ∉ l.map Prod.fst) :
    objSet l k v = l ++ [(k, v)] := by
  induction l with
  | nil => simp [objSet]
  | cons p t ih =>
    rw [List.map_cons] at h
    have h1 : ¬ p.1 = k := fun he => h (he ▸ List.mem_cons_self _ _)
    have h2 : k ∉ t.map Prod.fst := fun hm => h (List.mem_cons_of_mem _ hm)
    simp [objSet, h1, ih h2]

theorem objGet_none_of_not_mem (l : List (α × β)) {k : α} (h : k ∉ l.map Prod.fst) :
    objGet l k = none := by
  induction l with
  | nil => rfl
  | cons p t ih =>
    rw [List.map_cons] at h
    have h1 : ¬ p.1 = k := fun he => h (he ▸ List.mem_cons_self _ _)
    have h2 : k ∉ t.map Prod.fst := fun hm => h (List.mem_cons_of_mem _ hm)
    simp [objGet, h1, ih h2]

theorem objGet_isSome_of_mem (l : List (α × β)) {k : α} (h : k ∈ l.map Prod.fst) :
    ∃ v, objGet l k = some v := by
  induction l with
  | nil => simp at h
  | cons p t ih =>
    by_cases hp : p.1 = k
    · exact ⟨p.2, by simp [objGet, hp]⟩
    · rw [List.map_cons] at h
      rcases List.mem_cons.mp h with h | h
      · exact absurd h.symm hp
      · simpa [objGet, hp] using ih h

theorem mem_of_objGet_isSome {l : List (α × β)} {k : α} {v : β} (h : objGet l k = some v) :
    k ∈ l.map Prod.fst := by
  induction l with
  | nil => simp [objGet] at h
  | cons p t ih =>
    by_cases hp : p.1 = k
    · rw [List.map_cons]
      exact hp ▸ List.mem_cons_self _ _
    · simp only [objGet, if_neg hp] at h
      rw [List.map_cons]
      exact List.mem_cons_of_mem _ (ih h)

theorem objGet_map_pointwise (keys : List α) (f : α → β) {k : α} (h : k ∈ keys) :
    objGet (keys.map fun x => (x, f x)) k = some (f k) := by
  induction keys with
  | nil => simp at h
  | cons a t ih =>
    by_cases ha : a = k
    · simp [objGet, ha]
    · rcases List.mem_cons.mp h with h | h
      · exact absurd h.symm ha
      · simp [objGet, ha, ih h]

theorem objGet_map_none (keys : List α) (f : α → β) {k : α} (h : k ∉ keys) :
    objGet (keys.map fun x => (x, f x)) k = none := by
  induction keys with
  | nil => rfl
  | cons a t ih =>
    have h1 : ¬ a = k := fun he => h (he ▸ List.mem_cons_self _ _)
    have h2 : k ∉ t := fun hm => h (List.mem_cons_of_mem _ hm)
    simp [objGet, h1, ih h2]

theorem setDelete_length {s : List α} {x : α} (h : x ∈ s) :
    (setDelete s x).length + 1 = s.length := by
  induction s with
  | nil => simp at h
  | cons a t ih =>
    by_cases ha : a = x
    · simp [setDelete, ha]
    · rcases List.mem_cons.mp h with h | h
      · exact absurd h.symm ha
      · simp [setDelete, ha, ih h]

theorem mem_setDelete {s : List α} {x y : α} (h : y ∈ setDelete s x) : y ∈ s := by
  induction s with
  | nil => simpa [setDelete] using h
  | cons a t ih =>
    by_cases ha : a = x
    · simp only [setDelete, if_pos ha] at h
      exact List.mem_cons_of_mem _ h
    · simp only [setDelete, if_neg ha] at h
      rcases List.mem_cons.mp h with h | h
      · exact h ▸ List.mem_cons_self _ _
      · exact List.mem_cons_of_mem _ (ih h)

theorem mem_setDelete_of_ne {s : List α} {x y : α} (hy : y ∈ s) (hne : y ≠ x) :
    y ∈ setDelete s x := by
  induction s with
  | nil => simp at hy
  | cons a t ih =>
    by_cases ha : a = x
    · simp only [setDelete, if_pos ha]
      rcases List.mem_cons.mp hy with h | h
      · exact absurd (h.trans ha) hne
      · exact h
    · simp only [setDelete, if_neg ha]
      rcases List.mem_cons.mp hy with h | h
      · exact h ▸ List.mem_cons_self _ _
      · exact List.mem_cons_of_mem _ (ih h)

theorem mem_setAdd_iff {s : List α} {x y : α} : y ∈ setAdd s x ↔ y ∈ s ∨ y = x := by
  by_cases h : x ∈ s
  · constructor
    · intro hy
      exact Or.inl (by simpa [setAdd, h] using hy)
    · intro hy
      rcases hy with hy | hy
      · simpa [setAdd, h]
      · simpa [setAdd, h, hy]
  · simp [setAdd, h]

end ObjModel

theorem NumV.lt_of_lt_le : ∀ {a b c : NumV}, NumV.lt a b = true → NumV.le b c → NumV.lt a c = true := by
  intro a b c h1 h2
  cases a <;> cases b <;> cases c <;> simp_all [NumV.lt, NumV.le]
  try exact h1.trans_le h2

theorem NumV.le_of_not_lt' : ∀ {a b : NumV}, ¬ NumV.lt b a = true → NumV.le a b := by
  intro a b h
  exact NumV.le_of_not_lt (Bool.not_eq_true _ ▸ eq_false_of_ne_true h)

section ScanMin

variable {α : Type} [DecidableEq α]

/-- One step of the linear scan `for (k of coll) if (dist[k] < min) { min = dist[k]; cur = k }`.
A missing binding is JavaScript `undefined`; `undefined < min` is `false`, so the
accumulator is unchanged. -/
def scanStep (dist : List (α × NumV)) (acc : Option α × NumV) (k : α) : Option α × NumV :=
  match objGet dist k with
  | some d => if NumV.lt d acc.2 then (some k, d) else acc
  | none => acc

/-- The scan for the member of `l` with minimal value in `dist`, starting from
`current = null; minDistance = Infinity`. -/
def scanMin (dist : List (α × NumV)) (l : List α) : Option α × NumV :=
  l.foldl (scanStep dist) (none, NumV.inf)

theorem scanStep_cases (dist : List (α × NumV)) (acc : Option α × NumV) (k : α) :
    scanStep dist acc k = acc ∨
      ∃ d, objGet dist k = some d ∧ NumV.lt d acc.2 = true ∧ scanStep dist acc k = (some k, d) := by
  unfold scanStep
  rcases hd : objGet dist k with _ | d
  · exact Or.inl rfl
  · by_cases hlt : NumV.lt d acc.2 = true
    · exact Or.inr ⟨d, rfl, hlt, by simp [hlt]⟩
    · exact Or.inl (by simp [hlt])

theorem scanFold_fst_some {dist : List (α × NumV)} :
    ∀ (l : List α) (acc : Option α × NumV) (c : α),
      (l.foldl (scanStep dist) acc).1 = some c → c ∈ l ∨ acc.1 = some c := by
  intro l
  induction l with
  | nil => intro acc c h; exact Or.inr h
  | cons a t ih =>
    intro acc c h
    rw [List.foldl_cons] at h
    rcases ih _ c h with h' | h'
    · exact Or.inl (List.mem_cons_of_mem _ h')
    · rcases scanStep_cases dist acc a with hs | ⟨d, _, _, hs⟩
      · rw [hs] at h'
        exact Or.inr h'
      · rw [hs] at h'
        simp at h'
        exact Or.inl (h' ▸ List.mem_cons_self _ _)

theorem scanFold_le_acc {dist : List (α × NumV)} :
    ∀ (l : List α) (acc : Option α × NumV),
      NumV.le (l.foldl (scanStep dist) acc).2 acc.2 := by
  intro l
  induction l with
  | nil => intro acc; exact NumV.le_refl _
  | cons a t ih =>
    intro acc
    rw [List.foldl_cons]
    refine NumV.le_trans (ih (scanStep dist acc a)) ?h
    rcases scanStep_cases dist acc a with hs | ⟨d, _, hlt, hs⟩
    · rw [hs]; exact NumV.le_refl _
    · rw [hs]
      exact NumV.le_of_lt hlt

theorem scanFold_le_mem {dist : List (α × NumV)} :
    ∀ (l : List α) (acc : Option α × NumV) (z : α), z ∈ l →
      ∀ dz, objGet dist z = some dz → NumV.le (l.foldl (scanStep dist) acc).2 dz := by
  intro l
  induction l with
  | nil => intro acc z hz; simp at hz
  | cons a t ih =>
    intro acc z hz dz hdz
    rw [List.foldl_cons]
    rcases List.mem_cons.mp hz with hz | hz
    · subst hz
      refine NumV.le_trans (scanFold_le_acc t _) ?h
      unfold scanStep
      rw [hdz]
      by_cases hlt : NumV.lt dz acc.2 = true
      · simp only [hlt, if_true]
        exact NumV.le_refl _
      · simp only [hlt, if_false, Bool.false_eq_true]
        exact NumV.le_of_not_lt' hlt
    · exact ih _ z hz dz hdz

/-- The accumulator invariant: when a current candidate exists, its recorded
value is its actual (finite) distance. -/
theorem scanFold_lookup {dist : List (α × NumV)} :
    ∀ (l : List α) (acc : Option α × NumV),
      (∀ c, acc.1 = some c → objGet dist c = some acc.2 ∧ NumV.lt acc.2 NumV.inf = true) →
      ∀ c, (l.foldl (scanStep dist) acc).1 = some c →
        objGet dist c = some (l.foldl (scanStep dist) acc).2 ∧
        NumV.lt (l.foldl (scanStep dist) acc).2 NumV.inf = true := by
  intro l
  induction l with
  | nil => intro acc h c hc; exact h c hc
  | cons a t ih =>
    intro acc h c hc
    rw [List.foldl_cons] at hc ⊢
    refine ih _ ?h c hc
    intro c' hc'
    rcases scanStep_cases dist acc a with hs | ⟨d, hd, hlt, hs⟩
    · rw [hs] at hc' ⊢
      exact h c' hc'
    · rw [hs] at hc' ⊢
      simp at hc'
      subst hc'
      exact ⟨hd, NumV.lt_of_lt_le hlt (NumV.le_inf acc.2)⟩

theorem scanMin_lookup {dist : List (α × NumV)} {l : List α} {c : α}
    (h : (scanMin dist l).1 = some c) :
    objGet dist c = some (scanMin dist l).2 ∧ NumV.lt (scanMin dist l).2 NumV.inf = true := by
  refine scanFold_lookup l (none, NumV.inf) ?h c h
  intro c hc
  simp at hc

theorem scanMin_mem {dist : List (α × NumV)} {l : List α} {c : α}
    (h : (scanMin dist l).1 = some c) : c ∈ l := by
  rcases scanFold_fst_some l (none, NumV.inf) c h with h' | h'
  · exact h'
  · simp at h'

theorem scanMin_le {dist : List (α × NumV)} {l : List α} {z : α} (hz : z ∈ l)
    {dz : NumV} (hdz : objGet dist z = some dz) : NumV.le (scanMin dist l).2 dz :=
  scanFold_le_mem l (none, NumV.inf) z hz dz hdz

theorem scanFold_none {dist : List (α × NumV)} :
    ∀ (l : List α) (acc : Option α × NumV),
      (l.foldl (scanStep dist) acc).1 = none →
      l.foldl (scanStep dist) acc = acc := by
  intro l
  induction l with
  | nil => intro acc _; rfl
  | cons a t ih =>
    intro acc h
    rw [List.foldl_cons] at h ⊢
    have hfold := ih (scanStep dist acc a) h
    rcases scanStep_cases dist acc a with hs | ⟨d, _, _, hs⟩
    · rw [hs] at hfold ⊢
      exact hfold
    · rw [hfold, hs] at h
      simp at h

/-- If the scan found no candidate, every member's distance is `Infinity`
(or `undefined`). -/
theorem scanMin_none {dist : List (α × NumV)} {l : List α}
    (h : (scanMin dist l).1 = none) {z : α} (hz : z ∈ l)
    {dz : NumV} (hdz : objGet dist z = some dz) : dz = NumV.inf := by
  have hle := @scanMin_le _ _ dist _ _ hz _ hdz
  have heq : scanMin dist l = (none, NumV.inf) := scanFold_none l (none, NumV.inf) h
  rw [heq] at hle
  cases dz with
  | fin q => exact absurd hle (by simp [NumV.le])
  | inf => rfl

end ScanMin

section Recon

variable {α : Type} [DecidableEq α]

/-- One step of `current = previous[current]`. Reading at a key not in the map
gives `undefined`; a stored `null` is `JV.jsnull`. When `current` is already
`undefined`, JavaScript coerces the property key to the string `"undefined"`:
`undefKey` is the key such a read goes to (`some "undefined"` for string-keyed
maps, `none` for cell-keyed maps, whose keys never equal `"undefined"`). -/
def prevLookup (undefKey : Option α) (prev : List (α × Option α)) : JV α → JV α
  | JV.val k =>
    match objGet prev k with
    | some (some c) => JV.val c
    | some none => JV.jsnull
    | none => JV.undef
  | JV.undef =>
    match undefKey with
    | some uk =>
      match objGet prev uk with
      | some (some c) => JV.val c
      | some none => JV.jsnull
      | none => JV.undef
    | none => JV.undef
  | JV.jsnull => JV.jsnull

/-- The reconstruction loop `while (current !== null) { path.unshift(current);
current = previous[current] }`, run for at most `fuel` iterations. The returned
list is in visit order (end first); the built JS array is its reverse. `none`
means the loop is still running after `fuel` iterations. -/
def reconChain (undefKey : Option α) (prev : List (α × Option α)) :
    Nat → JV α → Option (List (JV α))
  | 0, _ => none
  | fuel + 1, cur =>
    if cur = JV.jsnull then some []
    else (reconChain undefKey prev fuel (prevLookup undefKey prev cur)).map
      (fun rest => cur :: rest)

/-- Once `current` is `undefined` and the `"undefined"` read also misses, the
loop never terminates. -/
theorem reconChain_undef_none {undefKey : Option α} {prev : List (α × Option α)}
    (h : prevLookup undefKey prev JV.undef = JV.undef) :
    ∀ fuel, reconChain undefKey prev fuel JV.undef = none := by
  intro fuel
  induction fuel with
  | zero => rfl
  | succ n ih => simp [reconChain, h, ih]

theorem reconChain_no_jsnull {undefKey : Option α} {prev : List (α × Option α)} :
    ∀ (fuel : Nat) (cur : JV α) (ch : List (JV α)),
      reconChain undefKey prev fuel cur = some ch → JV.jsnull ∉ ch := by
  intro fuel
  induction fuel with
  | zero => intro cur ch h; simp [reconChain] at h
  | succ n ih =>
    intro cur ch h
    by_cases hc : cur = JV.jsnull
    · simp [reconChain, hc] at h
      subst h
      simp
    · simp only [reconChain, if_neg hc, Option.map_eq_some'] at h
      rcases h with ⟨rest, hrest, hch⟩
      subst hch
      intro hmem
      rcases List.mem_cons.mp hmem with hmem | hmem
      · exact hc hmem.symm
      · exact ih _ rest hrest hmem

theorem reconChain_no_undef {prev : List (α × Option α)} :
    ∀ (fuel : Nat) (cur : JV α) (ch : List (JV α)),
      reconChain none prev fuel cur = some ch → JV.undef ∉ ch := by
  intro fuel
  induction fuel with
  | zero => intro cur ch h; simp [reconChain] at h
  | succ n ih =>
    intro cur ch h
    by_cases hc : cur = JV.jsnull
    · simp [reconChain, hc] at h
      subst h
      simp
    · simp only [reconChain, if_neg hc, Option.map_eq_some'] at h
      rcases h with ⟨rest, hrest, hch⟩
      subst hch
      intro hmem
      rcases List.mem_cons.mp hmem with hmem | hmem
      · subst hmem
        have hu : prevLookup none prev JV.undef = JV.undef := rfl
        rw [hu, reconChain_undef_none hu n] at hrest
        cases hrest
      · exact ih _ rest hrest hmem

/-- Elements of a successfully reconstructed chain (cell-keyed maps): the
starting value, or a key stored in the predecessor map. -/
theorem reconChain_elems {prev : List (α × Option α)} :
    ∀ (fuel : Nat) (cur : JV α) (ch : List (JV α)),
      reconChain none prev fuel cur = some ch →
      ∀ x ∈ ch, x = cur ∨ ∃ k c, objGet prev k = some (some c) ∧ x = JV.val c := by
  intro fuel
  induction fuel with
  | zero => intro cur ch h; simp [reconChain] at h
  | succ n ih =>
    intro cur ch h x hx
    by_cases hc : cur = JV.jsnull
    · simp [reconChain, hc] at h
      subst h
      simp at hx
    · simp only [reconChain, if_neg hc, Option.map_eq_some'] at h
      rcases h with ⟨rest, hrest, hch⟩
      subst hch
      rcases List.mem_cons.mp hx with hx' | hx'
      · exact Or.inl hx'
      · rcases ih _ rest hrest x hx' with hx'' | hx''
        · subst hx''
          rcases cur with k | _ | _
          · rcases hk : objGet prev k with _ | oc
            · exfalso
              have hu1 : prevLookup none prev (JV.val k) = JV.undef := by
                simp [prevLookup, hk]
              have hu : prevLookup none prev JV.undef = JV.undef := rfl
              rw [hu1, reconChain_undef_none hu n] at hrest
              cases hrest
            · rcases oc with _ | c
              · exfalso
                have hn1 : prevLookup none prev (JV.val k) = JV.jsnull := by
                  simp [prevLookup, hk]
                exact reconChain_no_jsnull n _ rest hrest (hn1 ▸ hx')
              · have hv : prevLookup none prev (JV.val k) = JV.val c := by
                  simp [prevLookup, hk]
                exact Or.inr ⟨k, c, hk, hv⟩
          · exact absurd rfl hc
          · exfalso
            have hu : prevLookup none prev JV.undef = JV.undef := rfl
            rw [hu, reconChain_undef_none hu n] at hrest
            cases hrest
        · exact Or.inr hx''

end Recon

/-! ## The graph model

`src/models/Graph.ts` (the TypeScript model used by the app) and the legacy
JavaScript models. Node identifiers produced by `generateId` have the shape
`"node-"` followed by nine random alphanumeric characters — in particular they
always contain a dash. -/

/-- A free-form node (`{id, x, y, label}`). -/
structure Node : Type where
  id : String
  x : ℚ
  y : ℚ
  label : String
deriving DecidableEq, Repr

/-- A directed edge entry (`{from, to, weight}`; `from` is a Lean keyword, so
the fields are named `fromId`/`toId`). -/
structure Edge : Type where
  fromId : String
  toId : String
  weight : ℚ
deriving DecidableEq, Repr

/-- The edge-map key `` `${fromId}-${toId}` ``. -/
def edgeKey (a b : String) : String := a ++ "-" ++ b

/-- The graph model of `src/models/Graph.ts` (all fields). -/
structure Graph : Type where
  nodes : List (String × Node)
  edges : List (String × Edge)
  nodeCounter : Nat
  grid : List (List ℚ)
  gridSize : Nat
  cellSize : ℚ
  isGridMode : Bool
  finalPath : List String
  visitedCells : List String
  isPathHighlighted : Bool
deriving DecidableEq, Repr

/-- Grid cell read `this.grid[r][c]`. An out-of-range read gives JS
`undefined`; the default `0` used here behaves identically in every use below
(`=== -1` is false, `>= 1` is false, and `x || 1` is `1`). -/
def gridGet (grid : List (List ℚ)) (r c : Nat) : ℚ := (grid.getD r []).getD c 0

/-- `getNeighbors`: all edge targets whose source is `nodeId`, in insertion
order (identical in all model versions). -/
def getNeighborsE (edges : List (String × Edge)) (nodeId : String) : List String :=
  (edges.map Prod.snd).filterMap (fun e => if e.fromId = nodeId then some e.toId else none)

/-- `getEdge(fromId, toId)`: lookup of the key `` `${fromId}-${toId}` ``. -/
def getEdgeE (edges : List (String × Edge)) (fromId toId : String) : Option Edge :=
  objGet edges (edgeKey fromId toId)

def Graph.getNeighbors (g : Graph) (nodeId : String) : List String :=
  getNeighborsE g.edges nodeId

def Graph.getEdge (g : Graph) (fromId toId : String) : Option Edge :=
  getEdgeE g.edges fromId toId

/-- JavaScript `s.split(sep)` for a single-character separator, by structural
recursion over the characters (the library `splitOn` is extensionally the same
but does not evaluate by kernel reduction). -/
def splitOnCharGo (c : Char) : List Char → List Char → List String
  | [], acc => [String.mk acc.reverse]
  | x :: xs, acc =>
    if x = c then String.mk acc.reverse :: splitOnCharGo c xs []
    else splitOnCharGo c xs (x :: acc)

/-- `s.split(c)`. -/
def splitOnChar (c : Char) (s : String) : List String := splitOnCharGo c s.data []

/-- The destructuring `const [from, to] = edgeKey.split('-')` followed by
`from === nodeId || to === nodeId`: only the first two dash-separated segments
are compared (`to` may be `undefined`, which never equals a string). -/
def edgeKeyMatches (k nodeId : String) : Bool :=
  match splitOnChar ('-') k with
  | [] => false
  | [a] => decide (a = nodeId)
  | a :: b :: _ => decide (a = nodeId ∨ b = nodeId)

/-- `removeNode` of `src/models/Graph.ts` (identical in the JS models):
no-op when absent, otherwise delete every edge whose key matches the split
test, then delete the node. -/
def Graph.removeNode (g : Graph) (nodeId : String) : Graph :=
  if (objGet g.nodes nodeId).isNone then g
  else
    { g with
      edges := g.edges.filter (fun p => ! edgeKeyMatches p.1 nodeId)
      nodes := g.nodes.filter (fun p => ! decide (p.1 = nodeId)) }

/-- `addEdge` of `src/models/Graph.ts`: fails when either endpoint is absent or
an edge already exists in either direction; otherwise inserts both directed
entries. Returned together with the updated model. -/
def Graph.addEdge (g : Graph) (fromId toId : String) (weight : ℚ) : Option Edge × Graph :=
  if (objGet g.nodes fromId).isNone ∨ (objGet g.nodes toId).isNone then (none, g)
  else if (objGet g.edges (edgeKey fromId toId)).isSome ∨
      (objGet g.edges (edgeKey toId fromId)).isSome then (none, g)
  else
    (some ⟨fromId, toId, weight⟩,
      { g with
        edges := objSet (objSet g.edges (edgeKey fromId toId) ⟨fromId, toId, weight⟩)
          (edgeKey toId fromId) ⟨toId, fromId, weight⟩ })

/-- The legacy model of `src/models/Graph.js` (no grid fields). -/
structure GraphJS : Type where
  nodes : List (String × Node)
  edges : List (String × Edge)
  nodeCounter : Nat
deriving DecidableEq, Repr

/-- `addEdge` of `src/models/Graph.js`. Its guard reads
`!this.nodes[fromId] || !this.nodes[fromId]` — the second disjunct repeats
`fromId`, so `toId` is never checked. The rest is as in the TS model. -/
def GraphJS.addEdge (g : GraphJS) (fromId toId : String) (weight : ℚ) :
    Option Edge × GraphJS :=
  if (objGet g.nodes fromId).isNone ∨ (objGet g.nodes fromId).isNone then (none, g)
  else if (objGet g.edges (edgeKey fromId toId)).isSome ∨
      (objGet g.edges (edgeKey toId fromId)).isSome then (none, g)
  else
    (some ⟨fromId, toId, weight⟩,
      { g with
        edges := objSet (objSet g.edges (edgeKey fromId toId) ⟨fromId, toId, weight⟩)
          (edgeKey toId fromId) ⟨toId, fromId, weight⟩ })

/-- `getGridNeighbors` of `src/models/Graph.ts`: the four orthogonal
directions, in bounds, and `cellType >= 1` only ("Only add if it's a road");
the weight is the cell code. -/
def tsNeighborAt (g : Graph) (r c : Int) : Option (Nat × Nat × ℚ) :=
  if 0 ≤ r ∧ r < (g.gridSize : Int) ∧ 0 ≤ c ∧ c < (g.gridSize : Int) then
    let cellType := gridGet g.grid r.toNat c.toNat
    if 1 ≤ cellType then some (r.toNat, c.toNat, cellType) else none
  else none

def Graph.getGridNeighbors (g : Graph) (row col : Int) : List (Nat × Nat × ℚ) :=
  ([(-1, 0), (1, 0), (0, -1), (0, 1)] : List (Int × Int)).filterMap (fun d =>
    tsNeighborAt g (row + d.1) (col + d.2))

/-- `cellType || 1`: a JS falsy cell code (`0`) falls back to `1`. -/
def jsWeight (q : ℚ) : ℚ := if q = 0 then 1 else q

/-- `getGridNeighbors` of the grid-aware JS model: the four orthogonal
directions, in bounds, not an obstacle (`cellType !== -1`); the weight is
`cellType || 1` (code `0` falls back to weight `1`). -/
def jsNeighborAt (grid : List (List ℚ)) (gridSize : Nat) (r c : Int) :
    Option (Nat × Nat × ℚ) :=
  if 0 ≤ r ∧ r < (gridSize : Int) ∧ 0 ≤ c ∧ c < (gridSize : Int) then
    let cellType := gridGet grid r.toNat c.toNat
    if cellType = -1 then none
    else some (r.toNat, c.toNat, jsWeight cellType)
  else none

def getGridNeighborsJS (grid : List (List ℚ)) (gridSize : Nat) (row col : Int) :
    List (Nat × Nat × ℚ) :=
  ([(-1, 0), (1, 0), (0, -1), (0, 1)] : List (Int × Int)).filterMap (fun d =>
    jsNeighborAt grid gridSize (row + d.1) (col + d.2))

/-- `Math.sqrt`, modelled by the exact rational square root: exact whenever the
radicand is a perfect square (as in every concrete computation below); no
general theorem depends on its value elsewhere. -/
def ratSqrt (q : ℚ) : ℚ := mkRat (Int.sqrt q.num) (Nat.sqrt q.den)

/-- `euclideanDistance(node1, node2)`. -/
def euclideanDistance (node1 node2 : Node) : ℚ :=
  ratSqrt ((node2.x - node1.x) ^ 2 + (node2.y - node1.y) ^ 2)

/-- `manhattanDistance(cell1, cell2)` on grid cells. -/
def manhattanDistance (cell1 cell2 : Nat × Nat) : ℚ :=
  (((cell1.1 : Int) - cell2.1).natAbs + ((cell1.2 : Int) - cell2.2).natAbs : Nat)

/-- Grid cell identifiers. The source addresses cells by the canonical string
key `` `${row},${col}` ``; the key format is a bijection onto pairs of naturals
and every caller builds keys from in-grid coordinates, so cells are modelled by
the pair `(row, col)` itself. -/
abbrev Cell : Type := Nat × Nat

/-- Formatting of the canonical cell key. -/
def cellStr (c : Cell) : String := toString c.1 ++ "," ++ toString c.2

/-- Parsing `` "row,col" `` via `split(',').map(Number)`; `none` models a pair
containing `NaN` (which fails every comparison below, like an out-of-grid
sentinel). -/
def parseCell (s : String) : Option Cell :=
  match splitOnChar (',') s with
  | [a, b] =>
    match a.toNat?, b.toNat? with
    | some x, some y => some (x, y)
    | _, _ => none
  | _ => none

/-! ## The search algorithms

Embeddings of `dijkstra`, `dijkstraGrid`, `aStar`, `aStarGrid` from the
pathfinding helper module. The main `while` loops carry explicit fuel; the
graph parameter is passed as the components the source accesses
(`graph.nodes`, `graph.edges`, `graph.grid`, `graph.gridSize`,
`graph.isGridMode`, via `getNeighbors`/`getEdge`/`getGridNeighbors`). -/

/-- The result record `{ path, distance, visited }`. `path`/`visited` hold JS
values (strings or, in a diverging `aStar` run, `null`); `distance` is the raw
property read, `none` modelling `undefined`. -/
structure SearchResult (α : Type) : Type where
  path : List (JV α)
  distance : Option NumV
  visited : List (JV α)
deriving DecidableEq, Repr

/-- A search outcome: a normal return or a thrown `TypeError`. -/
inductive JSRes (α : Type) : Type where
  | ok : SearchResult α → JSRes α
  | typeError : JSRes α
deriving DecidableEq, Repr

/-- Loop state of free-form `dijkstra`. -/
structure DijState : Type where
  distances : List (String × NumV)
  previous : List (String × Option String)
  unvisited : List String
  visited : List String
deriving DecidableEq, Repr

/-- One step of `Object.keys(graph.nodes).forEach(...)`: distance 0 at the
start node and `Infinity` elsewhere, a null predecessor, and insertion into
the unvisited set. -/
def dijkstraInitStep (startId : String) (st : DijState) (k : String) : DijState :=
  { distances := objSet st.distances k (if k = startId then NumV.fin 0 else NumV.inf)
    previous := objSet st.previous k none
    unvisited := setAdd st.unvisited k
    visited := st.visited }

/-- The initialisation loop of free-form `dijkstra`. -/
def dijkstraInit (keys : List String) (startId : String) : DijState :=
  keys.foldl (dijkstraInitStep startId) ⟨[], [], [], []⟩

/-- The body of `for (const neighbor of neighbors)`: skip visited neighbours,
read the edge weight (`Infinity` when `getEdge` misses), and relax. A missing
`distances[current]` would make `newDistance` `NaN` and a missing
`distances[neighbor]` is `undefined`; both make the `<` test false, so the
state is unchanged in those branches. -/
def relaxNeighbor (edges : List (String × Edge)) (cur : String) (st : DijState)
    (nb : String) : DijState :=
  if nb ∈ st.visited then st
  else
    let w : NumV := match getEdgeE edges cur nb with
      | some ed => NumV.fin ed.weight
      | none => NumV.inf
    match objGet st.distances cur with
    | none => st
    | some dc =>
      let nd := NumV.add dc w
      match objGet st.distances nb with
      | none => st
      | some dnb =>
        if NumV.lt nd dnb then
          { st with
            distances := objSet st.distances nb nd
            previous := objSet st.previous nb (some cur) }
        else st

/-- The main `while (unvisited.size > 0)` loop of free-form `dijkstra`:
linear-scan the minimum, break on `null` or the end node, otherwise move the
node to `visited` and relax its neighbours. -/
def dijkstraLoop (edges : List (String × Edge)) (endId : String) :
    Nat → DijState → DijState
  | 0, st => st
  | fuel + 1, st =>
    if st.unvisited.isEmpty then st
    else
      match (scanMin st.distances st.unvisited).1 with
      | none => st
      | some cur =>
        if cur = endId then st
        else
          dijkstraLoop edges endId fuel
            ((getNeighborsE edges cur).foldl (relaxNeighbor edges cur)
              { st with
                unvisited := setDelete st.unvisited cur
                visited := setAdd st.visited cur })

/-- Free-form `dijkstra` after the `isGridMode` dispatch: run the loop, then
reconstruct the path from `endNodeId` and build the result record. A path of
length ≤ 1 is replaced by `[]`. -/
def dijkstraFree (fuel : Nat) (nodes : List (String × Node))
    (edges : List (String × Edge)) (startId endId : String) :
    Option (SearchResult String) :=
  let st := dijkstraLoop edges endId fuel (dijkstraInit (nodes.map Prod.fst) startId)
  (reconChain (some ("undefined")) st.previous fuel (JV.val endId)).map (fun chain =>
    { path := if 1 < chain.length then chain.reverse else []
      distance := objGet st.distances endId
      visited := st.visited.map JV.val })

/-- Loop state of `dijkstraGrid`. -/
structure DijGridState : Type where
  distances : List (Cell × NumV)
  previous : List (Cell × Option Cell)
  unvisited : List Cell
  visited : List Cell
deriving DecidableEq, Repr

/-- Row-major enumeration of all cells of an `n × n` grid. -/
def gridCells (n : Nat) : List Cell :=
  (List.range n).flatMap (fun r => (List.range n).map (fun c => (r, c)))

/-- One step of the double initialisation loop of `dijkstraGrid`: skip
obstacles (`grid[row][col] === -1`), distance 0 at the start cell. -/
def dijkstraGridInitStep (grid : List (List ℚ)) (startCell : Cell)
    (st : DijGridState) (rc : Cell) : DijGridState :=
  if gridGet grid rc.1 rc.2 = -1 then st
  else
    { distances := objSet st.distances rc (if rc = startCell then NumV.fin 0 else NumV.inf)
      previous := objSet st.previous rc none
      unvisited := setAdd st.unvisited rc
      visited := st.visited }

/-- The initialisation loop of `dijkstraGrid`. -/
def dijkstraGridInit (grid : List (List ℚ)) (n : Nat) (startCell : Cell) : DijGridState :=
  (gridCells n).foldl (dijkstraGridInitStep grid startCell) ⟨[], [], [], []⟩

/-- Neighbour relaxation of `dijkstraGrid` (the weight comes with the
neighbour record). -/
def relaxGridNeighbor (cur : Cell) (st : DijGridState) (nb : Nat × Nat × ℚ) : DijGridState :=
  let nbKey : Cell := (nb.1, nb.2.1)
  if nbKey ∈ st.visited then st
  else
    match objGet st.distances cur with
    | none => st
    | some dc =>
      let nd := NumV.add dc (NumV.fin nb.2.2)
      match objGet st.distances nbKey with
      | none => st
      | some dnb =>
        if NumV.lt nd dnb then
          { st with
            distances := objSet st.distances nbKey nd
            previous := objSet st.previous nbKey (some cur) }
        else st

/-- The main loop of `dijkstraGrid`; neighbours come from the JS model's
`getGridNeighbors`. -/
def dijkstraGridLoop (grid : List (List ℚ)) (n : Nat) (endCell : Cell) :
    Nat → DijGridState → DijGridState
  | 0, st => st
  | fuel + 1, st =>
    if st.unvisited.isEmpty then st
    else
      match (scanMin st.distances st.unvisited).1 with
      | none => st
      | some cur =>
        if cur = endCell then st
        else
          dijkstraGridLoop grid n endCell fuel
            ((getGridNeighborsJS grid n cur.1 cur.2).foldl (relaxGridNeighbor cur)
              { st with
                unvisited := setDelete st.unvisited cur
                visited := setAdd st.visited cur })

/-- `distances[endCell] || Infinity`: an `undefined` or `0` (falsy!) distance
becomes `Infinity`. -/
def jsOrInf : Option NumV → NumV
  | none => NumV.inf
  | some (NumV.fin q) => if q = 0 then NumV.inf else NumV.fin q
  | some NumV.inf => NumV.inf

/-- `dijkstraGrid(graph, startCell, endCell)`. -/
def dijkstraGridF (fuel : Nat) (grid : List (List ℚ)) (n : Nat) (startCell endCell : Cell) :
    Option (SearchResult Cell) :=
  let st := dijkstraGridLoop grid n endCell fuel (dijkstraGridInit grid n startCell)
  (reconChain none st.previous fuel (JV.val endCell)).map (fun chain =>
    { path := if 1 < chain.length then chain.reverse else []
      distance := some (jsOrInf (objGet st.distances endCell))
      visited := st.visited.map JV.val })

/-- Loop state of free-form `aStar`. The closed set can contain `null` (added
when the scan finds no candidate), wherefore its elements are JS values. -/
structure AStarState : Type where
  openSet : List String
  closedSet : List (JV String)
  gScore : List (String × NumV)
  fScore : List (String × NumV)
  previous : List (String × Option String)
deriving DecidableEq, Repr

/-- Initialisation of `aStar`: `gScore`/`fScore`/`previous` over the node keys;
for the start node the heuristic `euclideanDistance(nodes[nodeId],
nodes[endNodeId])` is evaluated — reading `.x` of a missing end node throws a
`TypeError`, modelled by `none`. -/
def aStarInitStep (nodes : List (String × Node)) (startId endId : String)
    (st : AStarState) (k : String) : Option AStarState :=
  if k = startId then
    match objGet nodes k, objGet nodes endId with
    | some a, some b =>
      some { st with
        gScore := objSet st.gScore k (NumV.fin 0)
        fScore := objSet st.fScore k (NumV.fin (euclideanDistance a b))
        previous := objSet st.previous k none }
    | _, _ => none
  else
    some { st with
      gScore := objSet st.gScore k NumV.inf
      fScore := objSet st.fScore k NumV.inf
      previous := objSet st.previous k none }

def aStarInit (nodes : List (String × Node)) (startId endId : String) :
    Option AStarState :=
  (nodes.map Prod.fst).foldlM (aStarInitStep nodes startId endId)
    ⟨[startId], [], [], [], []⟩

/-- Neighbour processing of `aStar`: skip closed neighbours; a missing
`gScore[current]` or `gScore[neighbor]` makes the improvement test false.
On improvement the heuristic is evaluated at `nodes[neighbor]` and
`nodes[endNodeId]`; a missing node there would throw (`none`). -/
def aStarRelax (nodes : List (String × Node)) (edges : List (String × Edge))
    (endId : String) (cur : String) (st : AStarState) (nb : String) :
    Option AStarState :=
  if JV.val nb ∈ st.closedSet then some st
  else
    let w : NumV := match getEdgeE edges cur nb with
      | some ed => NumV.fin ed.weight
      | none => NumV.inf
    match objGet st.gScore cur with
    | none => some st
    | some gc =>
      let t := NumV.add gc w
      match objGet st.gScore nb with
      | none => some st
      | some gnb =>
        if NumV.lt t gnb then
          match objGet nodes nb, objGet nodes endId with
          | some a, some b =>
            some { st with
              previous := objSet st.previous nb (some cur)
              gScore := objSet st.gScore nb t
              fScore := objSet st.fScore nb (NumV.add t (NumV.fin (euclideanDistance a b)))
              openSet := setAdd st.openSet nb }
          | _, _ => none
        else some st

/-- The main `while (openSet.size > 0)` loop of `aStar`. When the minimum scan
yields `null`, `openSet.delete(null)` is a no-op and `closedSet.add(null)`
adds `null`, `getNeighbors(null)` is empty — the loop spins (possibly
forever). On reaching the end the path is reconstructed and returned at once
(no length filter). -/
def aStarLoop (nodes : List (String × Node)) (edges : List (String × Edge))
    (endId : String) : Nat → AStarState → Option (JSRes String)
  | 0, _ => none
  | fuel + 1, st =>
    if st.openSet.isEmpty then
      some (JSRes.ok ⟨[], some NumV.inf, st.closedSet⟩)
    else
      match (scanMin st.fScore st.openSet).1 with
      | some cur =>
        if cur = endId then
          (reconChain (some ("undefined")) st.previous (fuel + 1) (JV.val cur)).map
            (fun chain => JSRes.ok ⟨chain.reverse, objGet st.gScore endId, st.closedSet⟩)
        else
          match (getNeighborsE edges cur).foldlM (aStarRelax nodes edges endId cur)
            { st with
              openSet := setDelete st.openSet cur
              closedSet := setAdd st.closedSet (JV.val cur) } with
          | some st' => aStarLoop nodes edges endId fuel st'
          | none => some JSRes.typeError
      | none =>
        aStarLoop nodes edges endId fuel
          { st with closedSet := setAdd st.closedSet JV.jsnull }

/-- `aStar` after the `isGridMode` dispatch, with explicit fuel. -/
def aStarFree (fuel : Nat) (nodes : List (String × Node))
    (edges : List (String × Edge)) (startId endId : String) : Option (JSRes String) :=
  match aStarInit nodes startId endId with
  | none => some JSRes.typeError
  | some st => aStarLoop nodes edges endId fuel st

/-- Loop state of `aStarGrid`. -/
structure AStarGridState : Type where
  openSet : List Cell
  closedSet : List (JV Cell)
  gScore : List (Cell × NumV)
  fScore : List (Cell × NumV)
  previous : List (Cell × Option Cell)
deriving DecidableEq, Repr

/-- Initialisation of `aStarGrid`: over all non-obstacle cells; the start cell
gets `gScore 0` and the Manhattan heuristic to the end position. -/
def aStarGridInit (grid : List (List ℚ)) (n : Nat) (startCell endCell : Cell) :
    AStarGridState :=
  (gridCells n).foldl (fun st rc =>
    if gridGet grid rc.1 rc.2 = -1 then st
    else
      { st with
        gScore := objSet st.gScore rc (if rc = startCell then NumV.fin 0 else NumV.inf)
        fScore := objSet st.fScore rc
          (if rc = startCell then NumV.fin (manhattanDistance rc endCell) else NumV.inf)
        previous := objSet st.previous rc none })
    ⟨[startCell], [], [], [], []⟩

/-- Neighbour processing of `aStarGrid` (weights come with the neighbours;
the Manhattan heuristic never throws). -/
def aStarGridRelax (endCell : Cell) (cur : Cell) (st : AStarGridState)
    (nb : Nat × Nat × ℚ) : AStarGridState :=
  let nbKey : Cell := (nb.1, nb.2.1)
  if JV.val nbKey ∈ st.closedSet then st
  else
    match objGet st.gScore cur with
    | none => st
    | some gc =>
      let t := NumV.add gc (NumV.fin nb.2.2)
      match objGet st.gScore nbKey with
      | none => st
      | some gnb =>
        if NumV.lt t gnb then
          { st with
            previous := objSet st.previous nbKey (some cur)
            gScore := objSet st.gScore nbKey t
            fScore := objSet st.fScore nbKey
              (NumV.add t (NumV.fin (manhattanDistance nbKey endCell)))
            openSet := setAdd st.openSet nbKey }
        else st

/-- The main loop of `aStarGrid`. -/
def aStarGridLoop (grid : List (List ℚ)) (n : Nat) (endCell : Cell) :
    Nat → AStarGridState → Option (SearchResult Cell)
  | 0, _ => none
  | fuel + 1, st =>
    if st.openSet.isEmpty then
      some ⟨[], some NumV.inf, st.closedSet⟩
    else
      match (scanMin st.fScore st.openSet).1 with
      | some cur =>
        if cur = endCell then
          (reconChain none st.previous (fuel + 1) (JV.val cur)).map
            (fun chain => ⟨chain.reverse, objGet st.gScore endCell, st.closedSet⟩)
        else
          aStarGridLoop grid n endCell fuel
            ((getGridNeighborsJS grid n cur.1 cur.2).foldl (aStarGridRelax endCell cur)
              { st with
                openSet := setDelete st.openSet cur
                closedSet := setAdd st.closedSet (JV.val cur) })
      | none =>
        aStarGridLoop grid n endCell fuel
          { st with closedSet := setAdd st.closedSet JV.jsnull }

/-- `aStarGrid(graph, startCell, endCell)`. -/
def aStarGridF (fuel : Nat) (grid : List (List ℚ)) (n : Nat) (startCell endCell : Cell) :
    Option (SearchResult Cell) :=
  aStarGridLoop grid n endCell fuel (aStarGridInit grid n startCell endCell)

/-- Enough fuel for every terminating run: the loops iterate at most once per
key and reconstruction follows at most one hop per key. -/
def defFuel (g : Graph) : Nat := 2 * (g.nodes.length + g.gridSize * g.gridSize) + 4

/-- Conversion of a grid result to the string-keyed result the caller sees
(cell keys are formatted canonically). -/
def resultToStr (r : SearchResult Cell) : SearchResult String :=
  { path := r.path.map (fun x => match x with
      | JV.val c => JV.val (cellStr c)
      | JV.jsnull => JV.jsnull
      | JV.undef => JV.undef)
    distance := r.distance
    visited := r.visited.map (fun x => match x with
      | JV.val c => JV.val (cellStr c)
      | JV.jsnull => JV.jsnull
      | JV.undef => JV.undef) }

/-- An unparsable cell key behaves like a cell matching nothing in the grid:
modelled by an out-of-range sentinel. -/
def parseCellD (s : String) (n : Nat) : Cell := (parseCell s).getD (n + 1, n + 1)

/-- The exported `dijkstra(graph, startNodeId, endNodeId)` with explicit fuel:
dispatches on `graph.isGridMode`. -/
def dijkstraFuel (fuel : Nat) (g : Graph) (startNodeId endNodeId : String) :
    Option (SearchResult String) :=
  if g.isGridMode then
    (dijkstraGridF fuel g.grid g.gridSize (parseCellD startNodeId g.gridSize)
      (parseCellD endNodeId g.gridSize)).map resultToStr
  else dijkstraFree fuel g.nodes g.edges startNodeId endNodeId

/-- The exported `dijkstra(graph, startNodeId, endNodeId)`. -/
def dijkstra (g : Graph) (startNodeId endNodeId : String) :
    Option (SearchResult String) :=
  dijkstraFuel (defFuel g) g startNodeId endNodeId

/-- The exported `aStar(graph, startNodeId, endNodeId)` with explicit fuel. -/
def aStarFuel (fuel : Nat) (g : Graph) (startNodeId endNodeId : String) :
    Option (JSRes String) :=
  if g.isGridMode then
    (aStarGridF fuel g.grid g.gridSize (parseCellD startNodeId g.gridSize)
      (parseCellD endNodeId g.gridSize)).map (fun r => JSRes.ok (resultToStr r))
  else aStarFree fuel g.nodes g.edges startNodeId endNodeId

/-- The exported `aStar(graph, startNodeId, endNodeId)`. -/
def aStar (g : Graph) (startNodeId endNodeId : String) : Option (JSRes String) :=
  aStarFuel (defFuel g) g startNodeId endNodeId

/-- `dijkstraGrid(graph, startCell, endCell)` on the model. -/
def dijkstraGrid (g : Graph) (startCell endCell : Cell) : Option (SearchResult Cell) :=
  dijkstraGridF (defFuel g) g.grid g.gridSize startCell endCell

/-- `aStarGrid(graph, startCell, endCell)` on the model. -/
def aStarGrid (g : Graph) (startCell endCell : Cell) : Option (SearchResult Cell) :=
  aStarGridF (defFuel g) g.grid g.gridSize startCell endCell

/-! ## Paths and reachability (specification side)

A path is a nonempty list of node identifiers, each consecutive pair connected
by a stored edge entry; its weight sums the stored weights, looked up by
`getEdge` exactly as the algorithm does. -/

/-- There is an edge entry from `u` to `v`. -/
def isStepE (edges : List (String × Edge)) (u v : String) : Prop :=
  ∃ p ∈ edges, p.2.fromId = u ∧ p.2.toId = v

instance (edges : List (String × Edge)) (u v : String) : Decidable (isStepE edges u v) :=
  List.decidableBEx _ edges

/-- The weight `getEdge(u, v)` charges for the step `u → v` (`0` is a dummy
for missing edges, unused on actual steps of well-formed graphs). -/
def stepW (edges : List (String × Edge)) (u v : String) : ℚ :=
  match getEdgeE edges u v with
  | some ed => ed.weight
  | none => 0

/-- Total weight of a path (sum over consecutive pairs). -/
def pathWeight (edges : List (String × Edge)) : List String → ℚ
  | [] => 0
  | [_] => 0
  | a :: b :: t => stepW edges a b + pathWeight edges (b :: t)

/-- `l` is a path from `s` to `e`: nonempty, starts at `s`, ends at `e`,
consecutive elements connected by edges. The one-element path `[s]` (with
`s = e`) has weight `0`. -/
def IsPath (edges : List (String × Edge)) (s e : String) (l : List String) : Prop :=
  l.head? = some s ∧ l.getLast? = some e ∧ l.Chain' (isStepE edges)

/-- Executable form of the consecutive-steps condition. -/
def stepsOk (edges : List (String × Edge)) : List String → Prop
  | [] => True
  | [_] => True
  | a :: b :: t => isStepE edges a b ∧ stepsOk edges (b :: t)

instance (edges : List (String × Edge)) : ∀ l : List String, Decidable (stepsOk edges l)
  | [] => inferInstanceAs (Decidable True)
  | [_] => inferInstanceAs (Decidable True)
  | _ :: b :: t =>
    have : Decidable (stepsOk edges (b :: t)) := instDecidableStepsOk edges (b :: t)
    inferInstanceAs (Decidable (_ ∧ _))

theorem stepsOk_iff_chain' (edges : List (String × Edge)) :
    ∀ l : List String, stepsOk edges l ↔ l.Chain' (isStepE edges)
  | [] => by simp [stepsOk]
  | [a] => by simp [stepsOk]
  | a :: b :: t => by
    rw [List.chain'_cons]
    unfold stepsOk
    rw [stepsOk_iff_chain' edges (b :: t)]

instance (edges : List (String × Edge)) (s e : String) (l : List String) :
    Decidable (IsPath edges s e l) :=
  decidable_of_iff (l.head? = some s ∧ l.getLast? = some e ∧ stepsOk edges l)
    (by rw [stepsOk_iff_chain']; exact Iff.rfl)

/-- Reachability from `s` with all intermediate vertices (every vertex except
the final one) satisfying `V`, carrying the accumulated path weight. -/
inductive ReachIn (edges : List (String × Edge)) (s : String) (V : String → Prop) :
    String → ℚ → Prop where
  | refl : ReachIn edges s V s 0
  | step {u v : String} {q : ℚ} : ReachIn edges s V u q → V u → isStepE edges u v →
      ReachIn edges s V v (q + stepW edges u v)

theorem ReachIn.mono {edges : List (String × Edge)} {s : String} {V V' : String → Prop}
    (hVV : ∀ x, V x → V' x) {u : String} {q : ℚ} (h : ReachIn edges s V u q) :
    ReachIn edges s V' u q := by
  induction h with
  | refl => exact ReachIn.refl
  | step hr hV hs ih => exact ReachIn.step ih (hVV _ hV) hs

theorem ReachIn.target_cases {edges : List (String × Edge)} {s : String} {V : String → Prop}
    {u : String} {q : ℚ} (h : ReachIn edges s V u q) :
    u = s ∨ ∃ p ∈ edges, p.2.toId = u := by
  cases h with
  | refl => exact Or.inl rfl
  | step hr hV hs =>
    rcases hs with ⟨p, hp, _, hpt⟩
    exact Or.inr ⟨p, hp, hpt⟩

theorem pathWeight_concat (edges : List (String × Edge)) :
    ∀ (l : List String) (u v : String), l.getLast? = some u →
      pathWeight edges (l ++ [v]) = pathWeight edges l + stepW edges u v := by
  intro l
  induction l with
  | nil => intro u v h; simp at h
  | cons a t ih =>
    intro u v h
    cases t with
    | nil =>
      simp at h
      subst h
      simp [pathWeight]
    | cons b t' =>
      rw [List.getLast?_cons_cons] at h
      have hih := ih u v h
      show pathWeight edges (a :: (b :: (t' ++ [v]))) =
        pathWeight edges (a :: b :: t') + stepW edges u v
      rw [show pathWeight edges (a :: (b :: (t' ++ [v]))) =
        stepW edges a b + pathWeight edges (b :: (t' ++ [v])) from rfl]
      rw [show pathWeight edges (a :: b :: t') =
        stepW edges a b + pathWeight edges (b :: t') from rfl]
      rw [show ((b :: t') ++ [v] : List String) = b :: (t' ++ [v]) from rfl] at hih
      rw [hih]
      ring

theorem reachIn_of_isPath (edges : List (String × Edge)) (s : String) :
    ∀ (l : List String) (u : String), IsPath edges s u l →
      ReachIn edges s (fun _ => True) u (pathWeight edges l) := by
  intro l
  induction l using List.reverseRecOn with
  | nil => intro u h; rcases h with ⟨h1, _, _⟩; simp at h1
  | append_singleton l' v ih =>
    intro u h
    rcases h with ⟨h1, h2, h3⟩
    rw [List.getLast?_concat] at h2
    have huv : v = u := Option.some.inj h2
    subst huv
    cases l' with
    | nil =>
      simp at h1
      subst h1
      exact ReachIn.refl
    | cons a t =>
      have hne : (a :: t : List String) ≠ [] := List.cons_ne_nil _ _
      have hlast : (a :: t).getLast? = some ((a :: t).getLast hne) :=
        List.getLast?_eq_getLast _ hne
      rcases List.chain'_append.mp h3 with ⟨hch, _, hrel⟩
      have hstep : isStepE edges ((a :: t).getLast hne) v :=
        hrel _ (Option.mem_def.mpr hlast) v (Option.mem_def.mpr rfl)
      have hhead : (a :: t : List String).head? = some s := by
        have : ((a :: t) ++ [v]).head? = some a := rfl
        rw [h1.symm.trans this]
        rfl
      have hpath : IsPath edges s ((a :: t).getLast hne) (a :: t) := ⟨hhead, hlast, hch⟩
      have hw := pathWeight_concat edges (a :: t) ((a :: t).getLast hne) v hlast
      rw [hw]
      exact ReachIn.step (ih _ hpath) trivial hstep

theorem isPath_of_reachIn (edges : List (String × Edge)) (s : String) {u : String} {q : ℚ}
    (h : ReachIn edges s (fun _ => True) u q) :
    ∃ l, IsPath edges s u l ∧ pathWeight edges l = q := by
  induction h with
  | refl => exact ⟨[s], ⟨rfl, rfl, List.chain'_singleton s⟩, rfl⟩
  | @step u' v' q' hr hV hs ih =>
    rcases ih with ⟨l, ⟨h1, h2, h3⟩, hw⟩
    refine ⟨l ++ [v'], ⟨?head, ?last, ?chain⟩, ?weight⟩
    case head =>
      cases l with
      | nil => simp at h1
      | cons a t => exact h1
    case last => exact List.getLast?_concat _
    case chain =>
      refine List.chain'_append.mpr ⟨h3, List.chain'_singleton _, ?rel⟩
      intro x hx y hy
      have hxu : x = u' := by
        have hx' := Option.mem_def.mp hx
        rw [h2] at hx'
        exact (Option.some.inj hx').symm
      have hyv : y = v' := (Option.some.inj (Option.mem_def.mp hy)).symm
      rw [hxu, hyv]
      exact hs
    case weight =>
      rw [pathWeight_concat edges l u' v' h2, hw]

/-- In a map with duplicate-free keys, looking up the key of an entry returns
that entry's value. -/
theorem objGet_of_mem_nodup {α β : Type} [DecidableEq α] {l : List (α × β)}
    (hnd : (l.map Prod.fst).Nodup) {p : α × β} (hp : p ∈ l) :
    objGet l p.1 = some p.2 := by
  induction l with
  | nil => simp at hp
  | cons p0 t ih =>
    rw [List.map_cons] at hnd
    rcases List.mem_cons.mp hp with hp' | hp'
    · subst hp'
      simp [objGet]
    · have hne : ¬ p0.1 = p.1 := by
        intro he
        exact (List.nodup_cons.mp hnd).1 (he ▸ List.mem_map_of_mem Prod.fst hp')
      simp only [objGet, if_neg hne]
      exact ih (List.nodup_cons.mp hnd).2 hp'

/-- With duplicate-free keys of the shape `` `${from}-${to}` ``, `getEdge`
applied to an entry's own endpoints returns that entry. -/
theorem getEdgeE_of_entry {edges : List (String × Edge)}
    (hnd : (edges.map Prod.fst).Nodup)
    (hshape : ∀ p ∈ edges, p.1 = edgeKey p.2.fromId p.2.toId)
    {p : String × Edge} (hp : p ∈ edges) :
    getEdgeE edges p.2.fromId p.2.toId = some p.2 := by
  unfold getEdgeE
  rw [← hshape p hp]
  exact objGet_of_mem_nodup hnd hp

/-- Positivity of actual step weights, from positivity of all stored edges and
well-formed keys. -/
theorem stepW_pos {edges : List (String × Edge)}
    (hnd : (edges.map Prod.fst).Nodup)
    (hshape : ∀ p ∈ edges, p.1 = edgeKey p.2.fromId p.2.toId)
    (hpos : ∀ p ∈ edges, 0 < p.2.weight)
    {u v : String} (hs : isStepE edges u v) : 0 < stepW edges u v := by
  rcases hs with ⟨p, hp, hpf, hpt⟩
  have hkey : getEdgeE edges u v = some p.2 := by
    have := getEdgeE_of_entry hnd hshape hp
    rw [hpf, hpt] at this
    exact this
  unfold stepW
  rw [hkey]
  exact hpos p hp

/-- The crossing lemma: any fully unrestricted path to `u` either stays inside
`V` (except for `u` itself), or first leaves `V` at some vertex `y` with a
no-larger prefix weight. Requires nonnegative step weights. -/
theorem reachIn_crossing {edges : List (String × Edge)} {s : String} (V : String → Prop)
    (hw : ∀ u v, isStepE edges u v → 0 ≤ stepW edges u v) :
    ∀ {u : String} {q : ℚ}, ReachIn edges s (fun _ => True) u q →
      ReachIn edges s V u q ∨
        ∃ y q1, ¬ V y ∧ ReachIn edges s V y q1 ∧ q1 ≤ q := by
  intro u q h
  induction h with
  | refl => exact Or.inl ReachIn.refl
  | @step u' v' q' hr hV hs ih =>
    rcases ih with ihl | ⟨y, q1, hy, hyr, hle⟩
    · by_cases hVu : V u'
      · exact Or.inl (ReachIn.step ihl hVu hs)
      · exact Or.inr ⟨u', q', hVu, ihl, by linarith [hw u' v' hs]⟩
    · exact Or.inr ⟨y, q1, hy, hyr, by linarith [hw u' v' hs]⟩


/-! ## Invariants of the free-form Dijkstra loop -/

theorem setDelete_sublist {α : Type} [DecidableEq α] (s : List α) (x : α) :
    (setDelete s x).Sublist s := by
  induction s with
  | nil => simp [setDelete]
  | cons a t ih =>
    by_cases ha : a = x
    · simp only [setDelete, if_pos ha]
      exact (List.sublist_cons_self a t)
    · simp only [setDelete, if_neg ha]
      exact ih.cons₂ a

theorem setDelete_nodup {α : Type} [DecidableEq α] {s : List α} (h : s.Nodup) (x : α) :
    (setDelete s x).Nodup :=
  (setDelete_sublist s x).nodup h

theorem not_mem_setDelete_self {α : Type} [DecidableEq α] {s : List α} (h : s.Nodup) (x : α) :
    x ∉ setDelete s x := by
  induction s with
  | nil => simp [setDelete]
  | cons a t ih =>
    rw [List.nodup_cons] at h
    by_cases ha : a = x
    · simp only [setDelete, if_pos ha]
      exact ha ▸ h.1
    · simp only [setDelete, if_neg ha]
      intro hmem
      rcases List.mem_cons.mp hmem with hmem | hmem
      · exact ha hmem.symm
      · exact ih h.2 hmem

theorem mem_getNeighborsE {edges : List (String × Edge)} {u v : String} :
    v ∈ getNeighborsE edges u ↔ isStepE edges u v := by
  unfold getNeighborsE isStepE
  rw [List.mem_filterMap]
  constructor
  · rintro ⟨ed, hed, hif⟩
    rcases List.mem_map.mp hed with ⟨p, hp, hpe⟩
    by_cases hf : ed.fromId = u
    · rw [if_pos hf] at hif
      exact ⟨p, hp, by rw [hpe]; exact hf, by rw [hpe]; exact Option.some.inj hif⟩
    · rw [if_neg hf] at hif
      cases hif
  · rintro ⟨p, hp, hpf, hpt⟩
    exact ⟨p.2, List.mem_map_of_mem Prod.snd hp, by rw [if_pos hpf, hpt]⟩

/-- For a neighbour produced by `getNeighbors`, `getEdge` returns the unique
entry for that ordered pair, whose endpoints are the pair itself. -/
theorem getEdgeE_of_neighbor {edges : List (String × Edge)}
    (hnd : (edges.map Prod.fst).Nodup)
    (hshape : ∀ p ∈ edges, p.1 = edgeKey p.2.fromId p.2.toId)
    {u v : String} (hs : isStepE edges u v) :
    ∃ p ∈ edges, p.2.fromId = u ∧ p.2.toId = v ∧ getEdgeE edges u v = some p.2 := by
  rcases hs with ⟨p, hp, hpf, hpt⟩
  refine ⟨p, hp, hpf, hpt, ?h⟩
  have := getEdgeE_of_entry hnd hshape hp
  rw [hpf, hpt] at this
  exact this

/-- The full invariant of the Dijkstra loop state over node-key list `K`. -/
structure DijInv (edges : List (String × Edge)) (K : List String) (s e : String)
    (st : DijState) : Prop where
  distKeys : st.distances.map Prod.fst = K
  prevKeys : st.previous.map Prod.fst = K
  unvisSub : ∀ k ∈ st.unvisited, k ∈ K
  visSub : ∀ k ∈ st.visited, k ∈ K
  partition : ∀ k ∈ K, k ∈ st.unvisited ∨ k ∈ st.visited
  disjoint : ∀ k ∈ st.visited, k ∉ st.unvisited
  unvisNodup : st.unvisited.Nodup
  endNotVis : e ∉ st.visited
  startLE : ∀ d, objGet st.distances s = some d → NumV.le d (NumV.fin 0)
  sound : ∀ k q, objGet st.distances k = some (NumV.fin q) →
    ReachIn edges s (fun _ => True) k q
  relaxed : ∀ u ∈ st.visited, ∀ p ∈ edges, p.2.fromId = u →
    ∃ du dv, objGet st.distances u = some du ∧
      objGet st.distances p.2.toId = some dv ∧
      NumV.le dv (NumV.add du (NumV.fin p.2.weight))
  visMin : ∀ u ∈ st.visited, ∀ z ∈ st.unvisited, ∀ du dz,
    objGet st.distances u = some du → objGet st.distances z = some dz → NumV.le du dz
  prevInv : ∀ k c, objGet st.previous k = some (some c) →
    c ∈ st.visited ∧ ∃ qk qc, objGet st.distances k = some (NumV.fin qk) ∧
      objGet st.distances c = some (NumV.fin qc) ∧ qc < qk

/-- Shape of one relaxation step: either the state is unchanged, or the
neighbour is unvisited with a strictly improving update through an existing
edge entry. -/
theorem relaxNeighbor_shape (edges : List (String × Edge)) (cur : String)
    (st : DijState) (nb : String) :
    relaxNeighbor edges cur st nb = st ∨
      (nb ∉ st.visited ∧ ∃ ed dc dnb, getEdgeE edges cur nb = some ed ∧
        objGet st.distances cur = some dc ∧ objGet st.distances nb = some dnb ∧
        NumV.lt (NumV.add dc (NumV.fin ed.weight)) dnb = true ∧
        relaxNeighbor edges cur st nb =
          { st with
            distances := objSet st.distances nb (NumV.add dc (NumV.fin ed.weight))
            previous := objSet st.previous nb (some cur) }) := by
  unfold relaxNeighbor
  by_cases hv : nb ∈ st.visited
  · rw [if_pos hv]
    exact Or.inl rfl
  · rw [if_neg hv]
    rcases hed : getEdgeE edges cur nb with _ | ed
    · rcases hdc : objGet st.distances cur with _ | dc
      · exact Or.inl rfl
      · rcases hdnb : objGet st.distances nb with _ | dnb
        · exact Or.inl rfl
        · have : NumV.lt (NumV.add dc NumV.inf) dnb = false := by
            cases dnb <;> simp [NumV.add, NumV.lt]
          simp [this]
    · rcases hdc : objGet st.distances cur with _ | dc
      · exact Or.inl rfl
      · rcases hdnb : objGet st.distances nb with _ | dnb
        · exact Or.inl rfl
        · by_cases hlt : NumV.lt (NumV.add dc (NumV.fin ed.weight)) dnb = true
          · exact Or.inr ⟨hv, ed, dc, dnb, rfl, rfl, rfl, hlt, by simp [hlt]⟩
          · exact Or.inl (by simp [hlt])

/-- Relation between the state at the start of the neighbour loop of one
Dijkstra iteration (`st₀`, with `cur` already moved to `visited`) and any
intermediate state: visited/unvisited and all keys are untouched, distances of
visited nodes are frozen, distances never increase, and any change is a
strictly improving relaxation of an unvisited neighbour in `N` through `cur`. -/
structure RelaxRel (edges : List (String × Edge)) (cur : String) (N : List String)
    (st₀ st₁ : DijState) : Prop where
  vis : st₁.visited = st₀.visited
  unvis : st₁.unvisited = st₀.unvisited
  dkeys : st₁.distances.map Prod.fst = st₀.distances.map Prod.fst
  pkeys : st₁.previous.map Prod.fst = st₀.previous.map Prod.fst
  frozen : ∀ k ∈ st₀.visited, objGet st₁.distances k = objGet st₀.distances k ∧
    objGet st₁.previous k = objGet st₀.previous k
  dec : ∀ k d₁, objGet st₁.distances k = some d₁ →
    ∃ d₀, objGet st₀.distances k = some d₀ ∧ NumV.le d₁ d₀
  change : ∀ k, (objGet st₁.distances k = objGet st₀.distances k ∧
      objGet st₁.previous k = objGet st₀.previous k) ∨
    (k ∈ N ∧ k ∉ st₀.visited ∧ ∃ ed dc, getEdgeE edges cur k = some ed ∧
      objGet st₀.distances cur = some dc ∧
      objGet st₁.distances k = some (NumV.add dc (NumV.fin ed.weight)) ∧
      objGet st₁.previous k = some (some cur))

theorem relaxRel_refl {edges : List (String × Edge)} {cur : String} {N : List String}
    {st : DijState} : RelaxRel edges cur N st st :=
  ⟨rfl, rfl, rfl, rfl, fun _ _ => ⟨rfl, rfl⟩,
    fun _ d₁ h => ⟨d₁, h, NumV.le_refl _⟩, fun _ => Or.inl ⟨rfl, rfl⟩⟩

theorem RelaxRel.step {edges : List (String × Edge)} {cur : String} {N : List String}
    {st₀ st₁ : DijState}
    (hKK : st₀.distances.map Prod.fst = st₀.previous.map Prod.fst)
    (hcurV : cur ∈ st₀.visited)
    (h : RelaxRel edges cur N st₀ st₁) {nb : String} (hnb : nb ∈ N) :
    RelaxRel edges cur N st₀ (relaxNeighbor edges cur st₁ nb) := by
  rcases relaxNeighbor_shape edges cur st₁ nb with hsame |
    ⟨hnv, ed, dc, dnb, hed, hdc, hdnb, hlt, heq⟩
  · rw [hsame]
    exact h
  · rw [heq]
    have hnv₀ : nb ∉ st₀.visited := by rw [← h.vis]; exact hnv
    have hnbK : nb ∈ st₁.distances.map Prod.fst := mem_of_objGet_isSome hdnb
    have hnbP : nb ∈ st₁.previous.map Prod.fst := by
      rw [h.pkeys, ← hKK, ← h.dkeys]
      exact hnbK
    have hdc₀ : objGet st₀.distances cur = some dc := by
      rw [← (h.frozen cur hcurV).1]
      exact hdc
    refine ⟨h.vis, h.unvis, ?dk, ?pk, ?fr, ?dec, ?ch⟩
    case dk => rw [objSet_keys st₁.distances _ hnbK]; exact h.dkeys
    case pk => rw [objSet_keys st₁.previous _ hnbP]; exact h.pkeys
    case fr =>
      intro k hk
      have hne : nb ≠ k := fun he => hnv₀ (he ▸ hk)
      rw [objGet_objSet_ne _ _ hne, objGet_objSet_ne _ _ hne]
      exact h.frozen k hk
    case dec =>
      intro k d₁ hk
      by_cases he : nb = k
      · subst he
        rw [objGet_objSet_self] at hk
        cases hk
        rcases h.dec nb dnb hdnb with ⟨d₀, h₀, hle⟩
        exact ⟨d₀, h₀, NumV.le_trans (NumV.le_of_lt hlt) hle⟩
      · rw [objGet_objSet_ne _ _ he] at hk
        exact h.dec k d₁ hk
    case ch =>
      intro k
      by_cases he : nb = k
      · subst he
        exact Or.inr ⟨hnb, hnv₀, ed, dc, hed, hdc₀,
          objGet_objSet_self _ _ _, objGet_objSet_self _ _ _⟩
      · rw [objGet_objSet_ne _ _ he, objGet_objSet_ne _ _ he]
        exact h.change k

theorem RelaxRel.fold {edges : List (String × Edge)} {cur : String} {N : List String}
    {st₀ : DijState}
    (hKK : st₀.distances.map Prod.fst = st₀.previous.map Prod.fst)
    (hcurV : cur ∈ st₀.visited) :
    ∀ (L : List String), (∀ x ∈ L, x ∈ N) → ∀ (st₁ : DijState),
      RelaxRel edges cur N st₀ st₁ →
      RelaxRel edges cur N st₀ (L.foldl (relaxNeighbor edges cur) st₁) := by
  intro L
  induction L with
  | nil => intro _ st₁ h; exact h
  | cons a t ih =>
    intro hL st₁ h
    rw [List.foldl_cons]
    exact ih (fun x hx => hL x (List.mem_cons_of_mem _ hx)) _
      (h.step hKK hcurV (hL a (List.mem_cons_self _ _)))

/-- Direct postcondition of one relaxation of an unvisited neighbour with an
existing edge and defined distances: afterwards the neighbour's distance is at
most `distances[current] + weight`, and `distances[current]` is unchanged. -/
theorem relaxNeighbor_post (edges : List (String × Edge)) (cur : String)
    (st : DijState) {nb : String} {ed : Edge} {dc dnb : NumV}
    (hnv : nb ∉ st.visited) (hed : getEdgeE edges cur nb = some ed)
    (hdc : objGet st.distances cur = some dc) (hdnb : objGet st.distances nb = some dnb)
    (hne : cur ≠ nb) :
    objGet (relaxNeighbor edges cur st nb).distances cur = some dc ∧
    ∃ dv, objGet (relaxNeighbor edges cur st nb).distances nb = some dv ∧
      NumV.le dv (NumV.add dc (NumV.fin ed.weight)) := by
  rcases relaxNeighbor_shape edges cur st nb with hsame |
    ⟨_, ed', dc', dnb', hed', hdc', hdnb', hlt', heq⟩
  · rw [hsame]
    refine ⟨hdc, dnb, hdnb, ?le⟩
    have : relaxNeighbor edges cur st nb = st := hsame
    unfold relaxNeighbor at this
    rw [if_neg hnv, hed, hdc, hdnb] at this
    by_cases hlt : NumV.lt (NumV.add dc (NumV.fin ed.weight)) dnb = true
    · simp only [hlt, if_true] at this
      have hd : objGet st.distances nb = some (NumV.add dc (NumV.fin ed.weight)) := by
        conv_lhs => rw [← this]
        exact objGet_objSet_self _ _ _
      rw [hdnb] at hd
      cases hd
      exact NumV.le_refl _
    · exact NumV.le_of_not_lt' hlt
  · rw [hed'] at hed
    rw [hdc'] at hdc
    rw [hdnb'] at hdnb
    cases hed
    cases hdc
    cases hdnb
    rw [heq]
    constructor
    · rw [objGet_objSet_ne _ _ (fun he => hne he.symm)]
      exact hdc'
    · exact ⟨_, objGet_objSet_self _ _ _, NumV.le_refl _⟩

theorem relaxNeighbor_sets (edges : List (String × Edge)) (cur : String)
    (st : DijState) (nb : String) :
    (relaxNeighbor edges cur st nb).visited = st.visited ∧
    (relaxNeighbor edges cur st nb).unvisited = st.unvisited := by
  rcases relaxNeighbor_shape edges cur st nb with hsame | ⟨_, _, _, _, _, _, _, _, heq⟩
  · rw [hsame]
    exact ⟨rfl, rfl⟩
  · rw [heq]
    exact ⟨rfl, rfl⟩

/-- After the whole neighbour loop, every neighbour of `cur` that was not
visited satisfies the relaxation bound, and `distances[cur]` is unchanged. -/
theorem relaxFold_establish {edges : List (String × Edge)} {cur : String} {N : List String}
    {st₀ : DijState}
    (hKK : st₀.distances.map Prod.fst = st₀.previous.map Prod.fst)
    (hcurV : cur ∈ st₀.visited)
    (hcurK : cur ∈ st₀.distances.map Prod.fst) :
    ∀ (L : List String), (∀ x ∈ L, x ∈ N) → ∀ (st₁ : DijState),
      RelaxRel edges cur N st₀ st₁ →
      ∀ nb ∈ L, nb ∉ st₀.visited →
      ∀ ed, getEdgeE edges cur nb = some ed →
      nb ∈ st₀.distances.map Prod.fst →
      ∃ du dv,
        objGet (L.foldl (relaxNeighbor edges cur) st₁).distances cur = some du ∧
        objGet (L.foldl (relaxNeighbor edges cur) st₁).distances nb = some dv ∧
        NumV.le dv (NumV.add du (NumV.fin ed.weight)) := by
  intro L
  induction L with
  | nil => intro _ _ _ nb hnb; simp at hnb
  | cons a t ih =>
    intro hL st₁ hrel nb hnb hnv ed hed hnbK
    rw [List.foldl_cons]
    rcases List.mem_cons.mp hnb with hnb' | hnb'
    · subst hnb'
      have hnv₁ : nb ∉ st₁.visited := by rw [hrel.vis]; exact hnv
      have hcn : cur ≠ nb := fun he => hnv (he ▸ hcurV)
      rcases objGet_isSome_of_mem st₀.distances hcurK with ⟨dc₀, hdc₀⟩
      have hdc₁ : objGet st₁.distances cur = some dc₀ := by
        rw [(hrel.frozen cur hcurV).1]
        exact hdc₀
      have hnbK₁ : nb ∈ st₁.distances.map Prod.fst := by rw [hrel.dkeys]; exact hnbK
      rcases objGet_isSome_of_mem st₁.distances hnbK₁ with ⟨dnb₁, hdnb₁⟩
      rcases relaxNeighbor_post edges cur st₁ hnv₁ hed hdc₁ hdnb₁ hcn with
        ⟨hc₂, dv, hdv₂, hdvle⟩
      have hrel₂ : RelaxRel edges cur N st₀ (relaxNeighbor edges cur st₁ nb) :=
        hrel.step hKK hcurV (hL nb (List.mem_cons_self _ _))
      have hset₂ := relaxNeighbor_sets edges cur st₁ nb
      have hcurV₂ : cur ∈ (relaxNeighbor edges cur st₁ nb).visited := by
        rw [hset₂.1, hrel.vis]
        exact hcurV
      have hKK₂ : (relaxNeighbor edges cur st₁ nb).distances.map Prod.fst =
          (relaxNeighbor edges cur st₁ nb).previous.map Prod.fst := by
        rw [hrel₂.dkeys, hrel₂.pkeys]
        exact hKK
      have hrelF : RelaxRel edges cur N (relaxNeighbor edges cur st₁ nb)
          (t.foldl (relaxNeighbor edges cur) (relaxNeighbor edges cur st₁ nb)) :=
        RelaxRel.fold hKK₂ hcurV₂ t (fun x hx => hL x (List.mem_cons_of_mem _ hx))
          _ relaxRel_refl
      have hcF : objGet (t.foldl (relaxNeighbor edges cur)
          (relaxNeighbor edges cur st₁ nb)).distances cur = some dc₀ := by
        rw [(hrelF.frozen cur hcurV₂).1]
        exact hc₂
      have hnbKF : nb ∈ (t.foldl (relaxNeighbor edges cur)
          (relaxNeighbor edges cur st₁ nb)).distances.map Prod.fst := by
        rw [hrelF.dkeys, hrel₂.dkeys]
        exact hnbK
      rcases objGet_isSome_of_mem _ hnbKF with ⟨dvF, hdvF⟩
      rcases hrelF.dec nb dvF hdvF with ⟨d₀, h₀, hleF⟩
      rw [hdv₂] at h₀
      cases h₀
      exact ⟨dc₀, dvF, hcF, hdvF, NumV.le_trans hleF hdvle⟩
    · exact ih (fun x hx => hL x (List.mem_cons_of_mem _ hx)) _
        (hrel.step hKK hcurV (hL a (List.mem_cons_self _ _))) nb hnb' hnv ed hed hnbK

theorem getEdgeE_unique {edges : List (String × Edge)}
    (hEnd : (edges.map Prod.fst).Nodup)
    (hShape : ∀ p ∈ edges, p.1 = edgeKey p.2.fromId p.2.toId)
    {u v : String} {ed : Edge} (hed : getEdgeE edges u v = some ed)
    {p : String × Edge} (hp : p ∈ edges) (hpf : p.2.fromId = u) (hpt : p.2.toId = v) :
    ed = p.2 := by
  have h2 := getEdgeE_of_entry hEnd hShape hp
  rw [hpf, hpt, hed] at h2
  exact Option.some.inj h2

theorem getEdgeE_pos_of_step {edges : List (String × Edge)}
    (hEnd : (edges.map Prod.fst).Nodup)
    (hShape : ∀ p ∈ edges, p.1 = edgeKey p.2.fromId p.2.toId)
    (hPos : ∀ p ∈ edges, 0 < p.2.weight)
    {u v : String} {ed : Edge} (hs : isStepE edges u v)
    (hed : getEdgeE edges u v = some ed) : 0 < ed.weight := by
  rcases hs with ⟨p, hp, hpf, hpt⟩
  rw [getEdgeE_unique hEnd hShape hed hp hpf hpt]
  exact hPos p hp

/-- One full iteration of the Dijkstra loop preserves the invariant. -/
theorem dijInv_iterate {edges : List (String × Edge)} {K : List String} {s e : String}
    (hEnd : (edges.map Prod.fst).Nodup)
    (hShape : ∀ p ∈ edges, p.1 = edgeKey p.2.fromId p.2.toId)
    (hEp : ∀ p ∈ edges, p.2.fromId ∈ K ∧ p.2.toId ∈ K)
    (hPos : ∀ p ∈ edges, 0 < p.2.weight)
    {st : DijState} (inv : DijInv edges K s e st)
    {cur : String} (hscan : (scanMin st.distances st.unvisited).1 = some cur)
    (hcne : cur ≠ e) :
    DijInv edges K s e ((getNeighborsE edges cur).foldl (relaxNeighbor edges cur)
      { st with
        unvisited := setDelete st.unvisited cur
        visited := setAdd st.visited cur }) := by
  have hcu : cur ∈ st.unvisited := scanMin_mem hscan
  have hcK : cur ∈ K := inv.unvisSub cur hcu
  have hcnv : cur ∉ st.visited := fun h => inv.disjoint cur h hcu
  rcases scanMin_lookup hscan with ⟨hmin, hfin⟩
  rcases NumV.fin_of_lt_inf hfin with ⟨qc, hqc⟩
  set minv := (scanMin st.distances st.unvisited).2 with hminv
  set st' : DijState :=
    { st with
      unvisited := setDelete st.unvisited cur
      visited := setAdd st.visited cur } with hst'
  set L := getNeighborsE edges cur with hL
  have hKK' : st'.distances.map Prod.fst = st'.previous.map Prod.fst :=
    inv.distKeys.trans inv.prevKeys.symm
  have hcurV' : cur ∈ st'.visited := mem_setAdd_iff.mpr (Or.inr rfl)
  have hvmem : ∀ k, k ∈ st'.visited ↔ k ∈ st.visited ∨ k = cur := fun k => mem_setAdd_iff
  have hrel : RelaxRel edges cur L st' (L.foldl (relaxNeighbor edges cur) st') :=
    RelaxRel.fold hKK' hcurV' L (fun x hx => hx) st' relaxRel_refl
  set F := L.foldl (relaxNeighbor edges cur) st' with hF
  have hFdK : F.distances.map Prod.fst = K := hrel.dkeys.trans inv.distKeys
  have hFpK : F.previous.map Prod.fst = K := hrel.pkeys.trans inv.prevKeys
  have hFvis : ∀ k, k ∈ F.visited ↔ k ∈ st.visited ∨ k = cur := by
    intro k
    rw [hrel.vis]
    exact hvmem k
  have hFunv : F.unvisited = setDelete st.unvisited cur := hrel.unvis
  have hstD : st'.distances = st.distances := rfl
  have hstP : st'.previous = st.previous := rfl
  -- helper: membership in L gives the unique edge entry
  have hLedge : ∀ v ∈ L, ∀ ed, getEdgeE edges cur v = some ed →
      isStepE edges cur v ∧ 0 < ed.weight := by
    intro v hv ed hed
    have hstep : isStepE edges cur v := mem_getNeighborsE.mp hv
    exact ⟨hstep, getEdgeE_pos_of_step hEnd hShape hPos hstep hed⟩
  refine ⟨hFdK, hFpK, ?unvisSub, ?visSub, ?partition, ?disjoint, ?unvisNodup,
    ?endNotVis, ?startLE, ?sound, ?relaxed, ?visMin, ?prevInv⟩
  case unvisSub =>
    intro k hk
    rw [hFunv] at hk
    exact inv.unvisSub k (mem_setDelete hk)
  case visSub =>
    intro k hk
    rcases (hFvis k).mp hk with hk' | hk'
    · exact inv.visSub k hk'
    · exact hk' ▸ hcK
  case partition =>
    intro k hk
    rcases inv.partition k hk with hk' | hk'
    · by_cases he : k = cur
      · exact Or.inr ((hFvis k).mpr (Or.inr he))
      · exact Or.inl (by rw [hFunv]; exact mem_setDelete_of_ne hk' he)
    · exact Or.inr ((hFvis k).mpr (Or.inl hk'))
  case disjoint =>
    intro k hk
    rw [hFunv]
    rcases (hFvis k).mp hk with hk' | hk'
    · intro hmem
      exact inv.disjoint k hk' (mem_setDelete hmem)
    · exact hk' ▸ not_mem_setDelete_self inv.unvisNodup cur
  case unvisNodup =>
    rw [hFunv]
    exact setDelete_nodup inv.unvisNodup cur
  case endNotVis =>
    intro hmem
    rcases (hFvis e).mp hmem with hk' | hk'
    · exact inv.endNotVis hk'
    · exact hcne hk'.symm
  case startLE =>
    intro d hd
    rcases hrel.dec s d hd with ⟨d₀, h₀, hle⟩
    exact NumV.le_trans hle (inv.startLE d₀ h₀)
  case sound =>
    intro k q hk
    rcases hrel.change k with ⟨hck, _⟩ | ⟨hkL, _, ed, dc, hed, hdc, hFk, _⟩
    · rw [hck, hstD] at hk
      exact inv.sound k q hk
    · rw [hFk] at hk
      have hq := Option.some.inj hk
      rcases NumV.add_fin hq with ⟨x, y, hx, hy, hxy⟩
      subst hx
      rw [hstD] at hdc
      have hreach : ReachIn edges s (fun _ => True) cur x := inv.sound cur x hdc
      rcases hLedge k hkL ed hed with ⟨hstep, _⟩
      have hw : stepW edges cur k = ed.weight := by
        unfold stepW
        rw [hed]
      have hy' : y = ed.weight := by
        cases NumV.fin.inj hy
        rfl
      have := ReachIn.step hreach trivial hstep
      rw [hw] at this
      rw [hxy, hy']
      exact this
  case relaxed =>
    intro u hu p hp hpf
    have hvK : p.2.toId ∈ K := (hEp p hp).2
    rcases (hFvis u).mp hu with hu' | hu'
    · -- u was already visited: its bound is frozen and the target only improves
      rcases inv.relaxed u hu' p hp hpf with ⟨du, dv, hdu, hdv, hle⟩
      have hu'' : u ∈ st'.visited := (hvmem u).mpr (Or.inl hu')
      have hduF : objGet F.distances u = some du := by
        rw [(hrel.frozen u hu'').1, hstD]
        exact hdu
      have hvKF : p.2.toId ∈ F.distances.map Prod.fst := by rw [hFdK]; exact hvK
      rcases objGet_isSome_of_mem _ hvKF with ⟨dv', hdv'⟩
      rcases hrel.dec _ dv' hdv' with ⟨d₀, h₀, hle'⟩
      rw [hstD, hdv] at h₀
      cases h₀
      exact ⟨du, dv', hduF, hdv', NumV.le_trans hle' hle⟩
    · -- u = cur: freshly established (or via the visited-minimality argument)
      subst hu'
      have hstep : isStepE edges u p.2.toId := ⟨p, hp, hpf, rfl⟩
      have hwpos : 0 < p.2.weight := hPos p hp
      by_cases hvv : p.2.toId ∈ st'.visited
      · have hduF : objGet F.distances u = some minv := by
          rw [(hrel.frozen u hcurV').1, hstD]
          exact hmin
        have hdvF : objGet F.distances p.2.toId = objGet st.distances p.2.toId := by
          rw [(hrel.frozen _ hvv).1, hstD]
        have hvKF : p.2.toId ∈ st.distances.map Prod.fst := by rw [inv.distKeys]; exact hvK
        rcases objGet_isSome_of_mem _ hvKF with ⟨dv, hdv⟩
        refine ⟨minv, dv, hduF, by rw [hdvF]; exact hdv, ?le⟩
        rcases (hvmem _).mp hvv with hv' | hv'
        · have := inv.visMin _ hv' u hcu dv minv hdv hmin
          exact NumV.le_trans this (NumV.le_add_right minv hwpos.le)
        · rw [hv'] at hdv
          rw [hmin] at hdv
          cases hdv
          exact NumV.le_add_right minv hwpos.le
      · have hvL : p.2.toId ∈ L := mem_getNeighborsE.mpr hstep
        rcases getEdgeE_of_neighbor hEnd hShape hstep with ⟨p', hp', hpf', hpt', hkey⟩
        have hpp : p'.2 = p.2 := getEdgeE_unique hEnd hShape hkey hp hpf rfl
        have hcurK' : u ∈ st'.distances.map Prod.fst := by
          rw [hstD, inv.distKeys]
          exact hcK
        have hvK' : p.2.toId ∈ st'.distances.map Prod.fst := by
          rw [hstD, inv.distKeys]
          exact hvK
        have hvnv : p.2.toId ∉ st'.visited := hvv
        rcases relaxFold_establish hKK' hcurV' hcurK' L (fun x hx => hx) st' relaxRel_refl
          _ hvL hvnv p'.2 hkey hvK' with ⟨du, dv, hcF, hvF, hle⟩
        rw [hpp] at hle
        exact ⟨du, dv, hcF, hvF, hle⟩
  case visMin =>
    intro u hu z hz du dz hdu hdz
    rw [hFunv] at hz
    have hzu : z ∈ st.unvisited := mem_setDelete hz
    have hdcur : objGet F.distances u = some du := hdu
    rcases hrel.change z with ⟨hcz, _⟩ | ⟨hzL, _, ed, dc, hed, hdc, hFz, _⟩
    · rw [hcz, hstD] at hdz
      rcases (hFvis u).mp hu with hu' | hu'
      · have hu'' : u ∈ st'.visited := (hvmem u).mpr (Or.inl hu')
        rw [(hrel.frozen u hu'').1, hstD] at hdu
        exact inv.visMin u hu' z hzu du dz hdu hdz
      · subst hu'
        rw [(hrel.frozen u hcurV').1, hstD, hmin] at hdu
        cases hdu
        exact scanMin_le hzu hdz
    · rw [hstD, hmin] at hdc
      cases hdc
      rw [hFz] at hdz
      cases hdz
      rcases hLedge z hzL ed hed with ⟨_, hwpos⟩
      have hminle : NumV.le minv (NumV.add minv (NumV.fin ed.weight)) :=
        NumV.le_add_right minv hwpos.le
      rcases (hFvis u).mp hu with hu' | hu'
      · have hu'' : u ∈ st'.visited := (hvmem u).mpr (Or.inl hu')
        rw [(hrel.frozen u hu'').1, hstD] at hdu
        exact NumV.le_trans (inv.visMin u hu' cur hcu du minv hdu hmin) hminle
      · subst hu'
        rw [(hrel.frozen u hcurV').1, hstD, hmin] at hdu
        cases hdu
        exact hminle
  case prevInv =>
    intro k c hkc
    rcases hrel.change k with ⟨hck, hpk⟩ | ⟨hkL, _, ed, dc, hed, hdc, hFk, hPk⟩
    · rw [hpk, hstP] at hkc
      rcases inv.prevInv k c hkc with ⟨hcv, qk, qc', hqk, hqc', hlt⟩
      refine ⟨(hFvis c).mpr (Or.inl hcv), qk, qc', ?hk, ?hc, hlt⟩
      case hk => rw [hck, hstD]; exact hqk
      case hc =>
        have hc'' : c ∈ st'.visited := (hvmem c).mpr (Or.inl hcv)
        rw [(hrel.frozen c hc'').1, hstD]
        exact hqc'
    · rw [hkc] at hPk
      have hc : c = cur := Option.some.inj (Option.some.inj hPk)
      subst hc
      rw [hstD, hmin] at hdc
      cases hdc
      rcases hLedge k hkL ed hed with ⟨_, hwpos⟩
      rw [hqc] at hFk
      refine ⟨hcurV' |> (hrel.vis ▸ ·), qc + ed.weight, qc, ?hk, ?hc, by linarith⟩
      case hk =>
        rw [hFk]
        rfl
      case hc =>
        rw [(hrel.frozen c hcurV').1, hstD, hmin, hqc]

theorem dijkstraInit_go (startId : String) :
    ∀ (keys : List String) (st : DijState), keys.Nodup →
      (∀ k ∈ keys, k ∉ st.distances.map Prod.fst) →
      (∀ k ∈ keys, k ∉ st.previous.map Prod.fst) →
      (∀ k ∈ keys, k ∉ st.unvisited) →
      keys.foldl (dijkstraInitStep startId) st =
        ⟨st.distances ++ keys.map (fun k => (k, if k = startId then NumV.fin 0 else NumV.inf)),
         st.previous ++ keys.map (fun k => (k, none)),
         st.unvisited ++ keys, st.visited⟩ := by
  intro keys
  induction keys with
  | nil =>
    intro st _ _ _ _
    simp
  | cons k t ih =>
    intro st hnd hd hp hu
    rw [List.foldl_cons]
    have hdk : k ∉ st.distances.map Prod.fst := hd k (List.mem_cons_self _ _)
    have hpk : k ∉ st.previous.map Prod.fst := hp k (List.mem_cons_self _ _)
    have huk : k ∉ st.unvisited := hu k (List.mem_cons_self _ _)
    have hstep : dijkstraInitStep startId st k =
        ⟨st.distances ++ [(k, if k = startId then NumV.fin 0 else NumV.inf)],
         st.previous ++ [(k, none)], st.unvisited ++ [k], st.visited⟩ := by
      unfold dijkstraInitStep
      rw [objSet_append _ _ hdk, objSet_append _ _ hpk]
      have : setAdd st.unvisited k = st.unvisited ++ [k] := by simp [setAdd, huk]
      rw [this]
    rw [hstep]
    rw [List.nodup_cons] at hnd
    have ht := ih ⟨st.distances ++ [(k, if k = startId then NumV.fin 0 else NumV.inf)],
      st.previous ++ [(k, none)], st.unvisited ++ [k], st.visited⟩ hnd.2 ?hd ?hp ?hu
    case hd =>
      intro x hx
      simp only [List.map_append, List.map_cons, List.map_nil]
      rw [List.mem_append]
      rintro (hmem | hmem)
      · exact hd x (List.mem_cons_of_mem _ hx) hmem
      · simp at hmem
        exact hnd.1 (hmem ▸ hx)
    case hp =>
      intro x hx
      simp only [List.map_append, List.map_cons, List.map_nil]
      rw [List.mem_append]
      rintro (hmem | hmem)
      · exact hp x (List.mem_cons_of_mem _ hx) hmem
      · simp at hmem
        exact hnd.1 (hmem ▸ hx)
    case hu =>
      intro x hx
      rw [List.mem_append]
      rintro (hmem | hmem)
      · exact hu x (List.mem_cons_of_mem _ hx) hmem
      · simp at hmem
        exact hnd.1 (hmem ▸ hx)
    rw [ht]
    simp

theorem dijkstraInit_eq (keys : List String) (startId : String) (h : keys.Nodup) :
    dijkstraInit keys startId =
      ⟨keys.map (fun k => (k, if k = startId then NumV.fin 0 else NumV.inf)),
       keys.map (fun k => (k, none)), keys, []⟩ := by
  unfold dijkstraInit
  rw [dijkstraInit_go startId keys ⟨[], [], [], []⟩ h (by intro k _; simp)
    (by intro k _; simp) (by intro k _; simp)]
  simp

/-- The invariant holds after initialisation. -/
theorem dijInv_init {edges : List (String × Edge)} {K : List String} {s e : String}
    (hKnd : K.Nodup) (hs : s ∈ K) :
    DijInv edges K s e (dijkstraInit K s) := by
  rw [dijkstraInit_eq K s hKnd]
  refine ⟨?dk, ?pk, ?us, ?vs, ?pt, ?dj, ?nd, ?env, ?sle, ?snd, ?rlx, ?vm, ?pin⟩
  case dk =>
    show (K.map fun k => (k, if k = s then NumV.fin 0 else NumV.inf)).map Prod.fst = K
    rw [List.map_map]
    rw [show (Prod.fst ∘ fun k : String => (k, if k = s then NumV.fin 0 else NumV.inf)) = id
      from funext fun k => rfl]
    exact List.map_id K
  case pk =>
    show (K.map fun k => (k, (none : Option String))).map Prod.fst = K
    rw [List.map_map]
    rw [show (Prod.fst ∘ fun k : String => (k, (none : Option String))) = id
      from funext fun k => rfl]
    exact List.map_id K
  case us => intro k hk; exact hk
  case vs => intro k hk; simp at hk
  case pt => intro k hk; exact Or.inl hk
  case dj => intro k hk; simp at hk
  case nd => exact hKnd
  case env => simp
  case sle =>
    intro d hd
    rw [objGet_map_pointwise K _ hs] at hd
    cases Option.some.inj hd
    simp [NumV.le]
  case snd =>
    intro k q hk
    by_cases hkK : k ∈ K
    · rw [objGet_map_pointwise K _ hkK] at hk
      by_cases hks : k = s
      · rw [if_pos hks] at hk
        have h0 := NumV.fin.inj (Option.some.inj hk)
        subst hks
        rw [← h0]
        exact ReachIn.refl
      · rw [if_neg hks] at hk
        cases Option.some.inj hk
    · rw [objGet_map_none K _ hkK] at hk
      cases hk
  case rlx => intro u hu; simp at hu
  case vm => intro u hu; simp at hu
  case pin =>
    intro k c hkc
    by_cases hkK : k ∈ K
    · rw [objGet_map_pointwise K _ hkK] at hkc
      cases Option.some.inj hkc
    · rw [objGet_map_none K _ hkK] at hkc
      cases hkc

/-- From the invariant: any path whose intermediate vertices are visited
bounds the recorded distance of its endpoint. -/
theorem dijInv_reach_le {edges : List (String × Edge)} {K : List String} {s e : String}
    (hEnd : (edges.map Prod.fst).Nodup)
    (hShape : ∀ p ∈ edges, p.1 = edgeKey p.2.fromId p.2.toId)
    (hs : s ∈ K) {st : DijState} (inv : DijInv edges K s e st) :
    ∀ {u : String} {q : ℚ}, ReachIn edges s (fun k => k ∈ st.visited) u q →
      ∃ du, objGet st.distances u = some du ∧ NumV.le du (NumV.fin q) := by
  intro u q h
  induction h with
  | refl =>
    have hsk : s ∈ st.distances.map Prod.fst := by rw [inv.distKeys]; exact hs
    rcases objGet_isSome_of_mem _ hsk with ⟨d, hd⟩
    exact ⟨d, hd, inv.startLE d hd⟩
  | @step u' v' q' hr hV hs' ih =>
    rcases ih with ⟨du, hdu, hle⟩
    rcases hs' with ⟨p, hp, hpf, hpt⟩
    rcases inv.relaxed u' hV p hp hpf with ⟨du₂, dv, hdu₂, hdv, hrel⟩
    rw [hdu] at hdu₂
    cases hdu₂
    have hw : stepW edges u' v' = p.2.weight := by
      unfold stepW
      have := getEdgeE_of_entry hEnd hShape hp
      rw [hpf, hpt] at this
      rw [this]
    refine ⟨dv, hpt ▸ hdv, ?le⟩
    rw [hw]
    refine NumV.le_trans hrel ?h
    refine NumV.le_trans (NumV.add_le_add_right _ hle) ?h2
    rw [show NumV.add (NumV.fin q') (NumV.fin p.2.weight) = NumV.fin (q' + p.2.weight)
      from rfl]
    exact NumV.le_refl _

theorem relaxFold_sets (edges : List (String × Edge)) (cur : String) :
    ∀ (L : List String) (st : DijState),
      (L.foldl (relaxNeighbor edges cur) st).unvisited = st.unvisited ∧
      (L.foldl (relaxNeighbor edges cur) st).visited = st.visited := by
  intro L
  induction L with
  | nil => intro st; exact ⟨rfl, rfl⟩
  | cons a t ih =>
    intro st
    rw [List.foldl_cons]
    rcases ih (relaxNeighbor edges cur st a) with ⟨h1, h2⟩
    rcases relaxNeighbor_sets edges cur st a with ⟨h3, h4⟩
    exact ⟨h1.trans h4, h2.trans h3⟩

/-- Running the loop with enough fuel reaches a break: either the end node is
the next minimum, or no candidate remains. The invariant is preserved. -/
theorem dijkstraLoop_post {edges : List (String × Edge)} {K : List String} {s e : String}
    (hEnd : (edges.map Prod.fst).Nodup)
    (hShape : ∀ p ∈ edges, p.1 = edgeKey p.2.fromId p.2.toId)
    (hEp : ∀ p ∈ edges, p.2.fromId ∈ K ∧ p.2.toId ∈ K)
    (hPos : ∀ p ∈ edges, 0 < p.2.weight)
    (he : e ∈ K) :
    ∀ (fuel : Nat) (st : DijState), DijInv edges K s e st →
      st.unvisited.length ≤ fuel →
      DijInv edges K s e (dijkstraLoop edges e fuel st) ∧
      ((scanMin (dijkstraLoop edges e fuel st).distances
          (dijkstraLoop edges e fuel st).unvisited).1 = some e ∨
        (scanMin (dijkstraLoop edges e fuel st).distances
          (dijkstraLoop edges e fuel st).unvisited).1 = none) := by
  intro fuel
  induction fuel with
  | zero =>
    intro st inv hlen
    exfalso
    have hnil : st.unvisited = [] := List.eq_nil_of_length_eq_zero (Nat.le_zero.mp hlen)
    rcases inv.partition e he with hmem | hmem
    · rw [hnil] at hmem
      simp at hmem
    · exact inv.endNotVis hmem
  | succ n ih =>
    intro st inv hlen
    have hne : st.unvisited ≠ [] := by
      intro hnil
      rcases inv.partition e he with hmem | hmem
      · rw [hnil] at hmem
        simp at hmem
      · exact inv.endNotVis hmem
    have hempty : st.unvisited.isEmpty = false := by
      rw [List.isEmpty_eq_false]
      exact hne
    rcases hscan : (scanMin st.distances st.unvisited).1 with _ | cur
    · have hres : dijkstraLoop edges e (n + 1) st = st := by
        simp [dijkstraLoop, hempty, hscan]
      rw [hres]
      exact ⟨inv, Or.inr hscan⟩
    · by_cases hce : cur = e
      · have hres : dijkstraLoop edges e (n + 1) st = st := by
          simp [dijkstraLoop, hempty, hscan, hce]
        rw [hres]
        exact ⟨inv, Or.inl (hce ▸ hscan)⟩
      · have hres : dijkstraLoop edges e (n + 1) st =
            dijkstraLoop edges e n
              ((getNeighborsE edges cur).foldl (relaxNeighbor edges cur)
                { st with
                  unvisited := setDelete st.unvisited cur
                  visited := setAdd st.visited cur }) := by
          simp [dijkstraLoop, hempty, hscan, hce]
        rw [hres]
        have inv' := dijInv_iterate hEnd hShape hEp hPos inv hscan hce
        have hlen' : ((getNeighborsE edges cur).foldl (relaxNeighbor edges cur)
            { st with
              unvisited := setDelete st.unvisited cur
              visited := setAdd st.visited cur }).unvisited.length ≤ n := by
          rw [(relaxFold_sets edges cur _ _).1]
          show (setDelete st.unvisited cur).length ≤ n
          have hcu : cur ∈ st.unvisited := scanMin_mem hscan
          have := setDelete_length hcu (s := st.unvisited)
          omega
        exact ih _ inv' hlen'

/-- At a break state the recorded distance of the end node is a lower bound of
(hence below) every unrestricted path cost to it. -/
theorem dijkstra_break_le {edges : List (String × Edge)} {K : List String} {s e : String}
    (hEnd : (edges.map Prod.fst).Nodup)
    (hShape : ∀ p ∈ edges, p.1 = edgeKey p.2.fromId p.2.toId)
    (hEp : ∀ p ∈ edges, p.2.fromId ∈ K ∧ p.2.toId ∈ K)
    (hPos : ∀ p ∈ edges, 0 < p.2.weight)
    (hs : s ∈ K) (he : e ∈ K)
    {st : DijState} (inv : DijInv edges K s e st)
    (hbreak : (scanMin st.distances st.unvisited).1 = some e ∨
      (scanMin st.distances st.unvisited).1 = none) :
    ∃ de, objGet st.distances e = some de ∧
      ∀ q, ReachIn edges s (fun _ => True) e q → NumV.le de (NumV.fin q) := by
  have hwnn : ∀ u v, isStepE edges u v → 0 ≤ stepW edges u v := fun u v h =>
    (stepW_pos hEnd hShape hPos h).le
  have heun : e ∈ st.unvisited := by
    rcases inv.partition e he with h | h
    · exact h
    · exact absurd h inv.endNotVis
  have hbound : ∀ y q1, y ∉ st.visited → ReachIn edges s (fun k => k ∈ st.visited) y q1 →
      ∃ dy, y ∈ st.unvisited ∧ objGet st.distances y = some dy ∧
        NumV.le dy (NumV.fin q1) := by
    intro y q1 hynv hyr
    rcases dijInv_reach_le hEnd hShape hs inv hyr with ⟨dy, hdy, hle⟩
    have hyK : y ∈ K := by
      rcases hyr.target_cases with h | ⟨p, hp, hpt⟩
      · exact h ▸ hs
      · exact hpt ▸ (hEp p hp).2
    rcases inv.partition y hyK with h | h
    · exact ⟨dy, h, hdy, hle⟩
    · exact absurd h hynv
  rcases hbreak with hbreak | hbreak
  · rcases scanMin_lookup hbreak with ⟨hmin, _⟩
    refine ⟨_, hmin, ?le1⟩
    intro q hq
    rcases reachIn_crossing (fun k => k ∈ st.visited) hwnn hq with hin | ⟨y, q1, hy, hyr, hq1⟩
    · rcases dijInv_reach_le hEnd hShape hs inv hin with ⟨de', hde', hle⟩
      rw [hmin] at hde'
      cases hde'
      exact hle
    · rcases hbound y q1 hy hyr with ⟨dy, hyu, hdy, hle⟩
      refine NumV.le_trans (scanMin_le hyu hdy) ?ha
      refine NumV.le_trans hle ?hb
      cases hq1.lt_or_eq with
      | inl h => exact le_of_lt h
      | inr h => exact h.le
  · -- no candidate: every unrestricted path cost is impossible, bound vacuous
    rcases objGet_isSome_of_mem st.distances
      (show e ∈ st.distances.map Prod.fst by rw [inv.distKeys]; exact he) with ⟨de, hde⟩
    refine ⟨de, hde, ?le2⟩
    intro q hq
    exfalso
    rcases reachIn_crossing (fun k => k ∈ st.visited) hwnn hq with hin | ⟨y, q1, hy, hyr, _⟩
    · rcases dijInv_reach_le hEnd hShape hs inv hin with ⟨de', hde', hle⟩
      have := scanMin_none hbreak heun hde'
      rw [hde'] at hde
      cases hde
      rw [this] at hle
      cases hle
    · rcases hbound y q1 hy hyr with ⟨dy, hyu, hdy, hle⟩
      have := scanMin_none hbreak hyu hdy
      rw [this] at hle
      cases hle

/-- `dist c` is a strictly smaller finite value than `dist k`. -/
def belowDist (dist : List (String × NumV)) (k c : String) : Prop :=
  ∃ qk qc, objGet dist k = some (NumV.fin qk) ∧ objGet dist c = some (NumV.fin qc) ∧ qc < qk

instance (dist : List (String × NumV)) (k c : String) : Decidable (belowDist dist k c) := by
  unfold belowDist
  rcases objGet dist k with _ | dk
  · exact Decidable.isFalse (by rintro ⟨qk, qc, h, _⟩; cases h)
  · rcases objGet dist c with _ | dc
    · exact Decidable.isFalse (by rintro ⟨qk, qc, _, h, _⟩; cases h)
    · rcases dk with qk | _
      · rcases dc with qc | _
        · by_cases hlt : qc < qk
          · exact Decidable.isTrue ⟨qk, qc, rfl, rfl, hlt⟩
          · refine Decidable.isFalse ?h
            rintro ⟨qk', qc', hk, hc, hlt'⟩
            cases Option.some.inj hk
            cases Option.some.inj hc
            exact hlt hlt'
        · exact Decidable.isFalse (by rintro ⟨qk', qc', _, h, _⟩; cases Option.some.inj h)
      · exact Decidable.isFalse (by rintro ⟨qk', qc', h, _⟩; cases Option.some.inj h)

/-- Walking the predecessor map terminates: each hop strictly decreases the
recorded distance, so the number of keys strictly below the current one is a
decreasing measure. -/
theorem recon_success {K : List String} {dist : List (String × NumV)}
    {prev : List (String × Option String)}
    (hpK : prev.map Prod.fst = K)
    (hinv : ∀ k c, objGet prev k = some (some c) → c ∈ K ∧ belowDist dist k c) :
    ∀ (n : Nat) (k : String), k ∈ K →
      (K.toFinset.filter (fun c => belowDist dist k c)).card + 2 ≤ n →
      ∃ ch, reconChain (some ("undefined")) prev n (JV.val k) = some ch := by
  intro n
  induction n with
  | zero => intro k _ hcard; omega
  | succ m ih =>
    intro k hk hcard
    have hkP : k ∈ prev.map Prod.fst := by rw [hpK]; exact hk
    rcases objGet_isSome_of_mem prev hkP with ⟨v, hv⟩
    rcases v with _ | c
    · -- previous[k] is null: the chain is [k]
      have hlook : prevLookup (some ("undefined")) prev (JV.val k) = JV.jsnull := by
        simp [prevLookup, hv]
      cases m with
      | zero => exact absurd hcard (by omega)
      | succ m' =>
        refine ⟨[JV.val k], ?eq1⟩
        simp [reconChain, hlook]
    · -- previous[k] points to c: recurse with a strictly smaller rank
      rcases hinv k c hv with ⟨hcK, qk, qc, hqk, hqc, hlt⟩
      have hlook : prevLookup (some ("undefined")) prev (JV.val k) = JV.val c := by
        simp [prevLookup, hv]
      have hsub : (K.toFinset.filter (fun x => belowDist dist c x)) ⊂
          (K.toFinset.filter (fun x => belowDist dist k x)) := by
        rw [Finset.ssubset_iff_of_subset]
        · refine ⟨c, ?mem, ?notmem⟩
          case mem =>
            rw [Finset.mem_filter]
            exact ⟨List.mem_toFinset.mpr hcK, qk, qc, hqk, hqc, hlt⟩
          case notmem =>
            rw [Finset.mem_filter]
            rintro ⟨_, qc', qc'', h1, h2, hlt'⟩
            rw [hqc] at h1 h2
            cases Option.some.inj h1
            cases Option.some.inj h2
            exact absurd hlt' (lt_irrefl _)
        · intro x hx
          rw [Finset.mem_filter] at hx ⊢
          rcases hx with ⟨hxK, qc', qx, h1, h2, hlt'⟩
          rw [hqc] at h1
          cases Option.some.inj h1
          exact ⟨hxK, qk, qx, hqk, h2, by linarith⟩
      have hcard' : (K.toFinset.filter (fun x => belowDist dist c x)).card + 2 ≤ m := by
        have := Finset.card_lt_card hsub
        omega
      rcases ih c hcK hcard' with ⟨ch, hch⟩
      refine ⟨JV.val k :: ch, ?eq2⟩
      simp [reconChain, hlook, hch]

/-- Main lemma for free-form `dijkstra` on a well-formed graph with both
endpoints present: with enough fuel it returns, its `distance` field is a
lower bound of every path cost to the end node, and it is exact (witnessed by
a path) whenever finite. -/
theorem dijkstraFree_dist {nodes : List (String × Node)} {edges : List (String × Edge)}
    {s e : String} {fuel : Nat}
    (hKnd : (nodes.map Prod.fst).Nodup)
    (hEnd : (edges.map Prod.fst).Nodup)
    (hShape : ∀ p ∈ edges, p.1 = edgeKey p.2.fromId p.2.toId)
    (hEp : ∀ p ∈ edges, p.2.fromId ∈ nodes.map Prod.fst ∧ p.2.toId ∈ nodes.map Prod.fst)
    (hPos : ∀ p ∈ edges, 0 < p.2.weight)
    (hs : s ∈ nodes.map Prod.fst) (he : e ∈ nodes.map Prod.fst)
    (hfuel : nodes.length + 2 ≤ fuel) :
    ∃ r de, dijkstraFree fuel nodes edges s e = some r ∧ r.distance = some de ∧
      (∀ q, ReachIn edges s (fun _ => True) e q → NumV.le de (NumV.fin q)) ∧
      (∀ q, de = NumV.fin q → ReachIn edges s (fun _ => True) e q) := by
  have hKlen : (nodes.map Prod.fst).length = nodes.length := List.length_map _ _
  have inv0 : DijInv edges (nodes.map Prod.fst) s e (dijkstraInit (nodes.map Prod.fst) s) :=
    dijInv_init hKnd hs
  have hlen0 : (dijkstraInit (nodes.map Prod.fst) s).unvisited.length ≤ fuel := by
    rw [dijkstraInit_eq _ s hKnd]
    show (nodes.map Prod.fst).length ≤ fuel
    omega
  rcases dijkstraLoop_post hEnd hShape hEp hPos he fuel _ inv0 hlen0 with ⟨inv', hbreak⟩
  set st := dijkstraLoop edges e fuel (dijkstraInit (nodes.map Prod.fst) s) with hst
  rcases dijkstra_break_le hEnd hShape hEp hPos hs he inv' hbreak with ⟨de, hde, hlb⟩
  have hprevinv : ∀ k c, objGet st.previous k = some (some c) →
      c ∈ nodes.map Prod.fst ∧ belowDist st.distances k c := by
    intro k c h
    rcases inv'.prevInv k c h with ⟨hcv, qk, qc, h1, h2, h3⟩
    exact ⟨inv'.visSub c hcv, qk, qc, h1, h2, h3⟩
  have hcard : ((nodes.map Prod.fst).toFinset.filter
      (fun c => belowDist st.distances e c)).card + 2 ≤ fuel := by
    have h1 := Finset.card_filter_le (nodes.map Prod.fst).toFinset
      (fun c => belowDist st.distances e c)
    have h2 := (nodes.map Prod.fst).toFinset_card_le
    omega
  rcases recon_success inv'.prevKeys hprevinv fuel e he hcard with ⟨ch, hch⟩
  refine ⟨{ path := if 1 < ch.length then ch.reverse else []
            distance := objGet st.distances e
            visited := st.visited.map JV.val }, de, ?req, hde, hlb, ?snd⟩
  case req =>
    unfold dijkstraFree
    rw [← hst]
    simp [hch]
  case snd =>
    intro q hq
    rw [hq] at hde
    exact inv'.sound e q hde

/-- Well-formedness of a free-form model snapshot, as maintained by the Graph
model: not in grid mode, duplicate-free node and edge keys, edge keys of the
shape `` `${from}-${to}` ``, edge endpoints present in the node map, and
positive weights. -/
structure FreeGraphWF (g : Graph) : Prop where
  gridMode : g.isGridMode = false
  nodesNodup : (g.nodes.map Prod.fst).Nodup
  edgesNodup : (g.edges.map Prod.fst).Nodup
  keyShape : ∀ p ∈ g.edges, p.1 = edgeKey p.2.fromId p.2.toId
  endpoints : ∀ p ∈ g.edges,
    p.2.fromId ∈ g.nodes.map Prod.fst ∧ p.2.toId ∈ g.nodes.map Prod.fst
  posWeights : ∀ p ∈ g.edges, 0 < p.2.weight

/-- Free-form `dijkstra` computes the minimum path weight between two present,
connected endpoints. -/
theorem dijkstra_shortest (g : Graph) (s e : String) (wf : FreeGraphWF g)
    (hs : s ∈ g.nodes.map Prod.fst) (he : e ∈ g.nodes.map Prod.fst)
    (hconn : ∃ l, IsPath g.edges s e l) :
    ∃ r q, dijkstra g s e = some r ∧ r.distance = some (NumV.fin q) ∧
      (∃ l, IsPath g.edges s e l ∧ pathWeight g.edges l = q) ∧
      (∀ l, IsPath g.edges s e l → q ≤ pathWeight g.edges l) := by
  have hfuel : g.nodes.length + 2 ≤ defFuel g := by
    unfold defFuel
    omega
  rcases dijkstraFree_dist wf.nodesNodup wf.edgesNodup wf.keyShape wf.endpoints
    wf.posWeights hs he hfuel with ⟨r, de, hr, hd, hlb, hsnd⟩
  rcases hconn with ⟨l0, hl0⟩
  have h0 : ReachIn g.edges s (fun _ => True) e (pathWeight g.edges l0) :=
    reachIn_of_isPath g.edges s l0 e hl0
  have hwrap : dijkstra g s e = some r := by
    unfold dijkstra dijkstraFuel
    rw [wf.gridMode]
    simpa using hr
  cases de with
  | inf => exact absurd (hlb _ h0) (by simp [NumV.le])
  | fin qe =>
    refine ⟨r, qe, hwrap, hd, ?wit, ?min⟩
    case wit => exact isPath_of_reachIn g.edges s (hsnd qe rfl)
    case min =>
      intro l hl
      exact hlb _ (reachIn_of_isPath g.edges s l e hl)

/-- The concrete scenario of the specification: free-form graph with nodes
A(0,0), B(10,0), C(10,10), edges A-B weight 1, B-C weight 1, A-C weight 5
(grid fields as an untouched free-form snapshot). -/
def scGraph : Graph :=
  { nodes := [("A", ⟨"A", 0, 0, "A"⟩), ("B", ⟨"B", 10, 0, "B"⟩), ("C", ⟨"C", 10, 10, "C"⟩)]
    edges := [(edgeKey "A" "B", ⟨"A", "B", 1⟩), (edgeKey "B" "A", ⟨"B", "A", 1⟩),
      (edgeKey "B" "C", ⟨"B", "C", 1⟩), (edgeKey "C" "B", ⟨"C", "B", 1⟩),
      (edgeKey "A" "C", ⟨"A", "C", 5⟩), (edgeKey "C" "A", ⟨"C", "A", 5⟩)]
    nodeCounter := 3
    grid := List.replicate 15 (List.replicate 15 0)
    gridSize := 15
    cellSize := 30
    isGridMode := false
    finalPath := []
    visitedCells := []
    isPathHighlighted := false }

/-- C1: on every well-formed free-form graph with positive edge weights and
present, connected endpoints, `dijkstra` returns a distance equal to the
minimum total edge weight over all paths from start to end; in particular, on
the scenario graph A/B/C it returns the path `[A, B, C]` with distance 2. -/
theorem claimC1 :
    (∀ (g : Graph) (s e : String), FreeGraphWF g →
      s ∈ g.nodes.map Prod.fst → e ∈ g.nodes.map Prod.fst →
      (∃ l, IsPath g.edges s e l) →
      ∃ r q, dijkstra g s e = some r ∧ r.distance = some (NumV.fin q) ∧
        (∃ l, IsPath g.edges s e l ∧ pathWeight g.edges l = q) ∧
        (∀ l, IsPath g.edges s e l → q ≤ pathWeight g.edges l)) ∧
    dijkstra scGraph "A" "C" =
      some { path := [JV.val ("A"), JV.val ("B"), JV.val ("C")]
             distance := some (NumV.fin 2)
             visited := [JV.val ("A"), JV.val ("B")] } := by
  constructor
  · intro g s e wf hs he hconn
    exact dijkstra_shortest g s e wf hs he hconn
  · with_unfolding_all rfl

/-- Witness for C1 at the scenario graph. -/
theorem claimC1_witness :
    ∃ r q, dijkstra scGraph "A" "C" = some r ∧ r.distance = some (NumV.fin q) ∧
      (∃ l, IsPath scGraph.edges "A" "C" l ∧ pathWeight scGraph.edges l = q) ∧
      (∀ l, IsPath scGraph.edges "A" "C" l → q ≤ pathWeight scGraph.edges l) :=
  claimC1.1 scGraph "A" "C"
    ⟨by decide, by decide, by decide, by decide, by decide, by decide⟩
    (by decide) (by decide) ⟨["A", "B", "C"], by decide⟩

/-- C8: the searches are pure functions of the model snapshot. The embedding
gives them no channel to write to the model (every Graph method they call only
reads fields); accordingly, the result is determined by the model fields they
read (`nodes`, `edges`, `grid`, `gridSize`, `isGridMode`) — the counters,
cell size and highlighting fields are irrelevant — and repeated calls on an
unmodified model return identical path, distance and visited results. -/
theorem claimC8 :
    (∀ (nds : List (String × Node)) (eds : List (String × Edge)) (k₁ k₂ : Nat)
      (gr : List (List ℚ)) (gs : Nat) (cs₁ cs₂ : ℚ) (m : Bool)
      (fp₁ fp₂ vc₁ vc₂ : List String) (ph₁ ph₂ : Bool) (s e : String),
      dijkstra ⟨nds, eds, k₁, gr, gs, cs₁, m, fp₁, vc₁, ph₁⟩ s e =
        dijkstra ⟨nds, eds, k₂, gr, gs, cs₂, m, fp₂, vc₂, ph₂⟩ s e ∧
      aStar ⟨nds, eds, k₁, gr, gs, cs₁, m, fp₁, vc₁, ph₁⟩ s e =
        aStar ⟨nds, eds, k₂, gr, gs, cs₂, m, fp₂, vc₂, ph₂⟩ s e) ∧
    (∀ (g : Graph) (s e : String),
      dijkstra g s e = dijkstra g s e ∧ aStar g s e = aStar g s e) := by
  constructor
  · intro nds eds k₁ k₂ gr gs cs₁ cs₂ m fp₁ fp₂ vc₁ vc₂ ph₁ ph₂ s e
    exact ⟨rfl, rfl⟩
  · intro g s e
    exact ⟨rfl, rfl⟩

/-- A free-form snapshot with two `generateId`-shaped node identifiers (the
generator always produces `"node-"` plus nine alphanumeric characters) and the
single undirected edge between them (both directed entries). -/
def rnGraph : Graph :=
  { nodes := [("node-aaaaaaaaa", ⟨"node-aaaaaaaaa", 0, 0, "A"⟩),
      ("node-bbbbbbbbb", ⟨"node-bbbbbbbbb", 1, 1, "B"⟩)]
    edges := [(edgeKey ("node-aaaaaaaaa") ("node-bbbbbbbbb"),
        ⟨"node-aaaaaaaaa", "node-bbbbbbbbb", 2⟩),
      (edgeKey ("node-bbbbbbbbb") ("node-aaaaaaaaa"),
        ⟨"node-bbbbbbbbb", "node-aaaaaaaaa", 2⟩)]
    nodeCounter := 2
    grid := List.replicate 15 (List.replicate 15 0)
    gridSize := 15
    cellSize := 30
    isGridMode := false
    finalPath := []
    visitedCells := []
    isPathHighlighted := false }

/-- C3 (the code at the failing input): `removeNode` on a present node with a
`generateId`-shaped identifier deletes the node but leaves the edge map
completely unchanged — both directed entries still reference the removed node,
because `edgeKey.split('-')` yields the segments `"node"`, `"aaaaaaaaa"`, …,
none of which equals a full identifier. -/
theorem claimC3 :
    objGet (rnGraph.removeNode ("node-aaaaaaaaa")).nodes ("node-aaaaaaaaa") = none ∧
    (rnGraph.removeNode ("node-aaaaaaaaa")).edges = rnGraph.edges ∧
    (∃ p ∈ (rnGraph.removeNode ("node-aaaaaaaaa")).edges,
      p.2.fromId = "node-aaaaaaaaa" ∨ p.2.toId = "node-aaaaaaaaa") := by
  refine ⟨by with_unfolding_all rfl, by with_unfolding_all rfl, ?wit⟩
  refine ⟨(edgeKey ("node-aaaaaaaaa") ("node-bbbbbbbbb"),
    ⟨"node-aaaaaaaaa", "node-bbbbbbbbb", 2⟩), ?mem, Or.inl rfl⟩
  show _ ∈ (rnGraph.removeNode ("node-aaaaaaaaa")).edges
  rw [show (rnGraph.removeNode ("node-aaaaaaaaa")).edges = rnGraph.edges
    from by with_unfolding_all rfl]
  exact List.mem_cons_self _ _

/-- The legacy model of `src/models/Graph.js` with a single node. -/
def gjsGraph : GraphJS :=
  ⟨[("node-aaaaaaaaa", ⟨"node-aaaaaaaaa", 0, 0, "A"⟩)], [], 1⟩

/-- C4 (the code at the failing input): in `src/models/Graph.js`, `addEdge`
with a present `fromId` and an absent `toId` does not return `null` — the
endpoint guard reads `nodes[fromId]` twice — and it inserts both directed
entries, growing the edge map from 0 to 2 entries. -/
theorem claimC4 :
    objGet gjsGraph.nodes ("node-bbbbbbbbb") = none ∧
    (gjsGraph.addEdge ("node-aaaaaaaaa") ("node-bbbbbbbbb") 1).1 =
      some ⟨"node-aaaaaaaaa", "node-bbbbbbbbb", 1⟩ ∧
    gjsGraph.edges.length = 0 ∧
    (gjsGraph.addEdge ("node-aaaaaaaaa") ("node-bbbbbbbbb") 1).2.edges.length = 2 := by
  refine ⟨by with_unfolding_all rfl, by with_unfolding_all rfl, rfl,
    by with_unfolding_all rfl⟩

/-- For contrast: `addEdge` of the TypeScript model `src/models/Graph.ts`
does behave as specified — it fails exactly when an endpoint is absent or an
edge already exists in either direction, failure leaves the edge map
unchanged, and success inserts both directed entries with the given weight. -/
theorem addEdge_ts_spec (g : Graph) (fromId toId : String) (w : ℚ) :
    ((g.addEdge fromId toId w).1 = none ↔
      objGet g.nodes fromId = none ∨ objGet g.nodes toId = none ∨
        objGet g.edges (edgeKey fromId toId) ≠ none ∨
        objGet g.edges (edgeKey toId fromId) ≠ none) ∧
    ((g.addEdge fromId toId w).1 = none → (g.addEdge fromId toId w).2.edges = g.edges) ∧
    ((g.addEdge fromId toId w).1 ≠ none →
      (g.addEdge fromId toId w).1 = some ⟨fromId, toId, w⟩ ∧
      (g.addEdge fromId toId w).2.edges =
        objSet (objSet g.edges (edgeKey fromId toId) ⟨fromId, toId, w⟩)
          (edgeKey toId fromId) ⟨toId, fromId, w⟩) := by
  unfold Graph.addEdge
  by_cases h1 : (objGet g.nodes fromId).isNone ∨ (objGet g.nodes toId).isNone
  · rw [if_pos h1]
    refine ⟨?iff1, fun _ => rfl, fun hne => absurd rfl hne⟩
    simp only [Option.isNone_iff_eq_none] at h1
    simp only [true_iff]
    exact h1.imp id Or.inl
  · rw [if_neg h1]
    simp only [Option.isNone_iff_eq_none] at h1
    push_neg at h1
    by_cases h2 : (objGet g.edges (edgeKey fromId toId)).isSome ∨
        (objGet g.edges (edgeKey toId fromId)).isSome
    · rw [if_pos h2]
      refine ⟨?iff2, fun _ => rfl, fun hne => absurd rfl hne⟩
      simp only [Option.isSome_iff_ne_none] at h2
      simp only [true_iff]
      exact Or.inr (Or.inr h2)
    · rw [if_neg h2]
      simp only [not_or, Option.not_isSome_iff_eq_none] at h2
      refine ⟨?iff3, ?unch3, ?succ3⟩
      case iff3 =>
        constructor
        · intro h; cases h
        · rintro (h | h | h | h)
          · exact absurd h h1.1
          · exact absurd h h1.2
          · exact absurd h2.1 h
          · exact absurd h2.2 h
      case unch3 => intro h; cases h
      case succ3 => intro h; exact ⟨rfl, rfl⟩

lemma tsNeighborAt_some_iff (g : Graph) (ri ci : Int) (r c : Nat) (w : ℚ) :
    tsNeighborAt g ri ci = some (r, c, w) ↔
      (r : Int) = ri ∧ (c : Int) = ci ∧ r < g.gridSize ∧ c < g.gridSize ∧
        1 ≤ gridGet g.grid r c ∧ w = gridGet g.grid r c := by
  unfold tsNeighborAt
  dsimp only
  split_ifs with h1 h2
  · constructor
    · intro h
      rw [Option.some_inj] at h
      have hr : ri.toNat = r := (Prod.ext_iff.mp h).1
      have hcw := (Prod.ext_iff.mp h).2
      have hc : ci.toNat = c := (Prod.ext_iff.mp hcw).1
      have hw : gridGet g.grid ri.toNat ci.toNat = w := (Prod.ext_iff.mp hcw).2
      obtain ⟨ha, hb, hcc, hd⟩ := h1
      refine ⟨by omega, by omega, by omega, by omega, ?ge, ?wq⟩
      case ge => rw [show r = ri.toNat from hr.symm, show c = ci.toNat from hc.symm]; exact h2
      case wq => rw [show r = ri.toNat from hr.symm, show c = ci.toNat from hc.symm]; exact hw.symm
    · rintro ⟨hri, hci, hrlt, hclt, hge, hw⟩
      have hr : ri.toNat = r := by omega
      have hc : ci.toNat = c := by omega
      rw [Option.some_inj, hr, hc, hw]
  · constructor
    · intro h; cases h
    · rintro ⟨hri, hci, hrlt, hclt, hge, hw⟩
      have hr : ri.toNat = r := by omega
      have hc : ci.toNat = c := by omega
      rw [hr, hc] at h2
      exact absurd hge h2
  · constructor
    · intro h; cases h
    · rintro ⟨hri, hci, hrlt, hclt, hge, hw⟩
      exact absurd ⟨by omega, by omega, by omega, by omega⟩ h1

lemma jsNeighborAt_some_iff (grid : List (List ℚ)) (n : Nat) (ri ci : Int)
    (r c : Nat) (w : ℚ) :
    jsNeighborAt grid n ri ci = some (r, c, w) ↔
      (r : Int) = ri ∧ (c : Int) = ci ∧ r < n ∧ c < n ∧
        gridGet grid r c ≠ -1 ∧ w = jsWeight (gridGet grid r c) := by
  unfold jsNeighborAt
  dsimp only
  split_ifs with h1 h2
  · constructor
    · intro h; cases h
    · rintro ⟨hri, hci, hrlt, hclt, hne, hw⟩
      have hr : ri.toNat = r := by omega
      have hc : ci.toNat = c := by omega
      rw [hr, hc] at h2
      exact absurd h2 hne
  · constructor
    · intro h
      rw [Option.some_inj] at h
      have hr : ri.toNat = r := (Prod.ext_iff.mp h).1
      have hcw := (Prod.ext_iff.mp h).2
      have hc : ci.toNat = c := (Prod.ext_iff.mp hcw).1
      have hw := (Prod.ext_iff.mp hcw).2
      obtain ⟨ha, hb, hcc, hd⟩ := h1
      refine ⟨by omega, by omega, by omega, by omega, ?ne, ?wq⟩
      case ne => rw [show r = ri.toNat from hr.symm, show c = ci.toNat from hc.symm]; exact h2
      case wq =>
        rw [show r = ri.toNat from hr.symm, show c = ci.toNat from hc.symm]
        exact hw.symm
    · rintro ⟨hri, hci, hrlt, hclt, hne, hw⟩
      have hr : ri.toNat = r := by omega
      have hc : ci.toNat = c := by omega
      rw [Option.some_inj, hr, hc, hw]
  · constructor
    · intro h; cases h
    · rintro ⟨hri, hci, hrlt, hclt, hne, hw⟩
      exact absurd ⟨by omega, by omega, by omega, by omega⟩ h1

/-- The four orthogonal offsets from `(row, col)`, as a predicate on the
candidate neighbor `(r, c)`. -/
def IsOrth (row col : Int) (r c : Nat) : Prop :=
  ((r : Int) = row - 1 ∧ (c : Int) = col) ∨ ((r : Int) = row + 1 ∧ (c : Int) = col) ∨
    ((r : Int) = row ∧ (c : Int) = col - 1) ∨ ((r : Int) = row ∧ (c : Int) = col + 1)

lemma mem_getGridNeighbors_iff (g : Graph) (row col : Int) (r c : Nat) (w : ℚ) :
    (r, c, w) ∈ g.getGridNeighbors row col ↔
      IsOrth row col r c ∧ r < g.gridSize ∧ c < g.gridSize ∧
        1 ≤ gridGet g.grid r c ∧ w = gridGet g.grid r c := by
  unfold Graph.getGridNeighbors
  rw [List.mem_filterMap]
  constructor
  · rintro ⟨d, hd, hf⟩
    simp only [List.mem_cons, List.not_mem_nil, or_false] at hd
    rcases hd with rfl | rfl | rfl | rfl <;>
      (rw [tsNeighborAt_some_iff] at hf;
       obtain ⟨h1, h2, h3, h4, h5, h6⟩ := hf)
    · exact ⟨Or.inl ⟨by omega, by omega⟩, h3, h4, h5, h6⟩
    · exact ⟨Or.inr (Or.inl ⟨by omega, by omega⟩), h3, h4, h5, h6⟩
    · exact ⟨Or.inr (Or.inr (Or.inl ⟨by omega, by omega⟩)), h3, h4, h5, h6⟩
    · exact ⟨Or.inr (Or.inr (Or.inr ⟨by omega, by omega⟩)), h3, h4, h5, h6⟩
  · rintro ⟨hdir, h3, h4, h5, h6⟩
    rcases hdir with ⟨hr, hc⟩ | ⟨hr, hc⟩ | ⟨hr, hc⟩ | ⟨hr, hc⟩
    · exact ⟨(-1, 0), by simp, (tsNeighborAt_some_iff g _ _ r c w).mpr
        ⟨by omega, by omega, h3, h4, h5, h6⟩⟩
    · exact ⟨(1, 0), by simp, (tsNeighborAt_some_iff g _ _ r c w).mpr
        ⟨by omega, by omega, h3, h4, h5, h6⟩⟩
    · exact ⟨(0, -1), by simp, (tsNeighborAt_some_iff g _ _ r c w).mpr
        ⟨by omega, by omega, h3, h4, h5, h6⟩⟩
    · exact ⟨(0, 1), by simp, (tsNeighborAt_some_iff g _ _ r c w).mpr
        ⟨by omega, by omega, h3, h4, h5, h6⟩⟩

lemma mem_getGridNeighborsJS_iff (grid : List (List ℚ)) (n : Nat) (row col : Int)
    (r c : Nat) (w : ℚ) :
    (r, c, w) ∈ getGridNeighborsJS grid n row col ↔
      IsOrth row col r c ∧ r < n ∧ c < n ∧ gridGet grid r c ≠ -1 ∧
        w = jsWeight (gridGet grid r c) := by
  unfold getGridNeighborsJS
  rw [List.mem_filterMap]
  constructor
  · rintro ⟨d, hd, hf⟩
    simp only [List.mem_cons, List.not_mem_nil, or_false] at hd
    rcases hd with rfl | rfl | rfl | rfl <;>
      (rw [jsNeighborAt_some_iff] at hf;
       obtain ⟨h1, h2, h3, h4, h5, h6⟩ := hf)
    · exact ⟨Or.inl ⟨by omega, by omega⟩, h3, h4, h5, h6⟩
    · exact ⟨Or.inr (Or.inl ⟨by omega, by omega⟩), h3, h4, h5, h6⟩
    · exact ⟨Or.inr (Or.inr (Or.inl ⟨by omega, by omega⟩)), h3, h4, h5, h6⟩
    · exact ⟨Or.inr (Or.inr (Or.inr ⟨by omega, by omega⟩)), h3, h4, h5, h6⟩
  · rintro ⟨hdir, h3, h4, h5, h6⟩
    rcases hdir with ⟨hr, hc⟩ | ⟨hr, hc⟩ | ⟨hr, hc⟩ | ⟨hr, hc⟩
    · exact ⟨(-1, 0), by simp, (jsNeighborAt_some_iff grid n _ _ r c w).mpr
        ⟨by omega, by omega, h3, h4, h5, h6⟩⟩
    · exact ⟨(1, 0), by simp, (jsNeighborAt_some_iff grid n _ _ r c w).mpr
        ⟨by omega, by omega, h3, h4, h5, h6⟩⟩
    · exact ⟨(0, -1), by simp, (jsNeighborAt_some_iff grid n _ _ r c w).mpr
        ⟨by omega, by omega, h3, h4, h5, h6⟩⟩
    · exact ⟨(0, 1), by simp, (jsNeighborAt_some_iff grid n _ _ r c w).mpr
        ⟨by omega, by omega, h3, h4, h5, h6⟩⟩

/-- C5 (amended): the two `getGridNeighbors` implementations disagree. The
grid-aware JS model returns exactly the in-bounds orthogonal neighbors whose
code is not `-1`, with weight `cellType || 1` (as the claim states); the
TypeScript model `src/models/Graph.ts` instead keeps only neighbors with code
`>= 1` (weight the code itself), silently dropping empty cells of code `0`. -/
theorem claimC5 (g : Graph) (row col : Int) (r c : Nat) (w : ℚ) :
    ((r, c, w) ∈ getGridNeighborsJS g.grid g.gridSize row col ↔
      IsOrth row col r c ∧ r < g.gridSize ∧ c < g.gridSize ∧
        gridGet g.grid r c ≠ -1 ∧ w = jsWeight (gridGet g.grid r c)) ∧
    ((r, c, w) ∈ g.getGridNeighbors row col ↔
      IsOrth row col r c ∧ r < g.gridSize ∧ c < g.gridSize ∧
        1 ≤ gridGet g.grid r c ∧ w = gridGet g.grid r c) :=
  ⟨mem_getGridNeighborsJS_iff g.grid g.gridSize row col r c w,
    mem_getGridNeighbors_iff g row col r c w⟩

/-- An all-empty 2×2 grid (every cell code `0`). -/
def zG : Graph :=
  { nodes := []
    edges := []
    nodeCounter := 0
    grid := [[0, 0], [0, 0]]
    gridSize := 2
    cellSize := 30
    isGridMode := true
    finalPath := []
    visitedCells := []
    isPathHighlighted := false }

/-- C5 (counterexample to the claim as stated): on an all-zero 2×2 grid, cell
`(1,0)` is in bounds with code `0 ≠ -1`, so the claim requires it among the
neighbors of `(0,0)` with weight `1` — the JS model indeed returns it, but the
TypeScript `Graph.ts` version returns no neighbors at all. -/
theorem claimC5_cex :
    gridGet zG.grid 1 0 ≠ -1 ∧ 1 < zG.gridSize ∧
    getGridNeighborsJS zG.grid zG.gridSize 0 0 = [(1, 0, 1), (0, 1, 1)] ∧
    Graph.getGridNeighbors zG 0 0 = [] := by
  refine ⟨by decide, by decide, by with_unfolding_all rfl, by with_unfolding_all rfl⟩

lemma scanFold_all_none {α : Type} [DecidableEq α] {dist : List (α × NumV)} :
    ∀ (l : List α) (acc : Option α × NumV),
      (∀ k ∈ l, objGet dist k = none) → l.foldl (scanStep dist) acc = acc := by
  intro l
  induction l with
  | nil => intro acc _; rfl
  | cons a t ih =>
    intro acc h
    rw [List.foldl_cons,
      show scanStep dist acc a = acc from by
        unfold scanStep; rw [h a (List.mem_cons_self a t)]]
    exact ih acc (fun k hk => h k (List.mem_cons_of_mem a hk))

/-- When no member of the open set has an `fScore` binding, the scan yields
`null` every iteration, `closedSet.add(null)` is the only effect, and the
`while` loop of `aStar` never exits. -/
lemma aStarLoop_spin (nodes : List (String × Node)) (edges : List (String × Edge))
    (endId : String) :
    ∀ (fuel : Nat) (st : AStarState),
      (∀ k ∈ st.openSet, objGet st.fScore k = none) → st.openSet ≠ [] →
      aStarLoop nodes edges endId fuel st = none := by
  intro fuel
  induction fuel with
  | zero => intro st _ _; rfl
  | succ n ih =>
    intro st h hne
    have hempty : st.openSet.isEmpty = false := by
      cases hop : st.openSet with
      | nil => exact absurd hop hne
      | cons a t => rfl
    have hscan : scanMin st.fScore st.openSet = (none, NumV.inf) :=
      scanFold_all_none st.openSet (none, NumV.inf) h
    show (if st.openSet.isEmpty then _ else _) = none
    rw [if_neg (by rw [hempty]; exact Bool.false_ne_true)]
    rw [show (scanMin st.fScore st.openSet).1 = none from by rw [hscan]]
    exact ih _ h hne

/-- A free-form graph holding the single node `"a"` and no edges. -/
def oneG : Graph :=
  { nodes := [("a", ⟨"a", 0, 0, "A"⟩)]
    edges := []
    nodeCounter := 1
    grid := List.replicate 15 (List.replicate 15 0)
    gridSize := 15
    cellSize := 30
    isGridMode := false
    finalPath := []
    visitedCells := []
    isPathHighlighted := false }

/-- The state of `oneG`'s Dijkstra loop after the single node is processed. -/
def oneGDone : DijState :=
  ⟨[("a", NumV.fin 0)], [("a", none)], [], ["a"]⟩

lemma oneG_loop_succ (n : Nat) :
    dijkstraLoop [] ("b") (n + 1) (dijkstraInit ["a"] ("a")) =
      dijkstraLoop [] ("b") n oneGDone := by
  with_unfolding_all rfl

lemma oneG_loop_done : ∀ n, dijkstraLoop [] ("b") n oneGDone = oneGDone
  | 0 => rfl
  | _ + 1 => rfl

lemma oneG_loop_prev (fuel : Nat) :
    (dijkstraLoop [] ("b") fuel (dijkstraInit ["a"] ("a"))).previous = [("a", none)] := by
  cases fuel with
  | zero => rfl
  | succ n => rw [oneG_loop_succ, oneG_loop_done]; rfl

lemma oneG_recon_none (fuel : Nat) :
    reconChain (some ("undefined")) [("a", (none : Option String))] fuel
      (JV.val ("b")) = none := by
  cases fuel with
  | zero => rfl
  | succ n =>
    have hu : prevLookup (some ("undefined")) [("a", (none : Option String))]
        JV.undef = JV.undef := rfl
    have hb : prevLookup (some ("undefined")) [("a", (none : Option String))]
        (JV.val ("b")) = JV.undef := rfl
    show (if (JV.val ("b") : JV String) = JV.jsnull then _ else _) = none
    rw [if_neg (by intro h; cases h)]
    rw [hb, reconChain_undef_none hu n]
    rfl

/-- C6 (the code at the failing inputs), on the one-node graph `oneG`
(node `"a"` only): with the end identifier `"b"` absent, `dijkstra`'s
reconstruction loop walks `undefined → previous["undefined"] → undefined`
forever (no fuel bound suffices: the JS loop never terminates), and `aStar`
throws a `TypeError` evaluating the heuristic at the missing end node; with
the start identifier `"zzz"` absent, `aStar`'s minimum scan yields `null`
every iteration and its `while` loop never exits. None of the three return
the graceful empty-path/`Infinity` result the claim requires. -/
theorem claimC6 :
    (∀ fuel, dijkstraFuel fuel oneG ("a") ("b") = none) ∧
    (∀ fuel, aStarFuel fuel oneG ("a") ("b") = some JSRes.typeError) ∧
    (∀ fuel, aStarFuel fuel oneG ("zzz") ("a") = none) := by
  refine ⟨?dij, ?astarEnd, ?astarStart⟩
  case dij =>
    intro fuel
    show dijkstraFree fuel oneG.nodes oneG.edges ("a") ("b") = none
    unfold dijkstraFree
    dsimp only
    rw [show (oneG.nodes.map Prod.fst) = ["a"] from rfl]
    rw [show oneG.edges = [] from rfl]
    rw [oneG_loop_prev fuel, oneG_recon_none fuel]
    rfl
  case astarEnd =>
    intro fuel
    show aStarFree fuel oneG.nodes oneG.edges ("a") ("b") = some JSRes.typeError
    unfold aStarFree
    rw [show aStarInit oneG.nodes ("a") ("b") = none from by with_unfolding_all rfl]
  case astarStart =>
    intro fuel
    show aStarFree fuel oneG.nodes oneG.edges ("zzz") ("a") = none
    unfold aStarFree
    rw [show aStarInit oneG.nodes ("zzz") ("a") =
      some ⟨["zzz"], [], [("a", NumV.inf)], [("a", NumV.inf)], [("a", none)]⟩
        from by with_unfolding_all rfl]
    exact aStarLoop_spin _ _ _ fuel _
      (by intro k hk; rcases List.mem_singleton.mp hk with rfl; rfl)
      (by intro h; cases h)

/-- The Dijkstra main loop breaks when the end node is selected, before adding
it to the visited set. -/
lemma dijkstraLoop_not_vis (edges : List (String × Edge)) (endId : String) :
    ∀ (fuel : Nat) (st : DijState), endId ∉ st.visited →
      endId ∉ (dijkstraLoop edges endId fuel st).visited := by
  intro fuel
  induction fuel with
  | zero => intro st h; exact h
  | succ n ih =>
    intro st h
    rw [dijkstraLoop]
    split
    · exact h
    · split
      · exact h
      · split
        · exact h
        · apply ih
          rw [(relaxFold_sets edges _ _ _).2]
          intro hmem
          rcases mem_setAdd_iff.mp hmem with hmem | hmem
          · exact h hmem
          · rename_i cur hcur _
            exact hcur hmem.symm

lemma relaxGridFold_sets (cur : Cell) :
    ∀ (L : List (Nat × Nat × ℚ)) (st : DijGridState),
      (L.foldl (relaxGridNeighbor cur) st).unvisited = st.unvisited ∧
      (L.foldl (relaxGridNeighbor cur) st).visited = st.visited := by
  intro L
  induction L with
  | nil => intro st; exact ⟨rfl, rfl⟩
  | cons a t ih =>
    intro st
    rw [List.foldl_cons]
    rcases ih (relaxGridNeighbor cur st a) with ⟨h1, h2⟩
    have hsets : (relaxGridNeighbor cur st a).unvisited = st.unvisited ∧
        (relaxGridNeighbor cur st a).visited = st.visited := by
      unfold relaxGridNeighbor
      dsimp only
      split
      · exact ⟨rfl, rfl⟩
      · split
        · exact ⟨rfl, rfl⟩
        · split
          · exact ⟨rfl, rfl⟩
          · split
            · exact ⟨rfl, rfl⟩
            · exact ⟨rfl, rfl⟩
    exact ⟨h1.trans hsets.1, h2.trans hsets.2⟩

/-- Grid Dijkstra also breaks on the end cell before visiting it. -/
lemma dijkstraGridLoop_not_vis (grid : List (List ℚ)) (n : Nat) (endCell : Cell) :
    ∀ (fuel : Nat) (st : DijGridState), endCell ∉ st.visited →
      endCell ∉ (dijkstraGridLoop grid n endCell fuel st).visited := by
  intro fuel
  induction fuel with
  | zero => intro st h; exact h
  | succ m ih =>
    intro st h
    rw [dijkstraGridLoop]
    split
    · exact h
    · split
      · exact h
      · split
        · exact h
        · apply ih
          rw [(relaxGridFold_sets _ _ _).2]
          intro hmem
          rcases mem_setAdd_iff.mp hmem with hmem | hmem
          · exact h hmem
          · rename_i cur hcur _
            exact hcur hmem.symm

lemma aStarRelax_closed (nodes : List (String × Node)) (edges : List (String × Edge))
    (endId cur : String) (st : AStarState) (nb : String) {st' : AStarState}
    (h : aStarRelax nodes edges endId cur st nb = some st') :
    st'.closedSet = st.closedSet := by
  unfold aStarRelax at h
  dsimp only at h
  split at h
  · cases h; rfl
  · split at h
    · cases h; rfl
    · split at h
      · cases h; rfl
      · split at h
        · split at h
          · cases h; rfl
          · cases h
        · cases h; rfl

lemma aStarRelaxFold_closed (nodes : List (String × Node)) (edges : List (String × Edge))
    (endId cur : String) :
    ∀ (L : List String) (st st' : AStarState),
      L.foldlM (aStarRelax nodes edges endId cur) st = some st' →
      st'.closedSet = st.closedSet := by
  intro L
  induction L with
  | nil => intro st st' h; cases h; rfl
  | cons a t ih =>
    intro st st' h
    rw [List.foldlM_cons] at h
    cases ha : aStarRelax nodes edges endId cur st a with
    | none => rw [ha] at h; cases h
    | some s1 =>
      rw [ha] at h
      exact (ih s1 st' h).trans (aStarRelax_closed nodes edges endId cur st a ha)

lemma relaxGridFoldA_sets (endCell cur : Cell) :
    ∀ (L : List (Nat × Nat × ℚ)) (st : AStarGridState),
      (L.foldl (aStarGridRelax endCell cur) st).closedSet = st.closedSet := by
  intro L
  induction L with
  | nil => intro st; rfl
  | cons a t ih =>
    intro st
    rw [List.foldl_cons]
    refine (ih (aStarGridRelax endCell cur st a)).trans ?step
    unfold aStarGridRelax
    dsimp only
    split
    · rfl
    · split
      · rfl
      · split
        · rfl
        · split
          · rfl
          · rfl

/-- Free-form A* returns at the moment the end is selected, before adding it
to the closed set. -/
lemma aStarLoop_not_closed (nodes : List (String × Node)) (edges : List (String × Edge))
    (endId : String) :
    ∀ (fuel : Nat) (st : AStarState), JV.val endId ∉ st.closedSet →
      ∀ r, aStarLoop nodes edges endId fuel st = some (JSRes.ok r) →
      JV.val endId ∉ r.visited := by
  intro fuel
  induction fuel with
  | zero => intro st _ r h; cases h
  | succ n ih =>
    intro st hcl r h
    rw [aStarLoop] at h
    split at h
    · cases h; exact hcl
    · split at h
      · rename_i cur hscan
        split at h
        · rcases Option.map_eq_some'.mp h with ⟨chain, _, hr⟩
          cases hr
          exact hcl
        · rename_i hcur
          split at h
          · rename_i st2 hfold
            apply ih st2 _ r h
            rw [aStarRelaxFold_closed nodes edges endId cur _ _ _ hfold]
            intro hmem
            rcases mem_setAdd_iff.mp hmem with hmem | hmem
            · exact hcl hmem
            · exact hcur (JV.val.inj hmem).symm
          · cases h
      · apply ih _ _ r h
        intro hmem
        rcases mem_setAdd_iff.mp hmem with hmem | hmem
        · exact hcl hmem
        · cases hmem

/-- Grid A* likewise returns on selecting the end cell before closing it. -/
lemma aStarGridLoop_not_closed (grid : List (List ℚ)) (n : Nat) (endCell : Cell) :
    ∀ (fuel : Nat) (st : AStarGridState), JV.val endCell ∉ st.closedSet →
      ∀ r, aStarGridLoop grid n endCell fuel st = some r →
      JV.val endCell ∉ r.visited := by
  intro fuel
  induction fuel with
  | zero => intro st _ r h; cases h
  | succ m ih =>
    intro st hcl r h
    rw [aStarGridLoop] at h
    split at h
    · cases h; exact hcl
    · split at h
      · rename_i cur hscan
        split at h
        · rcases Option.map_eq_some'.mp h with ⟨chain, _, hr⟩
          cases hr
          exact hcl
        · rename_i hcur
          apply ih _ _ r h
          rw [relaxGridFoldA_sets endCell cur _ _]
          intro hmem
          rcases mem_setAdd_iff.mp hmem with hmem | hmem
          · exact hcl hmem
          · exact hcur (JV.val.inj hmem).symm
      · apply ih _ _ r h
        intro hmem
        rcases mem_setAdd_iff.mp hmem with hmem | hmem
        · exact hcl hmem
        · cases hmem

lemma dijkstraInitFold_vis (startId : String) :
    ∀ (keys : List String) (st : DijState),
      (keys.foldl (dijkstraInitStep startId) st).visited = st.visited := by
  intro keys
  induction keys with
  | nil => intro st; rfl
  | cons a t ih => intro st; rw [List.foldl_cons]; exact ih _

lemma dijkstraGridInitFold_vis (grid : List (List ℚ)) (startCell : Cell) :
    ∀ (cells : List Cell) (st : DijGridState),
      (cells.foldl (dijkstraGridInitStep grid startCell) st).visited = st.visited := by
  intro cells
  induction cells with
  | nil => intro st; rfl
  | cons a t ih =>
    intro st
    rw [List.foldl_cons]
    refine (ih _).trans ?step
    unfold dijkstraGridInitStep
    split
    · rfl
    · rfl

lemma aStarInitFold_closed (nodes : List (String × Node)) (startId endId : String) :
    ∀ (keys : List String) (st st' : AStarState),
      keys.foldlM (aStarInitStep nodes startId endId) st = some st' →
      st'.closedSet = st.closedSet := by
  intro keys
  induction keys with
  | nil => intro st st' h; cases h; rfl
  | cons a t ih =>
    intro st st' h
    rw [List.foldlM_cons] at h
    cases ha : aStarInitStep nodes startId endId st a with
    | none => rw [ha] at h; cases h
    | some s1 =>
      rw [ha] at h
      refine (ih s1 st' h).trans ?step
      unfold aStarInitStep at ha
      split at ha
      · split at ha
        · cases ha; rfl
        · cases ha
      · cases ha; rfl

lemma aStarGridInitFold_closed (grid : List (List ℚ)) (startCell endCell : Cell) :
    ∀ (cells : List Cell) (st : AStarGridState),
      ((cells.foldl (fun st rc =>
        if gridGet grid rc.1 rc.2 = -1 then st
        else
          { st with
            gScore := objSet st.gScore rc (if rc = startCell then NumV.fin 0 else NumV.inf)
            fScore := objSet st.fScore rc
              (if rc = startCell then NumV.fin (manhattanDistance rc endCell) else NumV.inf)
            previous := objSet st.previous rc none }) st).closedSet) = st.closedSet := by
  intro cells
  induction cells with
  | nil => intro st; rfl
  | cons a t ih =>
    intro st
    rw [List.foldl_cons]
    refine (ih _).trans ?step
    split
    · rfl
    · rfl

/-- C9: none of the four search variants ever reports the end identifier among
the visited collection — Dijkstra breaks on selecting the end before adding it
to `visited`, and A* returns on selecting the end before adding it to
`closedSet` (for any fuel bound, i.e. along every terminating run). -/
theorem claimC9 :
    (∀ (fuel : Nat) (nodes : List (String × Node)) (edges : List (String × Edge))
      (s e : String) (r : SearchResult String),
      dijkstraFree fuel nodes edges s e = some r → JV.val e ∉ r.visited) ∧
    (∀ (fuel : Nat) (grid : List (List ℚ)) (n : Nat) (sc ec : Cell)
      (r : SearchResult Cell),
      dijkstraGridF fuel grid n sc ec = some r → JV.val ec ∉ r.visited) ∧
    (∀ (fuel : Nat) (nodes : List (String × Node)) (edges : List (String × Edge))
      (s e : String) (r : SearchResult String),
      aStarFree fuel nodes edges s e = some (JSRes.ok r) → JV.val e ∉ r.visited) ∧
    (∀ (fuel : Nat) (grid : List (List ℚ)) (n : Nat) (sc ec : Cell)
      (r : SearchResult Cell),
      aStarGridF fuel grid n sc ec = some r → JV.val ec ∉ r.visited) := by
  refine ⟨?dij, ?dijG, ?ast, ?astG⟩
  case dij =>
    intro fuel nodes edges s e r h
    unfold dijkstraFree at h
    dsimp only at h
    rcases Option.map_eq_some'.mp h with ⟨chain, _, hr⟩
    cases hr
    intro hmem
    rcases List.mem_map.mp hmem with ⟨x, hx, hxe⟩
    cases JV.val.inj hxe
    refine dijkstraLoop_not_vis edges e fuel _ ?ini0 hx
    show e ∉ (dijkstraInit (nodes.map Prod.fst) s).visited
    unfold dijkstraInit
    rw [dijkstraInitFold_vis]
    exact List.not_mem_nil e
  case dijG =>
    intro fuel grid n sc ec r h
    unfold dijkstraGridF at h
    dsimp only at h
    rcases Option.map_eq_some'.mp h with ⟨chain, _, hr⟩
    cases hr
    intro hmem
    rcases List.mem_map.mp hmem with ⟨x, hx, hxe⟩
    cases JV.val.inj hxe
    refine dijkstraGridLoop_not_vis grid n ec fuel _ ?ini1 hx
    show ec ∉ (dijkstraGridInit grid n sc).visited
    unfold dijkstraGridInit
    rw [dijkstraGridInitFold_vis]
    exact List.not_mem_nil ec
  case ast =>
    intro fuel nodes edges s e r h
    unfold aStarFree at h
    split at h
    · cases h
    · rename_i st hinit
      refine aStarLoop_not_closed nodes edges e fuel st ?ini2 r h
      rw [aStarInitFold_closed nodes s e _ _ _ hinit]
      exact List.not_mem_nil _
  case astG =>
    intro fuel grid n sc ec r h
    refine aStarGridLoop_not_closed grid n ec fuel _ ?ini3 r h
    show JV.val ec ∉ (aStarGridInit grid n sc ec).closedSet
    unfold aStarGridInit
    rw [aStarGridInitFold_closed]
    exact List.not_mem_nil _

theorem claimC9_witness :
    JV.val ("a") ∉
      ((⟨[], some (NumV.fin 0), []⟩ : SearchResult String)).visited ∧
    JV.val ((0, 0) : Cell) ∉
      ((⟨[], some NumV.inf, []⟩ : SearchResult Cell)).visited ∧
    JV.val ("a") ∉
      ((⟨[JV.val ("a")], some (NumV.fin 0), []⟩ : SearchResult String)).visited ∧
    JV.val ((0, 0) : Cell) ∉
      ((⟨[JV.val (0, 0)], some (NumV.fin 0), []⟩ : SearchResult Cell)).visited :=
  ⟨claimC9.1 4 oneG.nodes [] ("a") ("a") ⟨[], some (NumV.fin 0), []⟩
      (by with_unfolding_all rfl),
    claimC9.2.1 6 [[1]] 1 (0, 0) (0, 0) ⟨[], some NumV.inf, []⟩
      (by with_unfolding_all rfl),
    claimC9.2.2.1 4 oneG.nodes [] ("a") ("a") ⟨[JV.val ("a")], some (NumV.fin 0), []⟩
      (by with_unfolding_all rfl),
    claimC9.2.2.2 6 [[1]] 1 (0, 0) (0, 0) ⟨[JV.val (0, 0)], some (NumV.fin 0), []⟩
      (by with_unfolding_all rfl)⟩

lemma mem_gridCells {n : Nat} {k : Cell} : k ∈ gridCells n ↔ k.1 < n ∧ k.2 < n := by
  unfold gridCells
  rw [List.mem_flatMap]
  constructor
  · rintro ⟨r, hr, hk⟩
    rcases List.mem_map.mp hk with ⟨c, hc, hck⟩
    rw [← hck]
    exact ⟨List.mem_range.mp hr, List.mem_range.mp hc⟩
  · rintro ⟨h1, h2⟩
    exact ⟨k.1, List.mem_range.mpr h1,
      List.mem_map.mpr ⟨k.2, List.mem_range.mpr h2, rfl⟩⟩

lemma if_or_collapse {C1 C2 C3 : Prop} [Decidable C1] [Decidable C2] [Decidable C3]
    {β : Type} (h : C3 ↔ C1 ∨ C2) (V B : β) :
    (if C1 then V else if C2 then V else B) = if C3 then V else B := by
  by_cases h1 : C1
  · rw [if_pos h1, if_pos (h.mpr (Or.inl h1))]
  · rw [if_neg h1]
    by_cases h2 : C2
    · rw [if_pos h2, if_pos (h.mpr (Or.inr h2))]
    · rw [if_neg h2, if_neg (fun hc => (h.mp hc).elim h1 h2)]

/-- Effect of the `dijkstraGrid` initialisation fold on each key: every
non-obstacle cell of the processed list gets distance `0` (start) or
`Infinity`, a `null` predecessor, and unvisited membership. -/
lemma dijkstraGridInitFold (grid : List (List ℚ)) (startCell : Cell) :
    ∀ (L : List Cell) (st : DijGridState) (k : Cell),
      (objGet (L.foldl (dijkstraGridInitStep grid startCell) st).distances k =
        if k ∈ L ∧ gridGet grid k.1 k.2 ≠ -1 then
          some (if k = startCell then NumV.fin 0 else NumV.inf)
        else objGet st.distances k) ∧
      (objGet (L.foldl (dijkstraGridInitStep grid startCell) st).previous k =
        if k ∈ L ∧ gridGet grid k.1 k.2 ≠ -1 then some none
        else objGet st.previous k) ∧
      (k ∈ (L.foldl (dijkstraGridInitStep grid startCell) st).unvisited ↔
        ((k ∈ L ∧ gridGet grid k.1 k.2 ≠ -1) ∨ k ∈ st.unvisited)) := by
  intro L
  induction L with
  | nil =>
    intro st k
    have hno : ¬(k ∈ ([] : List Cell) ∧ gridGet grid k.1 k.2 ≠ -1) := by
      rintro ⟨h, _⟩; exact List.not_mem_nil k h
    refine ⟨by rw [if_neg hno]; rfl, by rw [if_neg hno]; rfl, ?u0⟩
    rw [List.foldl_nil]
    constructor
    · exact fun h => Or.inr h
    · rintro (h | h)
      · exact absurd h hno
      · exact h
  | cons a t ih =>
    intro st k
    rw [List.foldl_cons]
    rcases ih (dijkstraGridInitStep grid startCell st a) k with ⟨ihd, ihp, ihu⟩
    have hstep : objGet (dijkstraGridInitStep grid startCell st a).distances k =
        (if k = a ∧ gridGet grid k.1 k.2 ≠ -1 then
          some (if k = startCell then NumV.fin 0 else NumV.inf)
        else objGet st.distances k) ∧
        objGet (dijkstraGridInitStep grid startCell st a).previous k =
        (if k = a ∧ gridGet grid k.1 k.2 ≠ -1 then some none
        else objGet st.previous k) ∧
        (k ∈ (dijkstraGridInitStep grid startCell st a).unvisited ↔
          ((k = a ∧ gridGet grid k.1 k.2 ≠ -1) ∨ k ∈ st.unvisited)) := by
      unfold dijkstraGridInitStep
      split
      · rename_i hobs
        have hno : ¬(k = a ∧ gridGet grid k.1 k.2 ≠ -1) := by
          rintro ⟨rfl, h⟩; exact h hobs
        refine ⟨by rw [if_neg hno], by rw [if_neg hno], ?u1⟩
        constructor
        · exact fun h => Or.inr h
        · rintro (h | h)
          · exact absurd h hno
          · exact h
      · rename_i hobs
        by_cases hka : k = a
        · subst hka
          have hyes : k = k ∧ gridGet grid k.1 k.2 ≠ -1 := ⟨rfl, hobs⟩
          refine ⟨?d2, ?p2, ?u2⟩
          case d2 =>
            rw [if_pos hyes]
            exact objGet_objSet_self st.distances k _
          case p2 =>
            rw [if_pos hyes]
            exact objGet_objSet_self st.previous k _
          case u2 =>
            show k ∈ setAdd st.unvisited k ↔ _
            rw [mem_setAdd_iff]
            constructor
            · intro _; exact Or.inl hyes
            · intro _; exact Or.inr rfl
        · have hno : ¬(k = a ∧ gridGet grid k.1 k.2 ≠ -1) := fun h => hka h.1
          refine ⟨?d3, ?p3, ?u3⟩
          case d3 =>
            rw [if_neg hno]
            exact objGet_objSet_ne st.distances _ (Ne.symm hka)
          case p3 =>
            rw [if_neg hno]
            exact objGet_objSet_ne st.previous _ (Ne.symm hka)
          case u3 =>
            show k ∈ setAdd st.unvisited a ↔ _
            rw [mem_setAdd_iff]
            constructor
            · rintro (h | h)
              · exact Or.inr h
              · exact absurd h hka
            · rintro (h | h)
              · exact absurd h hno
              · exact Or.inl h
    have hC3 : (k ∈ a :: t ∧ gridGet grid k.1 k.2 ≠ -1) ↔
        (k ∈ t ∧ gridGet grid k.1 k.2 ≠ -1) ∨ (k = a ∧ gridGet grid k.1 k.2 ≠ -1) := by
      constructor
      · rintro ⟨hm, hp⟩
        rcases List.mem_cons.mp hm with rfl | hm
        · exact Or.inr ⟨rfl, hp⟩
        · exact Or.inl ⟨hm, hp⟩
      · rintro (⟨hm, hp⟩ | ⟨rfl, hp⟩)
        · exact ⟨List.mem_cons_of_mem a hm, hp⟩
        · exact ⟨List.mem_cons_self k t, hp⟩
    refine ⟨?dm, ?pm, ?um⟩
    case dm =>
      rw [ihd, hstep.1, if_or_collapse hC3]
    case pm =>
      rw [ihp, hstep.2.1, if_or_collapse hC3]
    case um =>
      rw [ihu, hstep.2.2, hC3, or_assoc]

/-- When exactly one member of the scanned collection has a finite distance
(`0`) and every other member sits at `Infinity` (or is unbound), the linear
scan selects that member. -/
lemma scanFold_unique {α : Type} [DecidableEq α] {dist : List (α × NumV)} {c : α}
    (hdc : objGet dist c = some (NumV.fin 0)) :
    ∀ (l : List α) (acc : Option α × NumV),
      (∀ k ∈ l, k ≠ c → objGet dist k = some NumV.inf ∨ objGet dist k = none) →
      ((acc = (none, NumV.inf) ∧ c ∈ l) ∨ acc = (some c, NumV.fin 0)) →
      l.foldl (scanStep dist) acc = (some c, NumV.fin 0) := by
  intro l
  induction l with
  | nil =>
    intro acc _ hacc
    rcases hacc with ⟨_, hmem⟩ | rfl
    · exact absurd hmem (List.not_mem_nil c)
    · rfl
  | cons a t ih =>
    intro acc hoth hacc
    rw [List.foldl_cons]
    rcases hacc with ⟨rfl, hmem⟩ | rfl
    · by_cases hac : a = c
      · subst hac
        have hs : scanStep dist (none, NumV.inf) a = (some a, NumV.fin 0) := by
          unfold scanStep
          rw [hdc]
          rfl
        rw [hs]
        exact ih _ (fun k hk => hoth k (List.mem_cons_of_mem a hk)) (Or.inr rfl)
      · have hs : scanStep dist (none, NumV.inf) a = (none, NumV.inf) := by
          unfold scanStep
          rcases hoth a (List.mem_cons_self a t) hac with h | h
          · rw [h]; rfl
          · rw [h]
        rw [hs]
        refine ih _ (fun k hk => hoth k (List.mem_cons_of_mem a hk)) (Or.inl ⟨rfl, ?mem⟩)
        rcases List.mem_cons.mp hmem with rfl | hmem
        · exact absurd rfl hac
        · exact hmem
    · have hs : scanStep dist (some c, NumV.fin 0) a = (some c, NumV.fin 0) := by
        unfold scanStep
        by_cases hac : a = c
        · subst hac
          rw [hdc]
          show (if NumV.lt (NumV.fin 0) (NumV.fin 0) = true then _ else _) = _
          rw [if_neg (by decide)]
        · rcases hoth a (List.mem_cons_self a t) hac with h | h
          · rw [h]; rfl
          · rw [h]
      rw [hs]
      exact ih _ (fun k hk => hoth k (List.mem_cons_of_mem a hk)) (Or.inr rfl)

/-- The start-equals-end behaviour of `dijkstraGrid`, for any sufficient fuel. -/
lemma dijkstraGridF_self (grid : List (List ℚ)) (n : Nat) (c : Cell)
    (h1 : c.1 < n) (h2 : c.2 < n) (hobs : gridGet grid c.1 c.2 ≠ -1) (fuel : Nat) :
    dijkstraGridF (fuel + 2) grid n c c = some ⟨[], some NumV.inf, []⟩ := by
  have hcell : c ∈ gridCells n ∧ gridGet grid c.1 c.2 ≠ -1 :=
    ⟨mem_gridCells.mpr ⟨h1, h2⟩, hobs⟩
  have hinit := dijkstraGridInitFold grid c (gridCells n) ⟨[], [], [], []⟩
  have hd : objGet (dijkstraGridInit grid n c).distances c = some (NumV.fin 0) := by
    rw [show dijkstraGridInit grid n c =
      (gridCells n).foldl (dijkstraGridInitStep grid c) ⟨[], [], [], []⟩ from rfl,
      (hinit c).1, if_pos hcell, if_pos rfl]
  have hp : objGet (dijkstraGridInit grid n c).previous c = some none := by
    rw [show dijkstraGridInit grid n c =
      (gridCells n).foldl (dijkstraGridInitStep grid c) ⟨[], [], [], []⟩ from rfl,
      (hinit c).2.1, if_pos hcell]
  have hu : c ∈ (dijkstraGridInit grid n c).unvisited :=
    ((hinit c).2.2).mpr (Or.inl hcell)
  have hoth : ∀ k ∈ (dijkstraGridInit grid n c).unvisited, k ≠ c →
      objGet (dijkstraGridInit grid n c).distances k = some NumV.inf ∨
      objGet (dijkstraGridInit grid n c).distances k = none := by
    intro k hk hkc
    rcases ((hinit k).2.2).mp hk with hk' | hk'
    · left
      rw [show dijkstraGridInit grid n c =
        (gridCells n).foldl (dijkstraGridInitStep grid c) ⟨[], [], [], []⟩ from rfl,
        (hinit k).1, if_pos hk', if_neg hkc]
    · exact absurd hk' (List.not_mem_nil k)
  have hscan : (scanMin (dijkstraGridInit grid n c).distances
      (dijkstraGridInit grid n c).unvisited).1 = some c := by
    rw [show scanMin (dijkstraGridInit grid n c).distances
        (dijkstraGridInit grid n c).unvisited =
      (dijkstraGridInit grid n c).unvisited.foldl
        (scanStep (dijkstraGridInit grid n c).distances) (none, NumV.inf) from rfl,
      scanFold_unique hd _ _ hoth (Or.inl ⟨rfl, hu⟩)]
  have hne : (dijkstraGridInit grid n c).unvisited.isEmpty = false := by
    cases hop : (dijkstraGridInit grid n c).unvisited with
    | nil => rw [hop] at hu; exact absurd hu (List.not_mem_nil c)
    | cons a t => rfl
  have hloop : dijkstraGridLoop grid n c (fuel + 2) (dijkstraGridInit grid n c) =
      dijkstraGridInit grid n c := by
    rw [dijkstraGridLoop]
    rw [if_neg (by rw [hne]; exact Bool.false_ne_true), hscan]
    show (if c = c then _ else _) = _
    rw [if_pos rfl]
  have hrecon : reconChain none (dijkstraGridInit grid n c).previous (fuel + 2)
      (JV.val c) = some [JV.val c] := by
    show (if (JV.val c : JV Cell) = JV.jsnull then _ else _) = _
    rw [if_neg (by intro h; cases h)]
    rw [show prevLookup none (dijkstraGridInit grid n c).previous (JV.val c) =
      JV.jsnull from by simp only [prevLookup, hp]]
    rw [show reconChain none (dijkstraGridInit grid n c).previous (fuel + 1)
      JV.jsnull = some [] from by rw [reconChain]; rw [if_pos rfl]]
    rfl
  unfold dijkstraGridF
  dsimp only
  rw [hloop, hrecon]
  have hvis : (dijkstraGridInit grid n c).visited = [] := by
    show ((gridCells n).foldl (dijkstraGridInitStep grid c) ⟨[], [], [], []⟩).visited = []
    rw [dijkstraGridInitFold_vis]
  rw [Option.map_some']
  rw [hd, hvis]
  rfl

/-- C10: for any grid and non-obstacle cell `c`, `dijkstraGrid(graph, c, c)`
returns an empty path with distance `Infinity`: the reconstructed single-cell
chain fails the `length > 1` test, and the end cell's computed distance `0` is
falsy, so `distances[endCell] || Infinity` yields `Infinity`. Stated for every
sufficient fuel bound and for the exported wrapper. -/
theorem claimC10 :
    (∀ (grid : List (List ℚ)) (n : Nat) (c : Cell), c.1 < n → c.2 < n →
      gridGet grid c.1 c.2 ≠ -1 → ∀ fuel,
      dijkstraGridF (fuel + 2) grid n c c = some ⟨[], some NumV.inf, []⟩) ∧
    (∀ (g : Graph) (c : Cell), c.1 < g.gridSize → c.2 < g.gridSize →
      gridGet g.grid c.1 c.2 ≠ -1 →
      dijkstraGrid g c c = some ⟨[], some NumV.inf, []⟩) := by
  refine ⟨fun grid n c h1 h2 hobs fuel =>
    dijkstraGridF_self grid n c h1 h2 hobs fuel, ?wrap⟩
  intro g c h1 h2 hobs
  show dijkstraGridF (defFuel g) g.grid g.gridSize c c = _
  rw [show defFuel g = (2 * (g.nodes.length + g.gridSize * g.gridSize) + 2) + 2
    from by unfold defFuel; omega]
  exact dijkstraGridF_self _ _ _ h1 h2 hobs _

theorem claimC10_witness :
    dijkstraGrid zG (0, 0) (0, 0) = some ⟨[], some NumV.inf, []⟩ :=
  claimC10.2 zG (0, 0) (by decide) (by decide) (by decide)

lemma relaxGridNeighbor_prev (cur : Cell) (st : DijGridState) (nb : Nat × Nat × ℚ) :
    ∀ k c, objGet (relaxGridNeighbor cur st nb).previous k = some (some c) →
      objGet st.previous k = some (some c) ∨ c = cur := by
  intro k c h
  unfold relaxGridNeighbor at h
  dsimp only at h
  split at h
  · exact Or.inl h
  · split at h
    · exact Or.inl h
    · split at h
      · exact Or.inl h
      · split at h
        · by_cases hk : k = (nb.1, nb.2.1)
          · subst hk
            rw [objGet_objSet_self] at h
            cases h
            exact Or.inr rfl
          · rw [objGet_objSet_ne _ _ (Ne.symm hk)] at h
            exact Or.inl h
        · exact Or.inl h

lemma relaxGridFold_prev (grid : List (List ℚ)) (cur : Cell)
    (hcur : gridGet grid cur.1 cur.2 ≠ -1) :
    ∀ (L : List (Nat × Nat × ℚ)) (st : DijGridState),
      (∀ k c, objGet st.previous k = some (some c) → gridGet grid c.1 c.2 ≠ -1) →
      (∀ k c, objGet (L.foldl (relaxGridNeighbor cur) st).previous k = some (some c) →
        gridGet grid c.1 c.2 ≠ -1) := by
  intro L
  induction L with
  | nil => intro st h; exact h
  | cons a t ih =>
    intro st h
    rw [List.foldl_cons]
    refine ih _ ?step
    intro k c hk
    rcases relaxGridNeighbor_prev cur st a k c hk with hk | rfl
    · exact h k c hk
    · exact hcur

/-- Along the grid Dijkstra loop, every stored predecessor is a non-obstacle
cell (predecessors come from the unvisited set, which only ever holds
non-obstacle cells). -/
lemma dijkstraGridLoop_prev (grid : List (List ℚ)) (n : Nat) (endCell : Cell) :
    ∀ (fuel : Nat) (st : DijGridState),
      (∀ k ∈ st.unvisited, gridGet grid k.1 k.2 ≠ -1) →
      (∀ k c, objGet st.previous k = some (some c) → gridGet grid c.1 c.2 ≠ -1) →
      (∀ k c, objGet (dijkstraGridLoop grid n endCell fuel st).previous k =
          some (some c) → gridGet grid c.1 c.2 ≠ -1) := by
  intro fuel
  induction fuel with
  | zero => intro st _ h; exact h
  | succ m ih =>
    intro st hunv hprev
    rw [dijkstraGridLoop]
    split
    · exact hprev
    · split
      · exact hprev
      · split
        · exact hprev
        · rename_i cur hscan hcur
          have hcurn : gridGet grid cur.1 cur.2 ≠ -1 := hunv cur (scanMin_mem hscan)
          refine ih _ ?unv ?prev
          case unv =>
            intro k hk
            rw [(relaxGridFold_sets cur _ _).1] at hk
            exact hunv k (mem_setDelete hk)
          case prev =>
            exact relaxGridFold_prev grid cur hcurn _ _ hprev

lemma aStarGridRelax_shape (endCell cur : Cell) (st : AStarGridState) (nb : Nat × Nat × ℚ) :
    (∀ k c, objGet (aStarGridRelax endCell cur st nb).previous k = some (some c) →
      objGet st.previous k = some (some c) ∨ c = cur) ∧
    (∀ k, k ∈ (aStarGridRelax endCell cur st nb).openSet →
      k ∈ st.openSet ∨ k = (nb.1, nb.2.1)) := by
  unfold aStarGridRelax
  dsimp only
  split
  · exact ⟨fun k c h => Or.inl h, fun k h => Or.inl h⟩
  · split
    · exact ⟨fun k c h => Or.inl h, fun k h => Or.inl h⟩
    · split
      · exact ⟨fun k c h => Or.inl h, fun k h => Or.inl h⟩
      · split
        · refine ⟨?pv, ?os⟩
          case pv =>
            intro k c h
            by_cases hk : k = (nb.1, nb.2.1)
            · subst hk
              rw [objGet_objSet_self] at h
              cases h
              exact Or.inr rfl
            · rw [objGet_objSet_ne _ _ (Ne.symm hk)] at h
              exact Or.inl h
          case os =>
            intro k h
            exact mem_setAdd_iff.mp h
        · exact ⟨fun k c h => Or.inl h, fun k h => Or.inl h⟩

lemma aStarGridRelaxFold_inv (grid : List (List ℚ)) (endCell cur : Cell)
    (hcur : gridGet grid cur.1 cur.2 ≠ -1) :
    ∀ (L : List (Nat × Nat × ℚ)) (st : AStarGridState),
      (∀ nb ∈ L, gridGet grid nb.1 nb.2.1 ≠ -1) →
      (∀ k ∈ st.openSet, gridGet grid k.1 k.2 ≠ -1) →
      (∀ k c, objGet st.previous k = some (some c) → gridGet grid c.1 c.2 ≠ -1) →
      (∀ k ∈ (L.foldl (aStarGridRelax endCell cur) st).openSet,
        gridGet grid k.1 k.2 ≠ -1) ∧
      (∀ k c, objGet (L.foldl (aStarGridRelax endCell cur) st).previous k =
        some (some c) → gridGet grid c.1 c.2 ≠ -1) := by
  intro L
  induction L with
  | nil => intro st _ hop hpr; exact ⟨hop, hpr⟩
  | cons a t ih =>
    intro st hL hop hpr
    rw [List.foldl_cons]
    refine ih _ (fun nb hnb => hL nb (List.mem_cons_of_mem a hnb)) ?op ?pr
    case op =>
      intro k hk
      rcases (aStarGridRelax_shape endCell cur st a).2 k hk with hk | rfl
      · exact hop k hk
      · exact hL a (List.mem_cons_self a t)
    case pr =>
      intro k c hk
      rcases (aStarGridRelax_shape endCell cur st a).1 k c hk with hk | rfl
      · exact hpr k c hk
      · exact hcur

/-- Every value cell of a path returned by the grid A* loop is a non-obstacle
cell, given the open-set and predecessor invariants. -/
lemma aStarGridLoop_path (grid : List (List ℚ)) (n : Nat) (endCell : Cell)
    (hend : gridGet grid endCell.1 endCell.2 ≠ -1) :
    ∀ (fuel : Nat) (st : AStarGridState),
      (∀ k ∈ st.openSet, gridGet grid k.1 k.2 ≠ -1) →
      (∀ k c, objGet st.previous k = some (some c) → gridGet grid c.1 c.2 ≠ -1) →
      ∀ r, aStarGridLoop grid n endCell fuel st = some r →
      ∀ x : Cell, JV.val x ∈ r.path → gridGet grid x.1 x.2 ≠ -1 := by
  intro fuel
  induction fuel with
  | zero => intro st _ _ r h; cases h
  | succ m ih =>
    intro st hop hpr r h
    rw [aStarGridLoop] at h
    split at h
    · cases h
      intro x hx
      cases hx
    · split at h
      · rename_i cur hscan
        split at h
        · rename_i hcur
          rcases Option.map_eq_some'.mp h with ⟨chain, hchain, hr⟩
          cases hr
          intro x hx
          rw [List.mem_reverse] at hx
          rcases reconChain_elems _ _ chain hchain (JV.val x) hx with hx' | ⟨k, c, hk, hx'⟩
          · rw [show x = endCell from (JV.val.inj hx').trans hcur]
            exact hend
          · rw [show x = c from JV.val.inj hx']
            exact hpr k c hk
        · rename_i hcur
          have hcurn : gridGet grid cur.1 cur.2 ≠ -1 := hop cur (scanMin_mem hscan)
          have hinv := aStarGridRelaxFold_inv grid endCell cur hcurn
            (getGridNeighborsJS grid n cur.1 cur.2)
            { st with
              openSet := setDelete st.openSet cur
              closedSet := setAdd st.closedSet (JV.val cur) }
            (by
              intro nb hnb
              exact ((mem_getGridNeighborsJS_iff grid n cur.1 cur.2
                nb.1 nb.2.1 nb.2.2).mp hnb).2.2.2.1)
            (fun k hk => hop k (mem_setDelete hk))
            hpr
          exact ih _ hinv.1 hinv.2 r h
      · exact ih { st with closedSet := setAdd st.closedSet JV.jsnull } hop hpr r h

/-- Every value cell of a `dijkstraGrid` result path is a non-obstacle cell. -/
lemma dijkstraGridF_path (fuel : Nat) (grid : List (List ℚ)) (n : Nat)
    (sc ec : Cell) (hend : gridGet grid ec.1 ec.2 ≠ -1) (r : SearchResult Cell)
    (h : dijkstraGridF fuel grid n sc ec = some r) :
    ∀ x : Cell, JV.val x ∈ r.path → gridGet grid x.1 x.2 ≠ -1 := by
  unfold dijkstraGridF at h
  dsimp only at h
  rcases Option.map_eq_some'.mp h with ⟨chain, hchain, hr⟩
  cases hr
  intro x hx
  dsimp only at hx
  have hmem : JV.val x ∈ chain := by
    rcases hlen : decide (1 < chain.length) with _ | _
    · rw [if_neg (by simpa using hlen)] at hx
      cases hx
    · rw [if_pos (by simpa using hlen)] at hx
      exact List.mem_reverse.mp hx
  have hprev : ∀ k c,
      objGet (dijkstraGridLoop grid n ec fuel (dijkstraGridInit grid n sc)).previous k =
        some (some c) → gridGet grid c.1 c.2 ≠ -1 := by
    refine dijkstraGridLoop_prev grid n ec fuel _ ?unv ?pr
    case unv =>
      intro k hk
      exact (((dijkstraGridInitFold grid sc (gridCells n) ⟨[], [], [], []⟩ k).2.2.mp
        hk).resolve_right (List.not_mem_nil k)).2
    case pr =>
      intro k c hk
      unfold dijkstraGridInit at hk
      rw [(dijkstraGridInitFold grid sc (gridCells n) ⟨[], [], [], []⟩ k).2.1] at hk
      split at hk
      · cases hk
      · cases hk
  rcases reconChain_elems _ _ chain hchain (JV.val x) hmem with hx' | ⟨k, c, hk, hx'⟩
  · rw [show x = ec from JV.val.inj hx']
    exact hend
  · rw [show x = c from JV.val.inj hx']
    exact hprev k c hk

lemma aStarGridInitFold_ops (grid : List (List ℚ)) (startCell endCell : Cell) :
    ∀ (cells : List Cell) (st : AStarGridState),
      ((cells.foldl (fun st rc =>
        if gridGet grid rc.1 rc.2 = -1 then st
        else
          { st with
            gScore := objSet st.gScore rc (if rc = startCell then NumV.fin 0 else NumV.inf)
            fScore := objSet st.fScore rc
              (if rc = startCell then NumV.fin (manhattanDistance rc endCell) else NumV.inf)
            previous := objSet st.previous rc none }) st).openSet = st.openSet) ∧
      (∀ k c, objGet ((cells.foldl (fun st rc =>
        if gridGet grid rc.1 rc.2 = -1 then st
        else
          { st with
            gScore := objSet st.gScore rc (if rc = startCell then NumV.fin 0 else NumV.inf)
            fScore := objSet st.fScore rc
              (if rc = startCell then NumV.fin (manhattanDistance rc endCell) else NumV.inf)
            previous := objSet st.previous rc none }) st).previous) k = some (some c) →
        objGet st.previous k = some (some c)) := by
  intro cells
  induction cells with
  | nil => intro st; exact ⟨rfl, fun k c h => h⟩
  | cons a t ih =>
    intro st
    rw [List.foldl_cons]
    rcases ih _ with ⟨iho, ihp⟩
    constructor
    · rw [iho]
      split
      · rfl
      · rfl
    · intro k c h
      have h2 := ihp k c h
      revert h2
      split
      · exact fun h2 => h2
      · intro h2
        by_cases hk : k = a
        · subst hk
          rw [objGet_objSet_self] at h2
          cases h2
        · rw [objGet_objSet_ne _ _ (Ne.symm hk)] at h2
          exact h2

/-- C7: a cell with code `-1` never appears in any neighbor list (both
implementations) nor in any path returned by the grid searches (whose start
and end cells are not obstacles), for every fuel bound. -/
theorem claimC7 :
    (∀ (g : Graph) (row col : Int) (r c : Nat) (w : ℚ),
      (r, c, w) ∈ g.getGridNeighbors row col → gridGet g.grid r c ≠ -1) ∧
    (∀ (grid : List (List ℚ)) (n : Nat) (row col : Int) (r c : Nat) (w : ℚ),
      (r, c, w) ∈ getGridNeighborsJS grid n row col → gridGet grid r c ≠ -1) ∧
    (∀ (fuel : Nat) (grid : List (List ℚ)) (n : Nat) (sc ec : Cell)
      (r : SearchResult Cell),
      gridGet grid sc.1 sc.2 ≠ -1 → gridGet grid ec.1 ec.2 ≠ -1 →
      dijkstraGridF fuel grid n sc ec = some r →
      ∀ x : Cell, JV.val x ∈ r.path → gridGet grid x.1 x.2 ≠ -1) ∧
    (∀ (fuel : Nat) (grid : List (List ℚ)) (n : Nat) (sc ec : Cell)
      (r : SearchResult Cell),
      gridGet grid sc.1 sc.2 ≠ -1 → gridGet grid ec.1 ec.2 ≠ -1 →
      aStarGridF fuel grid n sc ec = some r →
      ∀ x : Cell, JV.val x ∈ r.path → gridGet grid x.1 x.2 ≠ -1) := by
  refine ⟨?ts, ?js, ?dg, ?ag⟩
  case ts =>
    intro g row col r c w h
    have hge := ((mem_getGridNeighbors_iff g row col r c w).mp h).2.2.2.1
    intro hq
    rw [hq] at hge
    norm_num at hge
  case js =>
    intro grid n row col r c w h
    exact ((mem_getGridNeighborsJS_iff grid n row col r c w).mp h).2.2.2.1
  case dg =>
    intro fuel grid n sc ec r _ hec h
    exact dijkstraGridF_path fuel grid n sc ec hec r h
  case ag =>
    intro fuel grid n sc ec r hsc hec h
    refine aStarGridLoop_path grid n ec hec fuel _ ?op ?pr r h
    case op =>
      intro k hk
      rw [show (aStarGridInit grid n sc ec).openSet = [sc] from
        (aStarGridInitFold_ops grid sc ec (gridCells n) ⟨[sc], [], [], [], []⟩).1] at hk
      rw [List.mem_singleton.mp hk]
      exact hsc
    case pr =>
      intro k c hk
      have h2 := (aStarGridInitFold_ops grid sc ec (gridCells n)
        ⟨[sc], [], [], [], []⟩).2 k c hk
      cases h2

/-- The 3×3 grid with an obstacle in the centre. -/
def oGrid : List (List ℚ) := [[1, 1, 1], [1, -1, 1], [1, 1, 1]]

/-- A grid-mode graph carrying `oGrid`. -/
def oG3 : Graph :=
  { nodes := []
    edges := []
    nodeCounter := 0
    grid := oGrid
    gridSize := 3
    cellSize := 30
    isGridMode := true
    finalPath := []
    visitedCells := []
    isPathHighlighted := false }

theorem claimC7_witness :
    gridGet oG3.grid 0 1 ≠ -1 ∧ gridGet oGrid 0 1 ≠ -1 ∧
    gridGet oGrid 0 1 ≠ -1 ∧ gridGet oGrid 1 0 ≠ -1 :=
  ⟨claimC7.1 oG3 0 0 0 1 1 (by with_unfolding_all decide),
    claimC7.2.1 oGrid 3 0 0 0 1 1 (by with_unfolding_all decide),
    claimC7.2.2.1 22 oGrid 3 (0, 0) (2, 2)
      ⟨[JV.val (0, 0), JV.val (0, 1), JV.val (0, 2), JV.val (1, 2), JV.val (2, 2)],
        some (NumV.fin 4),
        [JV.val (0, 0), JV.val (0, 1), JV.val (1, 0), JV.val (0, 2), JV.val (2, 0),
          JV.val (1, 2), JV.val (2, 1)]⟩
      (by decide) (by decide) (by with_unfolding_all rfl) (0, 1) (by decide),
    claimC7.2.2.2 22 oGrid 3 (0, 0) (2, 2)
      ⟨[JV.val (0, 0), JV.val (1, 0), JV.val (2, 0), JV.val (2, 1), JV.val (2, 2)],
        some (NumV.fin 4),
        [JV.val (0, 0), JV.val (1, 0), JV.val (0, 1), JV.val (2, 0), JV.val (0, 2),
          JV.val (2, 1), JV.val (1, 2)]⟩
      (by decide) (by decide) (by with_unfolding_all rfl) (1, 0) (by decide)⟩

/-- Soundness of a `gScore` table: every finite entry is the cost of a real
walk from the start. -/
def GSound (edges : List (String × Edge)) (s : String)
    (gs : List (String × NumV)) : Prop :=
  ∀ k q, objGet gs k = some (NumV.fin q) → ReachIn edges s (fun _ => True) k q

lemma aStarRelax_gsound {nodes : List (String × Node)} {edges : List (String × Edge)}
    {s endId cur : String} {st st' : AStarState} {nb : String}
    (hstep : isStepE edges cur nb)
    (h : aStarRelax nodes edges endId cur st nb = some st')
    (hg : GSound edges s st.gScore) : GSound edges s st'.gScore := by
  unfold aStarRelax at h
  dsimp only at h
  split at h
  · cases h; exact hg
  · split at h
    · cases h; exact hg
    · rename_i gc hgc
      split at h
      · cases h; exact hg
      · rename_i gnb hgnb
        split at h
        · rename_i hlt
          split at h
          · cases h
            intro k q hk
            by_cases hknb : k = nb
            · subst hknb
              rw [show objGet (objSet st.gScore k
                  (gc.add (match getEdgeE edges cur k with
                    | some ed => NumV.fin ed.weight
                    | none => NumV.inf))) k = some (gc.add
                  (match getEdgeE edges cur k with
                    | some ed => NumV.fin ed.weight
                    | none => NumV.inf)) from objGet_objSet_self _ _ _] at hk
              have hk' := Option.some.inj hk
              rcases NumV.add_fin hk' with ⟨x, y, hx, hy, hq⟩
              cases hE : getEdgeE edges cur k with
              | none => rw [hE] at hy; cases hy
              | some ed =>
                rw [hE] at hy
                have hyw : y = ed.weight := (NumV.fin.inj hy).symm
                have hcur : ReachIn edges s (fun _ => True) cur x := by
                  apply hg cur
                  rw [hgc, hx]
                have hsw : stepW edges cur k = ed.weight := by
                  unfold stepW
                  rw [hE]
                have := ReachIn.step hcur trivial hstep
                rw [hsw] at this
                rw [hq, hyw]
                exact this
            · rw [objGet_objSet_ne _ _ (Ne.symm hknb)] at hk
              exact hg k q hk
          · cases h
        · cases h; exact hg

lemma aStarRelaxFold_gsound {nodes : List (String × Node)} {edges : List (String × Edge)}
    {s endId cur : String} :
    ∀ (L : List String) (st st' : AStarState),
      (∀ nb ∈ L, isStepE edges cur nb) →
      L.foldlM (aStarRelax nodes edges endId cur) st = some st' →
      GSound edges s st.gScore → GSound edges s st'.gScore := by
  intro L
  induction L with
  | nil => intro st st' _ h hg; cases h; exact hg
  | cons a t ih =>
    intro st st' hL h hg
    rw [List.foldlM_cons] at h
    cases ha : aStarRelax nodes edges endId cur st a with
    | none => rw [ha] at h; cases h
    | some s1 =>
      rw [ha] at h
      exact ih s1 st' (fun nb hnb => hL nb (List.mem_cons_of_mem a hnb)) h
        (aStarRelax_gsound (hL a (List.mem_cons_self a t)) ha hg)

/-- A finite distance reported by the A* main loop is the cost of a real walk
to the end node. -/
lemma aStarLoop_gsound {nodes : List (String × Node)} {edges : List (String × Edge)}
    {s endId : String} :
    ∀ (fuel : Nat) (st : AStarState), GSound edges s st.gScore →
      ∀ r, aStarLoop nodes edges endId fuel st = some (JSRes.ok r) →
      ∀ q, r.distance = some (NumV.fin q) →
      ReachIn edges s (fun _ => True) endId q := by
  intro fuel
  induction fuel with
  | zero => intro st _ r h; cases h
  | succ n ih =>
    intro st hg r h q hq
    rw [aStarLoop] at h
    split at h
    · cases h
      cases hq
    · split at h
      · rename_i cur hscan
        split at h
        · rename_i hcur
          rcases Option.map_eq_some'.mp h with ⟨chain, _, hr⟩
          cases hr
          exact hg endId q hq
        · split at h
          · rename_i st2 hfold
            refine ih st2 ?g2 r h q hq
            refine aStarRelaxFold_gsound _ _ _ ?steps hfold hg
            intro nb hnb
            exact mem_getNeighborsE.mp hnb
          · cases h
      · exact ih { st with closedSet := setAdd st.closedSet JV.jsnull } hg r h q hq

lemma aStarInitStep_gsound {nodes : List (String × Node)} {edges : List (String × Edge)}
    {s endId : String} {st st' : AStarState} {k : String}
    (h : aStarInitStep nodes s endId st k = some st')
    (hg : GSound edges s st.gScore) : GSound edges s st'.gScore := by
  unfold aStarInitStep at h
  split at h
  · rename_i hks
    split at h
    · cases h
      intro k' q hk'
      by_cases hkk : k' = k
      · subst hkk
        rw [objGet_objSet_self] at hk'
        rcases NumV.fin.inj (Option.some.inj hk') with rfl
        rw [hks]
        exact ReachIn.refl
      · rw [objGet_objSet_ne _ _ (Ne.symm hkk)] at hk'
        exact hg k' q hk'
    · cases h
  · cases h
    intro k' q hk'
    by_cases hkk : k' = k
    · subst hkk
      rw [objGet_objSet_self] at hk'
      cases Option.some.inj hk'
    · rw [objGet_objSet_ne _ _ (Ne.symm hkk)] at hk'
      exact hg k' q hk'

lemma aStarInit_gsound {nodes : List (String × Node)} {edges : List (String × Edge)}
    {s endId : String} {st : AStarState}
    (h : aStarInit nodes s endId = some st) : GSound edges s st.gScore := by
  unfold aStarInit at h
  have hfold : ∀ (keys : List String) (st0 st1 : AStarState),
      keys.foldlM (aStarInitStep nodes s endId) st0 = some st1 →
      GSound edges s st0.gScore → GSound edges s st1.gScore := by
    intro keys
    induction keys with
    | nil => intro st0 st1 hh hg; cases hh; exact hg
    | cons a t ih =>
      intro st0 st1 hh hg
      rw [List.foldlM_cons] at hh
      cases ha : aStarInitStep nodes s endId st0 a with
      | none => rw [ha] at hh; cases hh
      | some s1 =>
        rw [ha] at hh
        exact ih s1 st1 hh (aStarInitStep_gsound ha hg)
  refine hfold _ _ _ h ?base
  intro k q hk
  cases hk

/-- C2 (amended): a finite distance reported by free-form `aStar` is the
weight of a real path from start to end, and therefore at least the distance
reported by `dijkstra`. Equality can fail because the Euclidean heuristic over
canvas coordinates is not admissible with respect to arbitrary edge weights
(see the counterexample). -/
theorem claimC2 (g : Graph) (s e : String) (wf : FreeGraphWF g)
    (hs : s ∈ g.nodes.map Prod.fst) (he : e ∈ g.nodes.map Prod.fst)
    (r : SearchResult String) (q : ℚ)
    (ha : aStar g s e = some (JSRes.ok r)) (hq : r.distance = some (NumV.fin q)) :
    (∃ l, IsPath g.edges s e l ∧ pathWeight g.edges l = q) ∧
    (∃ rd qd, dijkstra g s e = some rd ∧ rd.distance = some (NumV.fin qd) ∧
      qd ≤ q) := by
  have ha' : aStarFree (defFuel g) g.nodes g.edges s e = some (JSRes.ok r) := by
    unfold aStar aStarFuel at ha
    rw [wf.gridMode] at ha
    exact ha
  unfold aStarFree at ha'
  split at ha'
  · cases ha'
  · rename_i st0 hinit
    have hreach : ReachIn g.edges s (fun _ => True) e q :=
      aStarLoop_gsound (defFuel g) st0 (aStarInit_gsound hinit) r ha' q hq
    have hpath := isPath_of_reachIn g.edges s hreach
    rcases dijkstra_shortest g s e wf hs he
      (by rcases hpath with ⟨l, hl, _⟩; exact ⟨l, hl⟩) with
      ⟨rd, qd, hrd, hrdd, _, hmin⟩
    refine ⟨hpath, rd, qd, hrd, hrdd, ?le⟩
    rcases hpath with ⟨l, hl, hw⟩
    rw [← hw]
    exact hmin l hl

/-- Free-form graph with nodes A(0,0), B(3,4), C(6,8), edges A–B and B–C of
weight 1 and A–C of weight 3: the Euclidean heuristic (5 from B, 0 from C)
makes A* expand C directly. -/
def cexG : Graph :=
  { nodes := [("A", ⟨"A", 0, 0, "A"⟩), ("B", ⟨"B", 3, 4, "B"⟩), ("C", ⟨"C", 6, 8, "C"⟩)]
    edges := [(edgeKey ("A") ("B"), ⟨"A", "B", 1⟩), (edgeKey ("B") ("A"), ⟨"B", "A", 1⟩),
      (edgeKey ("B") ("C"), ⟨"B", "C", 1⟩), (edgeKey ("C") ("B"), ⟨"C", "B", 1⟩),
      (edgeKey ("A") ("C"), ⟨"A", "C", 3⟩), (edgeKey ("C") ("A"), ⟨"C", "A", 3⟩)]
    nodeCounter := 3
    grid := List.replicate 15 (List.replicate 15 0)
    gridSize := 15
    cellSize := 30
    isGridMode := false
    finalPath := []
    visitedCells := []
    isPathHighlighted := false }

/-- C2 (counterexample to the claim as stated): on `cexG` with endpoints
A and C, `dijkstra` reports distance 2 (via B) while `aStar` reports 3 —
the reported distances differ. -/
theorem claimC2_cex :
    dijkstra cexG ("A") ("C") =
      some ⟨[JV.val ("A"), JV.val ("B"), JV.val ("C")], some (NumV.fin 2),
        [JV.val ("A"), JV.val ("B")]⟩ ∧
    aStar cexG ("A") ("C") =
      some (JSRes.ok ⟨[JV.val ("A"), JV.val ("C")], some (NumV.fin 3),
        [JV.val ("A")]⟩) := by
  constructor
  · with_unfolding_all rfl
  · with_unfolding_all rfl

theorem claimC2_witness :
    (∃ l, IsPath cexG.edges ("A") ("C") l ∧ pathWeight cexG.edges l = 3) ∧
    (∃ rd qd, dijkstra cexG ("A") ("C") = some rd ∧
      rd.distance = some (NumV.fin qd) ∧ qd ≤ 3) :=
  claimC2 cexG ("A") ("C")
    ⟨by decide, by decide, by decide, by decide, by decide, by decide⟩
    (by decide) (by decide)
    ⟨[JV.val ("A"), JV.val ("C")], some (NumV.fin 3), [JV.val ("A")]⟩ 3
    (by with_unfolding_all rfl) rfl
